import Mathlib

/-!
Shallow embedding of the argparse C++ header (`include/argparse/argparse.hpp`,
ArgumentParser v0.3.0) and proofs about the claims on its specification.

Modelling conventions:
* `std::string` is Lean `String`; character-level operations are defined on
  `String.data` (`List Char`).
* C++ exceptions become `Except Err`; each exception class of the header is one
  `ErrKind` tag.  `handle_error` (which throws a bare `std::logic_error` after
  printing usage to stderr) is the `parseError` tag; the stream output itself is
  not modelled.  `print_help`/version printing followed by `exit(0)` become the
  `helpExit`/`versionExit` tags.
* File reads of `convert_arg_line_to_args` are modelled by an oracle
  `fs : String → Option (List String)` mapping a file name to its lines.
* `std::map<std::string, ArgumentValue>` is an association list kept sorted by
  key (insertion happens only in `createResult`, guarded by a `count` check, so
  keys stay unique); `result.at(k)` is only ever applied to keys created by
  `createResult`, so the update function is total and leaves the map unchanged
  on a missing key (that branch is unreachable).
* `m_callback` (a `std::function<void()>`) carries no data relevant to parsing;
  it is modelled as a `Bool` recording whether a callback is installed.
* Parent parsers only contribute their argument lists by concatenation and
  sub-parsers are never consulted by `parse_known_args`, so the parser model
  keeps the flattened `m_arguments` list only.
* `_is_negative_number` uses `stringstream >> double`; it is modelled by a
  decimal/scientific literal recognizer (no inf/nan/hex forms and no
  out-of-range failure, which `operator>>` would reject).
* `arg.front()` on an empty `std::string` is undefined behaviour in C++; the
  model reads a NUL character there.
-/

set_option autoImplicit false

deriving instance DecidableEq for Except

namespace ArgparseModel

/-- Characters accepted by `isspace` in the default locale (used by `_trim`). -/
def isSpaceChar (c : Char) : Bool :=
  c = ' ' || c = '\t' || c = '\n' || c = '\x0b' || c = '\x0c' || c = '\r'

/-- `detail::_trim_copy`: strip leading and trailing whitespace. -/
def trimCopy (s : String) : String :=
  String.mk (((s.data.dropWhile isSpaceChar).reverse.dropWhile isSpaceChar).reverse)

/-- `detail::_remove_quotes`: drop a matching pair of outer quotes. -/
def removeQuotes (s : String) : String :=
  let l := s.data
  if l.length > 1 ∧ l.head? = l.getLast? ∧
      (l.head? = some (Char.ofNat 39) ∨ l.head? = some (Char.ofNat 34)) then
    String.mk ((l.drop 1).dropLast)
  else s

/-- Split a character list at the first occurrence of `c` (helper for
`_split_equal` and the number recognizer). -/
def splitAtChar (c : Char) : List Char → Option (List Char × List Char)
  | [] => none
  | x :: xs =>
    if x = c then some ([], xs)
    else (splitAtChar c xs).map (fun p => (x :: p.1, p.2))

/-- `detail::_split_equal`: split at the first `'='` into two parts, or return
the string unchanged as a singleton. -/
def splitEqual (s : String) : List String :=
  match splitAtChar '=' s.data with
  | some (a, b) => [String.mk a, String.mk b]
  | none => [s]

/-- `detail::_starts_with`: `pattern` is a prefix of `str`. -/
def startsWithStr (str pat : String) : Bool :=
  pat.data.isPrefixOf str.data

/-- `detail::_is_string_contains_char`. -/
def containsChar (str : String) (c : Char) : Bool :=
  str.data.contains c

/-- First character of a string; NUL when empty (`front()` on an empty
`std::string` is UB in C++ and unreachable at the modelled call sites). -/
def frontChar (s : String) : Char :=
  s.data.headD (Char.ofNat 0)

/-- `detail::_is_optional_argument`: first character is a prefix character. -/
def isOptionalArgument (arg prefixChars : String) : Bool :=
  containsChar prefixChars (frontChar arg)

/-- `detail::_flag_name`: strip the leading run of the first character. -/
def flagName (s : String) : String :=
  match s.data with
  | [] => ""
  | c :: _ => String.mk (s.data.dropWhile (· = c))

def digitsOnly (l : List Char) : Bool := l.all (·.isDigit)

def hasNonzeroDigit (l : List Char) : Bool := l.any (fun c => c.isDigit && c ≠ '0')

/-- Mantissa of a decimal literal: `digits+ [. digits*]` or `digits* . digits+`. -/
def validMantissa (l : List Char) : Bool :=
  match splitAtChar '.' l with
  | none => decide (l ≠ []) && digitsOnly l
  | some (a, b) => digitsOnly a && digitsOnly b && (decide (a ≠ []) || decide (b ≠ []))

/-- Split at the first exponent marker `e`/`E`. -/
def splitAtExp : List Char → Option (List Char × List Char)
  | [] => none
  | x :: xs =>
    if x = 'e' ∨ x = 'E' then some ([], xs)
    else (splitAtExp xs).map (fun p => (x :: p.1, p.2))

/-- Exponent part: optional sign then at least one digit. -/
def validExpPart : List Char → Bool
  | [] => false
  | c :: rest =>
    if c = '+' ∨ c = '-' then decide (rest ≠ []) && digitsOnly rest
    else digitsOnly (c :: rest)

/-- `detail::_is_negative_number`: the whole string parses as a decimal number
with a strictly negative value. -/
def isNegativeNumber (s : String) : Bool :=
  match s.data with
  | [] => false
  | c0 :: rest =>
    let (neg, body) :=
      if c0 = '-' then (true, rest)
      else if c0 = '+' then (false, rest)
      else (false, c0 :: rest)
    let ok :=
      match splitAtExp body with
      | none => validMantissa body
      | some (m, e) => validMantissa m && validExpPart e
    let mant := match splitAtExp body with
      | none => body
      | some (m, _) => m
    neg && ok && hasNonzeroDigit mant

/-- `detail::_vector_string_to_string`. -/
def vectorStringToString (vec : List String) (sep : String) (quotes : String) : String :=
  vec.foldl (fun res el =>
    (if res = "" then res else res ++ sep) ++ quotes ++ el ++ quotes) ""

/-- `argparse::Action`. -/
inductive Action
  | store | store_const | store_true | store_false
  | append | append_const | count | help | version | extend
deriving DecidableEq

/-- The actions matched by the bitmask `store | append | extend`. -/
def isStoreAction : Action → Bool
  | .store | .append | .extend => true
  | _ => false

/-- `Argument::Type`. -/
inductive ArgType
  | Positional | Optional
deriving DecidableEq

/-- Error classes of the header.  `parseError` corresponds to the bare
`std::logic_error` thrown by `ArgumentParser::handle_error` for user-input
problems; `helpExit`/`versionExit` model `exit(0)` after printing;
`outOfFuel` marks exhaustion of the structural-recursion fuel of the main
token walk (provably unreachable when the fuel is the token count). -/
inductive ErrKind
  | argumentError | attributeError | valueError | indexError | typeError
  | parseError | helpExit | versionExit | outOfFuel
deriving DecidableEq

structure Err where
  kind : ErrKind
  msg : String
deriving DecidableEq

/-- `ArgumentParser::Argument` (data fields). -/
structure Argument where
  m_flags : List String
  m_name : String
  m_type : ArgType
  m_action : Action := .store
  m_nargs : String := ""
  m_num_args : Nat := 0
  m_const : String := ""
  m_default : String := ""
  m_choices : List String := []
  m_required : Bool := false
  m_help : String := ""
  m_help_suppress : Bool := false
  m_metavar : String := ""
  m_dest : String := ""
  m_version : String := ""
  m_callback : Bool := false
deriving DecidableEq

/-- `Argument::action(Action)`. -/
def Argument.actionA (a0 : Argument) (value : Action) : Except Err Argument :=
  let a1 := if a0.m_action ≠ Action.store_true then { a0 with m_callback := false } else a0
  let a := if a1.m_action = Action.version then { a1 with m_help := "" } else a1
  match value with
  | .store_true =>
    pure { a with m_default := "0", m_const := "1", m_nargs := "0", m_num_args := 0,
                  m_choices := [], m_action := value }
  | .store_false =>
    pure { a with m_default := "1", m_const := "0", m_nargs := "0", m_num_args := 0,
                  m_choices := [], m_action := value }
  | .version =>
    let a := { a with m_help := "show program version number and exit" }
    if a.m_type = ArgType.Positional then
      throw ⟨.typeError, "got an unexpected keyword argument: required"⟩
    else
      pure { a with m_nargs := "0", m_num_args := 0, m_choices := [], m_action := value }
  | .help =>
    if a.m_type = ArgType.Positional then
      throw ⟨.typeError, "got an unexpected keyword argument: required"⟩
    else
      pure { a with m_nargs := "0", m_num_args := 0, m_choices := [], m_action := value }
  | .store_const | .append_const | .count =>
    pure { a with m_nargs := "0", m_num_args := 0, m_choices := [], m_action := value }
  | .store | .append | .extend =>
    pure { a with m_nargs := if a.m_nargs = "0" then "" else a.m_nargs, m_action := value }

/-- `Argument::nargs(uint32_t)`. -/
def Argument.nargsN (a : Argument) (value : Nat) : Except Err Argument :=
  match a.m_action with
  | .store_const | .store_true | .store_false | .append_const | .help | .version | .count =>
    throw ⟨.typeError, "got an unexpected keyword argument: nargs"⟩
  | .store =>
    if value = 0 then throw ⟨.valueError, "nargs for store actions must be != 0"⟩
    else pure { a with m_nargs := toString value, m_num_args := value }
  | .append | .extend =>
    if value = 0 then throw ⟨.valueError, "nargs for append actions must be != 0"⟩
    else pure { a with m_nargs := toString value, m_num_args := value }

/-- `Argument::nargs(std::string)`. -/
def Argument.nargsS (a : Argument) (value : String) : Except Err Argument :=
  if ¬ isStoreAction a.m_action then
    throw ⟨.typeError, "got an unexpected keyword argument: nargs"⟩
  else
    let param := trimCopy value
    if ¬ (param = "?" ∨ param = "*" ∨ param = "+") then
      throw ⟨.valueError, "invalid nargs value " ++ param⟩
    else pure { a with m_nargs := param, m_num_args := 0 }

/-- `Argument::const_value`. -/
def Argument.constValue (a : Argument) (value : String) : Except Err Argument :=
  if (a.m_action = Action.store_const ∨ a.m_action = Action.append_const)
      ∨ (a.m_type = ArgType.Optional ∧ a.m_nargs = "?" ∧ isStoreAction a.m_action) then
    pure { a with m_const := trimCopy value }
  else if a.m_type = ArgType.Optional ∧ a.m_nargs ≠ "?" ∧ isStoreAction a.m_action then
    throw ⟨.valueError, "nargs must be ? to supply const"⟩
  else
    throw ⟨.typeError, "got an unexpected keyword argument: const"⟩

/-- `Argument::default_value`: a silent no-op for `store_true`/`store_false`. -/
def Argument.defaultValue (a : Argument) (value : String) : Argument :=
  if ¬ (a.m_action = Action.store_true ∨ a.m_action = Action.store_false) then
    { a with m_default := trimCopy value }
  else a

/-- `Argument::choices`. -/
def Argument.choicesSet (a : Argument) (value : List String) : Except Err Argument :=
  if ¬ isStoreAction a.m_action then
    throw ⟨.typeError, "got an unexpected keyword argument: choices"⟩
  else
    pure { a with m_choices := (value.map trimCopy).filter (· ≠ "") }

/-- `Argument::required`. -/
def Argument.requiredSet (a : Argument) (value : Bool) : Except Err Argument :=
  if a.m_type = ArgType.Positional then
    throw ⟨.typeError, "required is an invalid argument for positionals"⟩
  else pure { a with m_required := value }

/-- `Argument::help(std::string)`. -/
def Argument.helpMsg (a : Argument) (value : String) : Argument :=
  { a with m_help := trimCopy value, m_help_suppress := false }

/-- `Argument::dest`. -/
def Argument.destSet (a : Argument) (value : String) : Except Err Argument :=
  if a.m_type = ArgType.Positional then
    throw ⟨.valueError, "dest supplied twice for positional argument"⟩
  else pure { a with m_dest := trimCopy value }

/-- `Argument::version(std::string)`. -/
def Argument.versionSet (a : Argument) (value : String) : Except Err Argument :=
  if a.m_action = Action.version then pure { a with m_version := trimCopy value }
  else throw ⟨.typeError, "got an unexpected keyword argument: version"⟩

/-- Flag-name update step of `add_argument` (`_update_flag_name`). -/
def updateFlagName (arg : String) (acc : String × Nat) : String × Nat :=
  let name := flagName arg
  let cnt := arg.data.length - name.data.length
  if acc.2 < cnt then (name, cnt) else acc

/-- `add_argument` (validation plus construction of the stored `Argument`;
the C++ method appends the result to `m_arguments` and returns a reference to
it, which subsequent builder calls mutate — composed here functionally). -/
def mkArgument (prefixChars : String) (flags0 : List String) : Except Err Argument := do
  match flags0 with
  | [] => throw ⟨.valueError, "empty options"⟩
  | f0 :: rest =>
    let f0 := trimCopy f0
    if f0 = "" then throw ⟨.indexError, "string index out of range"⟩
    else
      let isOpt := isOptionalArgument f0 prefixChars
      let acc1 := if isOpt then updateFlagName f0 (f0, 0) else (f0, 0)
      if ¬ isOpt ∧ rest ≠ [] then
        throw ⟨.valueError, "invalid option string " ++ f0⟩
      else do
        let acc2 ← rest.foldlM (fun acc fl => do
          if fl = "" then throw ⟨.indexError, "string index out of range"⟩
          else if ¬ isOptionalArgument fl prefixChars then
            throw (⟨.valueError, "invalid option string " ++ fl⟩ : Err)
          else pure (updateFlagName fl acc)) acc1
        pure { m_flags := f0 :: rest, m_name := acc2.1,
               m_type := if isOpt then ArgType.Optional else ArgType.Positional }

/-- `ArgumentParser` (flattened: no parents, no sub-parsers; neither affects
`parse_known_args` beyond the flattened argument lists). -/
structure ArgumentParser where
  m_prog : String := "untitled"
  m_usage : String := ""
  m_description : String := ""
  m_epilog : String := ""
  m_prefix_chars : String := "-"
  m_fromfile_prefix_chars : String := ""
  m_argument_default : String := ""
  m_add_help : Bool := true
  m_allow_abbrev : Bool := true
  m_exit_on_error : Bool := true
  m_arguments : List Argument := []
deriving DecidableEq

/-- The synthetic help argument `-h`, `--help` (`m_help_argument`). -/
def helpArgument : Argument :=
  { m_flags := ["-h", "--help"], m_name := "help", m_type := ArgType.Optional,
    m_action := Action.store_true, m_nargs := "0", m_num_args := 0,
    m_const := "1", m_default := "0",
    m_help := "show this help message and exit" }

/-- `positional_arguments()` as used by `parse_known_args` (suppress entries
included). -/
def positionalArguments (p : ArgumentParser) : List Argument :=
  p.m_arguments.filter (fun a => a.m_type = ArgType.Positional)

/-- `optional_arguments()` as used by `parse_known_args`. -/
def optionalArguments (p : ArgumentParser) : List Argument :=
  (if p.m_add_help then [helpArgument] else []) ++
    p.m_arguments.filter (fun a => a.m_type = ArgType.Optional)

/-- All arguments consulted by one parse. -/
def allParseArgs (p : ArgumentParser) : List Argument :=
  positionalArguments p ++ optionalArguments p

/-- `ArgumentValue`: the action tag and the ordered raw values of one key. -/
abbrev ArgumentValue := Action × List String

/-- The result `std::map<std::string, ArgumentValue>` as a sorted association
list (keys stay unique because insertion is guarded in `createResult`). -/
abbrev Res := List (String × ArgumentValue)

def resLookup (res : Res) (k : String) : Option ArgumentValue :=
  (res.find? (fun e => e.1 = k)).map (·.2)

def resContains (res : Res) (k : String) : Bool :=
  (resLookup res k).isSome

/-- Lexicographic comparison on character lists (`std::less<std::string>` is
byte-wise; codepoint order coincides with byte order on ASCII keys). -/
def strLtData : List Char → List Char → Bool
  | [], [] => false
  | [], _ :: _ => true
  | _ :: _, [] => false
  | a :: as, b :: bs =>
    if a.toNat < b.toNat then true
    else if b.toNat < a.toNat then false
    else strLtData as bs

/-- Sorted insertion (`std::map` keeps keys in lexicographic byte order; the
order only affects iteration, i.e. the final default-materialization pass,
which acts on each entry independently). -/
def resInsert (res : Res) (k : String) (v : ArgumentValue) : Res :=
  match res with
  | [] => [(k, v)]
  | (k', v') :: rest =>
    if strLtData k.data k'.data then (k, v) :: (k', v') :: rest
    else (k', v') :: resInsert rest k v

/-- `result.at(k)` mutation; total, identity on a missing key (unreachable:
every use targets a key created by `createResult`). -/
def resUpdate (res : Res) (k : String) (f : ArgumentValue → ArgumentValue) : Res :=
  res.map (fun e => if e.1 = k then (e.1, f e.2) else e)

/-- Values currently stored under key `k` (empty when the key is absent). -/
def valuesAt (res : Res) (k : String) : List String :=
  ((resLookup res k).map (·.2)).getD []

/-- `_get_argument_flags`: the result keys of one argument. -/
def getArgumentFlags (arg : Argument) : List String :=
  if arg.m_dest = "" then arg.m_flags else [arg.m_dest]

/-- `handle_error`: prints usage to stderr (not modelled) and throws a bare
`std::logic_error` carrying the program name; this is the ParseError tag. -/
def handleError (p : ArgumentParser) (msg : String) : Err :=
  ⟨.parseError, p.m_prog ++ ": error: " ++ msg⟩

/-- `_validate_arguments`: const actions must carry a const value. -/
def validateArguments (arguments : List Argument) : Except Err Unit :=
  arguments.foldlM (fun _ arg =>
    if (arg.m_action = Action.store_const ∨ arg.m_action = Action.append_const)
        ∧ arg.m_const = "" then
      throw (⟨.typeError, "missing 1 required positional argument: const"⟩ : Err)
    else pure ()) ()

/-- `_validate_argument_value`: choices check on every stored value.  (The C++
message wraps each candidate in single quotes; the quoting characters are
omitted here.) -/
def validateArgumentValue (p : ArgumentParser) (arg : Argument) (value : String) :
    Except Err Unit :=
  if arg.m_choices ≠ [] then
    let str := removeQuotes value
    if ¬ arg.m_choices.contains str then
      throw (handleError p ("argument " ++ arg.m_flags.headD "" ++ ": invalid choice: "
        ++ str ++ " (choose from " ++ vectorStringToString arg.m_choices ", " "" ++ ")"))
    else pure ()
  else pure ()

/-- `_create_result`: one empty entry per key, duplicate keys are a conflict. -/
def createResult (arguments : List Argument) (res : Res) : Except Err Res :=
  arguments.foldlM (fun res arg =>
    (getArgumentFlags arg).foldlM (fun res flag =>
      if resContains res flag then
        throw (⟨.argumentError,
          "argument " ++ flag ++ ": conflicting option string: " ++ flag⟩ : Err)
      else pure (resInsert res flag (arg.m_action, []))) res) res

/-- `_is_negative_numbers_presented`. -/
def haveNegativeOptions (p : ArgumentParser) (optionals : List Argument) : Bool :=
  containsChar p.m_prefix_chars '-' &&
    optionals.any (fun a => a.m_flags.any isNegativeNumber)

/-- `_get_optional_arg_by_flag`. -/
def getOptionalArgByFlag (optionals : List Argument) (key : String) : Option Argument :=
  optionals.find? (fun a => a.m_flags.contains key)

/-- `_get_optional_arg_by_dest`. -/
def getOptionalArgByDest (optionals : List Argument) (key : String) : Option Argument :=
  optionals.find? (fun a => (a.m_dest ≠ "" && a.m_dest = key) || a.m_flags.contains key)

/-- The follower test shared by positional accumulation and option-value
consumption: not option-shaped, or a negative number while no negative
options are declared. -/
def isValueLike (p : ArgumentParser) (haveNeg : Bool) (next : String) : Bool :=
  !(isOptionalArgument next p.m_prefix_chars) || (!haveNeg && isNegativeNumber next)

/-- Push one value under every key of `flags`. -/
def pushValueAll (flags : List String) (value : String) (res : Res) : Res :=
  flags.foldl (fun res flag => resUpdate res flag (fun av => (av.1, av.2 ++ [value]))) res

/-- `_store_value`. -/
def storeValue (p : ArgumentParser) (arg : Argument) (value : String) (res : Res) :
    Except Err Res := do
  validateArgumentValue p arg value
  pure (pushValueAll (getArgumentFlags arg) value res)

def storeValues (p : ArgumentParser) (arg : Argument) (values : List String) (res : Res) :
    Except Err Res :=
  values.foldlM (fun res v => storeValue p arg v res) res

/-- `_default_arg_value`. -/
def defaultArgValue (p : ArgumentParser) (arg : Argument) : String :=
  if arg.m_default ≠ "" then arg.m_default else p.m_argument_default

/-- `_store_default_value` (store action only, empty keys only). -/
def storeDefaultValue (p : ArgumentParser) (arg : Argument) (res : Res) : Res :=
  if arg.m_action = Action.store then
    (getArgumentFlags arg).foldl (fun res flag =>
      resUpdate res flag (fun av =>
        if av.2 = [] then (av.1, [defaultArgValue p arg]) else av)) res
  else res

/-- `_store_const_value` (pushes only into still-empty keys). -/
def storeConstValue (arg : Argument) (res : Res) : Res :=
  (getArgumentFlags arg).foldl (fun res flag =>
    resUpdate res flag (fun av =>
      if av.2 = [] then (av.1, [arg.m_const]) else av)) res

/-- `_append_const_value` (errors per flag when a default value is set). -/
def appendConstValue (p : ArgumentParser) (arg : Argument) (res : Res) : Except Err Res :=
  (getArgumentFlags arg).foldlM (fun res flag => do
    if arg.m_default ≠ "" then
      throw (handleError p ("argument " ++ arg.m_flags.headD ""
        ++ ": ignored default value " ++ arg.m_default))
    pure (resUpdate res flag (fun av => (av.1, av.2 ++ [arg.m_const])))) res

/-- `_store_count_value` (pushes one empty sentinel). -/
def storeCountValue (arg : Argument) (res : Res) : Res :=
  pushValueAll (getArgumentFlags arg) "" res

/-- The clearing step of `store` dispatch in the main loop. -/
def clearValues (arg : Argument) (res : Res) : Res :=
  (getArgumentFlags arg).foldl (fun res flag =>
    resUpdate res flag (fun av => (av.1, []))) res

/-- `_is_positional_arg_stored`. -/
def isPositionalArgStored (p : ArgumentParser) (arg : Argument) (res : Res) :
    Except Err (Bool × Res) :=
  if arg.m_action = Action.store_const ∨ arg.m_action = Action.store_true
      ∨ arg.m_action = Action.store_false then
    pure (true, storeConstValue arg res)
  else if arg.m_action = Action.append_const then do
    pure (true, ← appendConstValue p arg res)
  else if arg.m_action = Action.count then
    pure (true, storeCountValue arg res)
  else
    pure (false, res)

/-- Functional form of the follower-consumption loop of the main pass
(lines 2630–2691 of the header) for a matched `store`/`append`/`extend`
optional without an attached `=value`.  `vs` is the maximal value-like prefix
of the remaining tokens; the result is the list of values passed to
`_store_value` and the number of tokens consumed.  Notably the loop's exit
test `nargs.empty() || (num_args != 0 && n == num_args)` never fires for
`nargs == "?"`, so `?` consumes the whole value-like prefix. -/
def consumeOptValues (p : ArgumentParser) (arg : Argument) (argN : String)
    (vs : List String) : Except Err (List String × Nat) :=
  let nargs := arg.m_nargs
  if nargs = "" then
    if vs.length = 0 then
      throw (handleError p ("argument " ++ argN ++ ": expected one argument"))
    else pure (vs.take 1, 1)
  else if nargs = "?" then
    if vs.length = 0 then pure ([arg.m_const], 0) else pure (vs, vs.length)
  else if nargs = "*" then
    pure (vs, vs.length)
  else if nargs = "+" then
    if vs.length = 0 then
      throw (handleError p ("argument " ++ argN ++ ": expected at least one argument"))
    else pure (vs, vs.length)
  else
    if vs.length = 0 then
      throw (handleError p ("argument " ++ argN ++ ": expected " ++ nargs ++ " arguments"))
    else if arg.m_num_args = 0 then pure (vs, vs.length)
    else if vs.length < arg.m_num_args then
      throw (handleError p ("argument " ++ argN ++ ": expected " ++ nargs ++ " arguments"))
    else pure (vs.take arg.m_num_args, arg.m_num_args)

/-- Dispatch of one matched optional argument in the main pass.  Returns the
updated result map and the number of following tokens that were consumed. -/
def dispatchOpt (p : ArgumentParser) (haveNeg : Bool) (temp : Argument) (argN : String)
    (splitted : List String) (rest : List String) (res : Res) : Except Err (Res × Nat) :=
  match temp.m_action with
  | .store | .append | .extend =>
    let res := if temp.m_action = Action.store then clearValues temp res else res
    if splitted.length = 2 then do
      if temp.m_nargs ≠ "" ∧ temp.m_num_args > 1 then
        throw (handleError p ("argument " ++ argN ++ ": expected "
          ++ temp.m_nargs ++ " arguments"))
      if splitted.getD 1 "" = "" then
        throw (handleError p ("argument " ++ argN ++ ": expected one argument"))
      let res ← storeValue p temp (splitted.getD 1 "") res
      pure (res, 0)
    else do
      let vs := rest.takeWhile (isValueLike p haveNeg)
      let (ws, k) ← consumeOptValues p temp argN vs
      let res ← storeValues p temp ws res
      pure (res, k)
  | .store_const | .store_true | .store_false =>
    if splitted.length = 1 then
      pure (storeConstValue temp res, 0)
    else
      throw (handleError p ("argument " ++ argN ++ ": ignored explicit argument "
        ++ splitted.getD 1 ""))
  | .append_const =>
    if splitted.length = 1 then do
      pure (← appendConstValue p temp res, 0)
    else
      throw (handleError p ("argument " ++ argN ++ ": ignored explicit argument "
        ++ splitted.getD 1 ""))
  | .help =>
    if splitted.length = 1 then throw (⟨.helpExit, ""⟩ : Err)
    else
      throw (handleError p ("argument " ++ argN ++ ": ignored explicit argument "
        ++ splitted.getD 1 ""))
  | .version =>
    if splitted.length = 1 then
      if temp.m_version = "" then
        throw (⟨.attributeError, "ArgumentParser object has no attribute version"⟩ : Err)
      else throw (⟨.versionExit, temp.m_version⟩ : Err)
    else
      throw (handleError p ("argument " ++ argN ++ ": ignored explicit argument "
        ++ splitted.getD 1 ""))
  | .count =>
    if splitted.length = 1 then
      pure (storeCountValue temp res, 0)
    else
      throw (handleError p ("argument " ++ argN ++ ": ignored explicit argument "
        ++ splitted.getD 1 ""))

/-- State carried across the main token walk: the result map, the accumulated
positional groups, and the unrecognized tokens. -/
structure MainSt where
  result : Res
  groups : List (List String)
  unrec : List String
deriving DecidableEq

/-- The main token walk (the `for` loop of `parse_known_args`).  The fuel is
structural; `rts.length` suffices because every step consumes at least the
head token. -/
def mainLoop (p : ArgumentParser) (optionals : List Argument) (haveNeg : Bool) :
    Nat → List String → MainSt → Except Err MainSt
  | _, [], st => pure st
  | 0, _ :: _, _ => throw (⟨.outOfFuel, ""⟩ : Err)
  | fuel + 1, tok :: rest, st =>
    if p.m_add_help ∧ helpArgument.m_flags.contains tok then
      throw (⟨.helpExit, ""⟩ : Err)
    else
      let splitted := splitEqual tok
      let argN := if splitted.length = 2 then splitted.headD "" else tok
      match getOptionalArgByFlag optionals argN with
      | some temp => do
        let (res, k) ← dispatchOpt p haveNeg temp argN splitted rest st.result
        mainLoop p optionals haveNeg fuel (rest.drop k) { st with result := res }
      | none =>
        if haveNeg ∧ isNegativeNumber tok then
          mainLoop p optionals haveNeg fuel rest { st with unrec := st.unrec ++ [tok] }
        else
          let vs := rest.takeWhile (isValueLike p haveNeg)
          mainLoop p optionals haveNeg fuel (rest.drop vs.length)
            { st with groups := st.groups ++ [tok :: vs] }

/-- Per-character lookup of the bundle scan: for every optional argument its
first two-character flag whose last character is `c` (the C++ inner loop
pushes one flag per matching argument; `argument` ends up pointing at the
last matching one). -/
def charMatches (optionals : List Argument) (c : Char) : List (String × Argument) :=
  optionals.filterMap (fun opt =>
    (opt.m_flags.find? (fun f => f.data.length = 2 && f.data.getLast? = some c)).map
      (fun f => (f, opt)))

/-- Append a string to the last element of a non-empty list
(`flags.back() += s`). -/
def appendToLastStr (flags : List String) (s : String) : List String :=
  flags.dropLast ++ [flags.getLast?.getD "" ++ s]

/-- The character scan of `_separate_arg_abbrev` (short-flag bundling).
`i` is the loop index, `flags` the accumulated emitted tokens.  When the
match list is empty but `flags.size() != i`, the C++ code dereferences a null
`argument` pointer (undefined behaviour); the model falls back to the
not-found attachment in that unreachable-by-builders corner. -/
def bundleLoop (optionals : List Argument) (arg : String) :
    List Char → Nat → List String → List String
  | [], _, flags => flags
  | c :: restName, i, flags =>
    if c = '=' then
      if flags = [] then [String.mk (c :: restName)]
      else appendToLastStr flags (String.mk (c :: restName))
    else
      let ms := charMatches optionals c
      let flags' := flags ++ ms.map (·.1)
      if flags'.length = i then
        if flags' = [] then [arg]
        else
          let str := String.mk (c :: restName)
          appendToLastStr flags' ((if ¬ startsWithStr str "=" then "=" else "") ++ str)
      else
        match ms.getLast? with
        | none =>
          let str := String.mk (c :: restName)
          appendToLastStr flags' ((if ¬ startsWithStr str "=" then "=" else "") ++ str)
        | some (_, argument) =>
          if isStoreAction argument.m_action then
            let str := String.mk restName
            appendToLastStr flags' ((if ¬ startsWithStr str "=" then "=" else "") ++ str)
          else
            bundleLoop optionals arg restName (i + 1) flags'

/-- `_separate_arg_abbrev`: the tokens a single unresolved option-shaped token
expands to. -/
def separateArgAbbrev (optionals : List Argument) (arg : String) (name : String) :
    List String :=
  if name.data.length + 1 = arg.data.length then
    let splitted := splitEqual arg
    if splitted.length = 2 ∧ (getOptionalArgByFlag optionals (splitted.headD "")).isSome then
      [arg]
    else
      bundleLoop optionals arg name.data 0 []
  else [arg]

/-- The first flag of one argument that matches the abbreviation scan: either
the token is a prefix of the flag (substitution candidate) or the flag is a
two-character flag that is itself a prefix of the token (bundle candidate). -/
def abbrevMatchOf (arg : String) (opt : Argument) : Option String :=
  opt.m_flags.find? (fun f =>
    startsWithStr f arg || (f.data.length = 2 && startsWithStr arg f))

/-- One step of the candidate collection of `_check_abbreviations`: a matching
argument contributes its first matching flag (prefix match, setting
`is_flag_added`) or the token itself (bundle match) to `keys`, and the flag to
the message. -/
def collectAbbrevStep (arg : String) (acc : List String × Bool × String)
    (opt : Argument) : List String × Bool × String :=
  match abbrevMatchOf arg opt with
  | none => acc
  | some f =>
    let msg' := (if acc.2.2 = "" then acc.2.2 else acc.2.2 ++ ",") ++ " " ++ f
    if startsWithStr f arg then (acc.1 ++ [f], true, msg')
    else (acc.1 ++ [arg], acc.2.1, msg')

/-- Candidate collection of `_check_abbreviations`: at most one candidate per
declared optional argument.  Returns the collected keys, the `is_flag_added`
bit, and the message listing the matched flags. -/
def collectAbbrev (optionals : List Argument) (arg : String) :
    List String × Bool × String :=
  optionals.foldl (collectAbbrevStep arg) ([], false, "")

/-- Resolution of a single token inside `_check_abbreviations`. -/
def resolveToken (p : ArgumentParser) (optionals : List Argument) (haveNeg : Bool)
    (res : Res) (arg : String) : Except Err (List String) :=
  if arg ≠ "" ∧ ¬ resContains res arg ∧ isOptionalArgument arg p.m_prefix_chars
      ∧ (haveNeg ∨ ¬ isNegativeNumber arg) then
    if p.m_allow_abbrev then
      let (keys, added, msg) := collectAbbrev optionals arg
      if keys.length > 1 then
        throw (handleError p ("ambiguous option: " ++ arg ++ " could match" ++ msg))
      else if added then
        pure [if keys = [] then arg else keys.headD ""]
      else
        pure (separateArgAbbrev optionals arg
          (flagName (if keys = [] then arg else keys.headD "")))
    else
      pure (separateArgAbbrev optionals arg (flagName arg))
  else pure [arg]

/-- `_check_abbreviations`: rewrite the whole token list. -/
def checkAbbreviations (p : ArgumentParser) (optionals : List Argument) (haveNeg : Bool)
    (res : Res) (arguments : List String) : Except Err (List String) :=
  arguments.foldlM (fun temp arg => do
    pure (temp ++ (← resolveToken p optionals haveNeg res arg))) []

/-- Minimum number of tokens a positional slot requires (`min_amount`). -/
def minAmount (a : Argument) : Nat :=
  if ¬ isStoreAction a.m_action then 0
  else if a.m_nargs = "" then 1
  else if a.m_nargs = "+" then 1
  else if a.m_nargs = "?" then 0
  else if a.m_nargs = "*" then 0
  else a.m_num_args

/-- `one_args` contribution of one slot (recorded before the break test). -/
def scanOneInc (a : Argument) : Nat := if a.m_nargs = "?" then 1 else 0

/-- `more_args` contribution of one slot (recorded before the break test). -/
def scanMoreInc (a : Argument) : Bool := a.m_nargs = "+" || a.m_nargs = "*"

/-- The window-computation loop of `_match_args_partial` (the `finish` loop).
Returns the number of slots in the window, the sum of their minimums
(`min_args`), the count of `?` slots (`one_args`) and the greedy flag
(`more_args`); the `one`/`more` contributions of a slot are recorded before
the break test, exactly as in the C++ loop. -/
def windowScan (k : Nat) : List Argument → Nat → Nat × Nat × Nat × Bool
  | [], _ => (0, 0, 0, false)
  | a :: rest, acc =>
    if isStoreAction a.m_action = false then
      ((windowScan k rest acc).1 + 1, (windowScan k rest acc).2.1,
       (windowScan k rest acc).2.2.1, (windowScan k rest acc).2.2.2)
    else if acc + minAmount a > k then
      (0, 0, scanOneInc a, scanMoreInc a)
    else
      ((windowScan k rest (acc + minAmount a)).1 + 1,
       minAmount a + (windowScan k rest (acc + minAmount a)).2.1,
       scanOneInc a + (windowScan k rest (acc + minAmount a)).2.2.1,
       scanMoreInc a || (windowScan k rest (acc + minAmount a)).2.2.2)

/-- The `min_args == arguments.size()` branch of `_match_args_partial`:
every slot consumes exactly its minimum, `?`/`*` slots take defaults.
Returns the result map, the per-slot consumed counts, and the remaining
tokens. -/
def applyExact (p : ArgumentParser) :
    List Argument → List String → Res → Except Err (Res × List Nat × List String)
  | [], args, res => pure (res, [], args)
  | a :: slots, args, res => do
    let (stored, res) ← isPositionalArgStored p a res
    if stored then do
      let (res, cs, rem) ← applyExact p slots args res
      pure (res, 0 :: cs, rem)
    else if a.m_nargs = "" ∨ a.m_nargs = "+" then do
      let t := args.take 1
      let res ← storeValues p a t res
      let (res, cs, rem) ← applyExact p slots (args.drop 1) res
      pure (res, t.length :: cs, rem)
    else if a.m_nargs = "?" ∨ a.m_nargs = "*" then do
      let (res, cs, rem) ← applyExact p slots args (storeDefaultValue p a res)
      pure (res, 0 :: cs, rem)
    else do
      let t := args.take a.m_num_args
      let res ← storeValues p a t res
      let (res, cs, rem) ← applyExact p slots (args.drop a.m_num_args) res
      pure (res, t.length :: cs, rem)

/-- The `more_args` branch: the first greedy slot absorbs the whole surplus
`over`. -/
def applyGreedy (p : ArgumentParser) :
    List Argument → List String → Nat → Res → Except Err (Res × List Nat × List String)
  | [], args, _, res => pure (res, [], args)
  | a :: slots, args, over, res => do
    let (stored, res) ← isPositionalArgStored p a res
    if stored then do
      let (res, cs, rem) ← applyGreedy p slots args over res
      pure (res, 0 :: cs, rem)
    else if a.m_nargs = "" then do
      let t := args.take 1
      let res ← storeValues p a t res
      let (res, cs, rem) ← applyGreedy p slots (args.drop 1) over res
      pure (res, t.length :: cs, rem)
    else if a.m_nargs = "+" then do
      let t := args.take (1 + over)
      let res ← storeValues p a t res
      let (res, cs, rem) ← applyGreedy p slots (args.drop (1 + over)) 0 res
      pure (res, t.length :: cs, rem)
    else if a.m_nargs = "?" then do
      let (res, cs, rem) ← applyGreedy p slots args over (storeDefaultValue p a res)
      pure (res, 0 :: cs, rem)
    else if a.m_nargs = "*" then
      if over > 0 then do
        let t := args.take over
        let res ← storeValues p a t res
        let (res, cs, rem) ← applyGreedy p slots (args.drop over) 0 res
        pure (res, t.length :: cs, rem)
      else do
        let (res, cs, rem) ← applyGreedy p slots args over (storeDefaultValue p a res)
        pure (res, 0 :: cs, rem)
    else do
      let t := args.take a.m_num_args
      let res ← storeValues p a t res
      let (res, cs, rem) ← applyGreedy p slots (args.drop a.m_num_args) over res
      pure (res, t.length :: cs, rem)

/-- The `min_args + one_args >= arguments.size()` branch: surplus values go to
the leading `?` slots (those seen while `over_args < one_args`). -/
def applyOne (p : ArgumentParser) (os : Nat) :
    List Argument → List String → Nat → Res → Except Err (Res × List Nat × List String)
  | [], args, _, res => pure (res, [], args)
  | a :: slots, args, over, res => do
    let (stored, res) ← isPositionalArgStored p a res
    if stored then do
      let (res, cs, rem) ← applyOne p os slots args over res
      pure (res, 0 :: cs, rem)
    else if a.m_nargs = "" then do
      let t := args.take 1
      let res ← storeValues p a t res
      let (res, cs, rem) ← applyOne p os slots (args.drop 1) over res
      pure (res, t.length :: cs, rem)
    else if a.m_nargs = "?" then
      if over < os then do
        let t := args.take 1
        let res ← storeValues p a t res
        let (res, cs, rem) ← applyOne p os slots (args.drop 1) (over + 1) res
        pure (res, t.length :: cs, rem)
      else do
        let (res, cs, rem) ← applyOne p os slots args over (storeDefaultValue p a res)
        pure (res, 0 :: cs, rem)
    else do
      let t := args.take a.m_num_args
      let res ← storeValues p a t res
      let (res, cs, rem) ← applyOne p os slots (args.drop a.m_num_args) over res
      pure (res, t.length :: cs, rem)

/-- The final branch: consume minimums from the left (`?` counts as one),
leftover tokens are unrecognized. -/
def applyMins (p : ArgumentParser) :
    List Argument → List String → Res → Except Err (Res × List Nat × List String)
  | [], args, res => pure (res, [], args)
  | a :: slots, args, res => do
    let (stored, res) ← isPositionalArgStored p a res
    if stored then do
      let (res, cs, rem) ← applyMins p slots args res
      pure (res, 0 :: cs, rem)
    else if a.m_nargs = "" then do
      let t := args.take 1
      let res ← storeValues p a t res
      let (res, cs, rem) ← applyMins p slots (args.drop 1) res
      pure (res, t.length :: cs, rem)
    else do
      let n := if a.m_nargs = "?" then 1 else a.m_num_args
      let t := args.take n
      let res ← storeValues p a t res
      let (res, cs, rem) ← applyMins p slots (args.drop n) res
      pure (res, t.length :: cs, rem)

/-- `_match_args_partial` on one accumulated positional group.  Returns the
new cursor, the result map, the tokens newly marked unrecognized, and the
per-slot consumed counts (ghost instrumentation; the parser ignores it). -/
def matchGroup (p : ArgumentParser) (positional : List Argument) (pos : Nat)
    (args : List String) (res : Res) :
    Except Err (Nat × Res × List String × List Nat) :=
  if positional.length ≤ pos then pure (pos, res, args, [])
  else
    let slots := positional.drop pos
    let k := args.length
    let (len, ms, os, mo) := windowScan k slots 0
    if len = 0 then pure (pos, res, args, [])
    else
      let window := slots.take len
      if ms = k then do
        let (res, cs, _) ← applyExact p window args res
        pure (pos + len, res, [], cs)
      else if mo then do
        let (res, cs, _) ← applyGreedy p window args (k - ms) res
        pure (pos + len, res, [], cs)
      else if k ≤ ms + os then do
        let (res, cs, _) ← applyOne p os window args (ms + os - k) res
        pure (pos + len, res, [], cs)
      else do
        let (res, cs, rem) ← applyMins p window args res
        pure (pos + len, res, rem, cs)

/-- The second pass: match every accumulated group. -/
def matchAll (p : ArgumentParser) (positional : List Argument) :
    List (List String) → Nat × Res × List String × List Nat →
    Except Err (Nat × Res × List String × List Nat)
  | [], acc => pure acc
  | g :: gs, (pos, res, unrec, consumed) => do
    let (pos, res, newUnrec, cs) ← matchGroup p positional pos g res
    matchAll p positional gs (pos, res, unrec ++ newUnrec, consumed ++ cs)

/-- The required-optionals collection (slash-joined flag lists of required
optionals that received no value). -/
def collectRequired (optionals : List Argument) (res : Res) : List String :=
  optionals.foldl (fun acc arg =>
    if arg.m_required && (getArgumentFlags arg).any (fun f => valuesAt res f = []) then
      acc ++ [vectorStringToString arg.m_flags "/" ""]
    else acc) []

/-- The finalization block over the remaining positional slots and the
required-optionals message (lines 2769–2792). -/
def finalizeBlock (p : ArgumentParser) (positional : List Argument)
    (requiredArgs : List String) (pos : Nat) (res : Res) : Except Err Res := do
  if requiredArgs ≠ [] ∨ pos < positional.length then
    let (argsStr, res) ← (positional.drop pos).foldlM
      (fun (acc : String × Res) arg => do
        let (argsStr, res) := acc
        if argsStr = "" then do
          let (stored, res) ← isPositionalArgStored p arg res
          if stored then pure (argsStr, res)
          else if arg.m_nargs = "?" ∨ arg.m_nargs = "*" then
            pure (argsStr, storeDefaultValue p arg res)
          else pure (arg.m_flags.headD "", res)
        else pure (argsStr ++ ", " ++ arg.m_flags.headD "", res)) ("", res)
    let argsStr := argsStr ++ vectorStringToString requiredArgs ", " ""
    if argsStr ≠ "" then
      throw (handleError p ("the following arguments are required: " ++ argsStr))
    else pure res
  else pure res

/-- The default-materialization pass over the result map (lines 2797–2808). -/
def fillDefaults (p : ArgumentParser) (optionals : List Argument) (res : Res) : Res :=
  res.map (fun e =>
    if e.2.2 = [] ∧ e.2.1 ≠ Action.count then
      match getOptionalArgByDest optionals e.1 with
      | none => e
      | some argument =>
        let v := defaultArgValue p argument
        if v ≠ "" then (e.1, (e.2.1, [v])) else e
    else e)

/-- `ArgumentParser::Namespace`. -/
structure Namespace where
  m_arguments : Res
  m_prefix_chars : String
deriving DecidableEq

/-- `Namespace::data`: exact key first, then match by prefix-stripped flag
name; absent keys raise `AttributeError`. -/
def Namespace.data (ns : Namespace) (key : String) : Except Err ArgumentValue :=
  match resLookup ns.m_arguments key with
  | some v => pure v
  | none =>
    match ns.m_arguments.find? (fun pair =>
        isOptionalArgument pair.1 ns.m_prefix_chars && flagName pair.1 = key) with
    | some pair => pure pair.2
    | none =>
      throw (⟨.attributeError, "Namespace object has no attribute " ++ key⟩ : Err)

/-- `convert_arg_line_to_args` with the file system as an oracle. -/
def convertArgLineToArgs (p : ArgumentParser) (fs : String → Option (List String))
    (file : String) : Except Err (List String) :=
  match fs file with
  | none => throw (handleError p ("[Errno 2] No such file or directory: " ++ file))
  | some lines => pure lines

/-- The file-expansion step at the top of `parse_known_args`. -/
def expandFiles (p : ArgumentParser) (fs : String → Option (List String))
    (args : List String) : Except Err (List String) :=
  if p.m_fromfile_prefix_chars ≠ "" then
    args.foldlM (fun temp arg => do
      if containsChar p.m_fromfile_prefix_chars (frontChar arg) then
        pure (temp ++ (← convertArgLineToArgs p fs (String.mk (arg.data.drop 1))))
      else pure (temp ++ [arg])) []
  else pure args

/-- The preparatory phase of `parse_known_args`: file expansion, argument
validation, result-skeleton creation and abbreviation resolution.  Returns
the negative-number policy bit, the result skeleton and the resolved token
list. -/
def parsePrep (p : ArgumentParser) (fs : String → Option (List String))
    (ts : List String) : Except Err (Bool × Res × List String) := do
  let expanded ← expandFiles p fs ts
  validateArguments (positionalArguments p)
  validateArguments (optionalArguments p)
  let haveNeg := haveNegativeOptions p (optionalArguments p)
  let res ← createResult (positionalArguments p) []
  let res ← createResult (optionalArguments p) res
  let rts ← checkAbbreviations p (optionalArguments p) haveNeg res expanded
  pure (haveNeg, res, rts)

/-- `parse_known_args`, with ghost outputs: the accumulated positional groups
and the flattened per-slot consumed counts. -/
def parseAux (p : ArgumentParser) (fs : String → Option (List String))
    (ts : List String) :
    Except Err (Namespace × List (List String) × List Nat) := do
  let (haveNeg, res, rts) ← parsePrep p fs ts
  let st ← mainLoop p (optionalArguments p) haveNeg rts.length rts ⟨res, [], []⟩
  let (pos, res, unrec, consumed) ← matchAll p (positionalArguments p) st.groups
    (0, st.result, st.unrec, [])
  let res ← finalizeBlock p (positionalArguments p)
    (collectRequired (optionalArguments p) res) pos res
  if unrec ≠ [] then
    throw (handleError p ("unrecognized arguments: " ++ vectorStringToString unrec " " ""))
  else
    pure (⟨fillDefaults p (optionalArguments p) res, p.m_prefix_chars⟩, st.groups, consumed)

/-- `parse_known_args` (the namespace alone). -/
def parseKnownArgs (p : ArgumentParser) (fs : String → Option (List String))
    (ts : List String) : Except Err Namespace :=
  (parseAux p fs ts).map (·.1)

/-- Outcome of the public `parse_args`. -/
inductive ParseOutcome
  | ok (ns : Namespace)
  | exited (code : Nat)
  | raised (e : Err)
deriving DecidableEq

/-- `parse_args`: help/version print and exit 0; other errors exit 1 when
`exit_on_error` is set and are raised to the caller otherwise. -/
def parseArgs (p : ArgumentParser) (fs : String → Option (List String))
    (ts : List String) : ParseOutcome :=
  match parseKnownArgs p fs ts with
  | .ok ns => .ok ns
  | .error e =>
    if e.kind = ErrKind.helpExit ∨ e.kind = ErrKind.versionExit then .exited 0
    else if p.m_exit_on_error then .exited 1
    else .raised e

/-! ### Concrete schemas used by the claims

Each stored `Argument` record is written out explicitly and certified against
the builder chain that produces it (`..._built` lemmas), so the concrete
parsers are exactly what the C++ builder calls construct. -/

/-- Empty file system: every file-expansion token fails to open. -/
def fsNone : String → Option (List String) := fun _ => none

/-- `add_argument("-x").nargs("?").const_value("C").default_value("D")`. -/
def c4arg : Argument :=
  { m_flags := ["-x"], m_name := "x", m_type := ArgType.Optional,
    m_nargs := "?", m_const := "C", m_default := "D" }

theorem c4arg_built :
    (do
      let a ← mkArgument "-" ["-x"]
      let a ← a.nargsS "?"
      let a ← a.constValue "C"
      pure (a.defaultValue "D")) = Except.ok c4arg := by decide

def c4p : ArgumentParser := { m_arguments := [c4arg] }

/-- `add_argument(f).action(store_true)` for a two-character flag `f`. -/
def storeTrueArg (f : String) (name : String) : Argument :=
  { m_flags := [f], m_name := name, m_type := ArgType.Optional,
    m_action := Action.store_true, m_nargs := "0", m_const := "1", m_default := "0" }

theorem storeTrueArg_built :
    (do let a ← mkArgument "-" ["-a"]; a.actionA Action.store_true)
        = Except.ok (storeTrueArg "-a" "a")
    ∧ (do let a ← mkArgument "-" ["-b"]; a.actionA Action.store_true)
        = Except.ok (storeTrueArg "-b" "b")
    ∧ (do let a ← mkArgument "-" ["-c"]; a.actionA Action.store_true)
        = Except.ok (storeTrueArg "-c" "c")
    ∧ (do let a ← mkArgument "-" ["-v"]; a.actionA Action.store_true)
        = Except.ok (storeTrueArg "-v" "v") := by decide

def c7p : ArgumentParser :=
  { m_arguments := [storeTrueArg "-a" "a", storeTrueArg "-b" "b", storeTrueArg "-c" "c"] }

/-- `add_argument("--level").choices({low, med, high}).default_value("mid")`. -/
def c1cexArg : Argument :=
  { m_flags := ["--level"], m_name := "level", m_type := ArgType.Optional,
    m_choices := ["low", "med", "high"], m_default := "mid" }

theorem c1cexArg_built :
    (do
      let a ← mkArgument "-" ["--level"]
      let a ← a.choicesSet ["low", "med", "high"]
      pure (a.defaultValue "mid")) = Except.ok c1cexArg := by decide

def c1cexP : ArgumentParser := { m_arguments := [c1cexArg] }

/-- `add_argument({"--foo", "--foob"})`: one optional with two flags. -/
def c3cexArg : Argument :=
  { m_flags := ["--foo", "--foob"], m_name := "foo", m_type := ArgType.Optional }

theorem c3cexArg_built : mkArgument "-" ["--foo", "--foob"] = Except.ok c3cexArg := by decide

def c3cexP : ArgumentParser := { m_arguments := [c3cexArg] }

/-- `add_argument("-x").nargs("*").default_value("D")`. -/
def c5cexArg : Argument :=
  { m_flags := ["-x"], m_name := "x", m_type := ArgType.Optional,
    m_nargs := "*", m_default := "D" }

theorem c5cexArg_built :
    (do
      let a ← mkArgument "-" ["-x"]
      let a ← a.nargsS "*"
      pure (a.defaultValue "D")) = Except.ok c5cexArg := by decide

def c5cexP : ArgumentParser := { m_arguments := [c5cexArg] }

/-- A positional `add_argument("x").action(store_true)`. -/
def c6cexArg : Argument :=
  { m_flags := ["x"], m_name := "x", m_type := ArgType.Positional,
    m_action := Action.store_true, m_nargs := "0", m_const := "1", m_default := "0" }

theorem c6cexArg_built :
    (do let a ← mkArgument "-" ["x"]; a.actionA Action.store_true)
      = Except.ok c6cexArg := by decide

def c6cexP : ArgumentParser := { m_arguments := [c6cexArg] }

/-- `add_argument("--foo").dest("d").default_value("z")`, declared before
`add_argument({"--foo", "--bar"})`: the two key sets are disjoint (`d` versus
`--foo`/`--bar`) so declaration succeeds, but the flag string `--foo` belongs
to both arguments. -/
def c9cexB : Argument :=
  { m_flags := ["--foo"], m_name := "foo", m_type := ArgType.Optional,
    m_dest := "d", m_default := "z" }

def c9cexA : Argument :=
  { m_flags := ["--foo", "--bar"], m_name := "foo", m_type := ArgType.Optional }

theorem c9cex_built :
    (do
      let b ← mkArgument "-" ["--foo"]
      let b ← b.destSet "d"
      pure (b.defaultValue "z")) = Except.ok c9cexB
    ∧ mkArgument "-" ["--foo", "--bar"] = Except.ok c9cexA := by decide

def c9cexP : ArgumentParser := { m_arguments := [c9cexB, c9cexA] }

def c8unrecP : ArgumentParser := { m_exit_on_error := false }

def c8ambP : ArgumentParser :=
  { m_arguments :=
      [{ m_flags := ["--foo"], m_name := "foo", m_type := ArgType.Optional },
       { m_flags := ["--foob"], m_name := "foob", m_type := ArgType.Optional }],
    m_exit_on_error := false }

def c8reqP : ArgumentParser :=
  { m_arguments :=
      [{ m_flags := ["-x"], m_name := "x", m_type := ArgType.Optional,
         m_required := true }],
    m_exit_on_error := false }

def c8choiceP : ArgumentParser := { m_arguments := [c1cexArg], m_exit_on_error := false }

def c8expP : ArgumentParser :=
  { m_arguments := [{ m_flags := ["-x"], m_name := "x", m_type := ArgType.Optional }],
    m_exit_on_error := false }

def c8attP : ArgumentParser :=
  { m_arguments := [storeTrueArg "-v" "v"], m_exit_on_error := false }

def c8fileP : ArgumentParser :=
  { m_fromfile_prefix_chars := "@", m_exit_on_error := false }

/-- The error kind of a computation, `none` when it succeeded. -/
def errKindOf {α : Type} (e : Except Err α) : Option ErrKind :=
  match e with
  | .error err => some err.kind
  | .ok _ => none

/-! ### Claim theorems: concrete scenarios -/

/-- Claim C4 (confirmed): for the schema
`add_argument("-x").nargs("?").const_value("C").default_value("D")`,
parsing `[]` yields `x = ["D"]`, parsing `["-x"]` yields `x = ["C"]`, and
parsing `["-x", "V"]` yields `x = ["V"]`. -/
theorem claim_C4_nargs_optional01 :
    (parseKnownArgs c4p fsNone []).map (fun ns => ns.data "x")
        = .ok (.ok (Action.store, ["D"]))
    ∧ (parseKnownArgs c4p fsNone ["-x"]).map (fun ns => ns.data "x")
        = .ok (.ok (Action.store, ["C"]))
    ∧ (parseKnownArgs c4p fsNone ["-x", "V"]).map (fun ns => ns.data "x")
        = .ok (.ok (Action.store, ["V"])) := by decide

/-- Claim C7 (confirmed): with optionals `-a`, `-b`, `-c`, all `store_true`,
the single token `-abc` is expanded as a short-flag bundle and stores `"1"`
under each of the keys `a`, `b`, `c`. -/
theorem claim_C7_short_flag_bundle :
    (parseKnownArgs c7p fsNone ["-abc"]).map
        (fun ns => (ns.data "a", ns.data "b", ns.data "c"))
      = .ok (.ok (Action.store_true, ["1"]), .ok (Action.store_true, ["1"]),
             .ok (Action.store_true, ["1"])) := by decide

/-- Claim C8 (confirmed): with `exit_on_error` false, each of the seven listed
user-input problems surfaces as an error whose tag is `parseError` (the bare
`std::logic_error` produced by `handle_error`, distinct by dynamic type from
`ArgumentError`, `ValueError`, `TypeError`, `IndexError` and
`AttributeError`), and `parse_args` re-raises it to the caller. -/
theorem claim_C8_parse_error_tags :
    errKindOf (parseKnownArgs c8unrecP fsNone ["foo"]) = some ErrKind.parseError
    ∧ errKindOf (parseKnownArgs c8ambP fsNone ["--fo"]) = some ErrKind.parseError
    ∧ errKindOf (parseKnownArgs c8reqP fsNone []) = some ErrKind.parseError
    ∧ errKindOf (parseKnownArgs c8choiceP fsNone ["--level", "midz"])
        = some ErrKind.parseError
    ∧ errKindOf (parseKnownArgs c8expP fsNone ["-x"]) = some ErrKind.parseError
    ∧ errKindOf (parseKnownArgs c8attP fsNone ["-v=1"]) = some ErrKind.parseError
    ∧ errKindOf (parseKnownArgs c8fileP fsNone ["@nofile"]) = some ErrKind.parseError
    ∧ parseArgs c8unrecP fsNone ["foo"]
        = .raised ⟨ErrKind.parseError, "untitled: error: unrecognized arguments: foo"⟩
    ∧ ErrKind.parseError ≠ ErrKind.argumentError
    ∧ ErrKind.parseError ≠ ErrKind.valueError
    ∧ ErrKind.parseError ≠ ErrKind.typeError
    ∧ ErrKind.parseError ≠ ErrKind.indexError
    ∧ ErrKind.parseError ≠ ErrKind.attributeError := by decide

/-- Claim C10 (confirmed): `default_value` on an argument whose action is
`store_true` or `store_false` never raises (the setter is total) and returns
the argument with every field unchanged; in particular, after
`action(store_true)` the default stays `"0"` and after `action(store_false)`
it stays `"1"`. -/
theorem claim_C10_default_value_frame (a a' : Argument) (v : String) :
    ((a.m_action = Action.store_true ∨ a.m_action = Action.store_false) →
        a.defaultValue v = a)
    ∧ (a.actionA Action.store_true = .ok a' →
        a'.defaultValue v = a' ∧ a'.m_default = "0")
    ∧ (a.actionA Action.store_false = .ok a' →
        a'.defaultValue v = a' ∧ a'.m_default = "1") := by
  refine ⟨fun h => ?_, fun h => ?_, fun h => ?_⟩
  · rcases h with h | h <;> simp [Argument.defaultValue, h]
  · simp only [Argument.actionA, pure, Except.pure, Except.ok.injEq] at h
    subst h
    exact ⟨by simp [Argument.defaultValue], rfl⟩
  · simp only [Argument.actionA, pure, Except.pure, Except.ok.injEq] at h
    subst h
    exact ⟨by simp [Argument.defaultValue], rfl⟩

/-- Witness for C10 at a concrete argument. -/
theorem claim_C10_default_value_frame_witness :
    c6cexArg.defaultValue "zz" = c6cexArg
    ∧ (c6cexArg.defaultValue "zz" = c6cexArg ∧ c6cexArg.m_default = "0") := by
  refine ⟨(claim_C10_default_value_frame c6cexArg c6cexArg "zz").1 (Or.inl rfl), ?_⟩
  exact (claim_C10_default_value_frame
    { c6cexArg with m_action := Action.store, m_nargs := "" } c6cexArg "zz").2.1 (by decide)

/-! ### Counterexamples for the corrected claims -/

/-- Counterexample to claim C1 as stated: `--level` declares
`choices = {low, med, high}` and `default_value("mid")`; parsing the empty
token list succeeds and materializes the default `"mid"`, which is not in
`choices` even after quote stripping.  Default materialization bypasses
`_validate_argument_value`. -/
theorem claim_C1_counterexample :
    (parseKnownArgs c1cexP fsNone []).map (fun ns => ns.data "level")
        = .ok (.ok (Action.store, ["mid"]))
    ∧ removeQuotes "mid" ∉ c1cexArg.m_choices := by decide

/-- Counterexample to claim C3 as stated: the token `--fo` is a strict prefix
of the two declared flags `--foo` and `--foob` (of one argument), yet parsing
succeeds by substituting the argument's first matching flag instead of
reporting an ambiguous option: candidates are collected per argument, not per
flag. -/
theorem claim_C3_counterexample :
    startsWithStr "--foo" "--fo" = true
    ∧ startsWithStr "--foob" "--fo" = true
    ∧ (parseKnownArgs c3cexP fsNone ["--fo", "v"]).map (fun ns => ns.data "foo")
        = .ok (.ok (Action.store, ["v"])) := by decide

/-- Counterexample to claim C5 as stated: `-x` has action `store` and
`nargs("*")` with `default_value("D")`; parsing `["-x"]` matches the argument
with zero supplied values, yet the final stored sequence is `["D"]` (length 1,
materialized from the default at finalization), not the empty sequence the
last specification supplied. -/
theorem claim_C5_counterexample :
    (parseKnownArgs c5cexP fsNone ["-x"]).map (fun ns => ns.data "x")
      = .ok (.ok (Action.store, ["D"])) := by decide

/-- Counterexample to claim C6 as stated: a positional argument with action
`store_true` receives the const `"1"` during positional finalization even
though its flag `x` never appeared in the (empty) token list, where the claim
predicts the default `"0"`. -/
theorem claim_C6_counterexample :
    (parseKnownArgs c6cexP fsNone []).map (fun ns => ns.data "x")
        = .ok (.ok (Action.store_true, ["1"]))
    ∧ c6cexArg.m_default = "0" := by decide

/-- Counterexample to claim C9 as stated: `--foo` is also a flag of an
earlier-declared argument with `dest("d")` and `default_value("z")`; after a
successful parse of `[]`, default materialization finds that earlier argument
for the key `--foo` but the dest-less argument itself for `--bar`, leaving the
two flag keys of one argument with different value sequences. -/
theorem claim_C9_counterexample :
    c9cexA.m_dest = ""
    ∧ (parseKnownArgs c9cexP fsNone []).map
        (fun ns => (resLookup ns.m_arguments "--foo", resLookup ns.m_arguments "--bar"))
      = .ok (some (Action.store, ["z"]), some (Action.store, [])) := by decide

/-! ### Abbreviation resolution (claim C3) -/

/-- The key contribution of one argument to the candidate list. -/
def abbrevContrib (arg : String) (o : Argument) : List String :=
  match abbrevMatchOf arg o with
  | none => []
  | some f => if startsWithStr f arg then [f] else [arg]

/-- Whether an argument contributes a prefix-kind candidate. -/
def isPrefixAbbrev (arg : String) (o : Argument) : Bool :=
  match abbrevMatchOf arg o with
  | none => false
  | some f => startsWithStr f arg

theorem collectAbbrev_fold_keys (arg : String) (os : List Argument) :
    ∀ acc : List String × Bool × String,
      (os.foldl (collectAbbrevStep arg) acc).1 = acc.1 ++ os.flatMap (abbrevContrib arg) := by
  induction os with
  | nil => intro acc; simp
  | cons o os ih =>
    intro acc
    simp only [List.foldl_cons, List.flatMap_cons, ih]
    cases h : abbrevMatchOf arg o with
    | none => simp [collectAbbrevStep, abbrevContrib, h]
    | some f =>
      by_cases hp : startsWithStr f arg = true <;>
        simp [collectAbbrevStep, abbrevContrib, h, hp]

theorem collectAbbrev_fold_added (arg : String) (os : List Argument) :
    ∀ acc : List String × Bool × String,
      (os.foldl (collectAbbrevStep arg) acc).2.1
        = (acc.2.1 || os.any (isPrefixAbbrev arg)) := by
  induction os with
  | nil => intro acc; simp
  | cons o os ih =>
    intro acc
    simp only [List.foldl_cons, List.any_cons, ih]
    cases h : abbrevMatchOf arg o with
    | none => simp [collectAbbrevStep, isPrefixAbbrev, h]
    | some f =>
      by_cases hp : startsWithStr f arg = true <;>
        simp [collectAbbrevStep, isPrefixAbbrev, h, hp, Bool.or_comm, Bool.or_assoc,
          Bool.or_left_comm]

theorem abbrevContrib_flatMap_filter (arg : String) (os : List Argument) :
    os.flatMap (abbrevContrib arg)
      = (os.filter (fun o => (abbrevMatchOf arg o).isSome)).flatMap (abbrevContrib arg) := by
  induction os with
  | nil => rfl
  | cons o os ih =>
    cases h : abbrevMatchOf arg o with
    | none => simp [abbrevContrib, h, ih]
    | some f => simp [abbrevContrib, h, ih]

theorem abbrevContrib_length (arg : String) (os : List Argument) :
    (os.flatMap (abbrevContrib arg)).length
      = (os.filter (fun o => (abbrevMatchOf arg o).isSome)).length := by
  induction os with
  | nil => rfl
  | cons o os ih =>
    cases h : abbrevMatchOf arg o with
    | none => simp [abbrevContrib, h, ih]
    | some f =>
      by_cases hp : startsWithStr f arg = true <;> simp [abbrevContrib, h, hp, ih]

/-- Claim C3 (amended): during token resolution with `allow_abbrev`, a token
that exactly matches a declared result key passes through untouched (so it is
never reported ambiguous); for an option-shaped non-key token the parser
collects at most one candidate per declared optional argument (the argument's
first flag that either extends the token or is a two-character prefix of it);
candidates from two or more arguments are an ambiguous-option parse error
listing the candidate flags, and a single prefix-kind candidate is substituted
for the token. -/
theorem claim_C3_abbreviation_amended (p : ArgumentParser) (haveNeg : Bool)
    (res : Res) (arg : String) :
    (resContains res arg = true →
        resolveToken p (optionalArguments p) haveNeg res arg = .ok [arg])
    ∧ (arg ≠ "" → resContains res arg = false →
        isOptionalArgument arg p.m_prefix_chars = true →
        (haveNeg = true ∨ isNegativeNumber arg = false) →
        p.m_allow_abbrev = true →
        (2 ≤ ((optionalArguments p).filter
            (fun o => (abbrevMatchOf arg o).isSome)).length →
          resolveToken p (optionalArguments p) haveNeg res arg
            = .error (handleError p ("ambiguous option: " ++ arg ++ " could match"
                ++ (collectAbbrev (optionalArguments p) arg).2.2)))
        ∧ (∀ o f,
            (optionalArguments p).filter (fun o => (abbrevMatchOf arg o).isSome) = [o] →
            abbrevMatchOf arg o = some f → startsWithStr f arg = true →
            resolveToken p (optionalArguments p) haveNeg res arg = .ok [f])) := by
  constructor
  · intro h
    rw [resolveToken, if_neg (fun hcond => hcond.2.1 (by simp [h]))]
    exact rfl
  · intro h1 h2 h3 h4 h5
    have hguard : arg ≠ "" ∧ ¬ resContains res arg
        ∧ isOptionalArgument arg p.m_prefix_chars
        ∧ (haveNeg ∨ ¬ isNegativeNumber arg) := by
      refine ⟨h1, by simp [h2], by simp [h3], ?_⟩
      rcases h4 with h4 | h4
      · exact Or.inl (by simp [h4])
      · exact Or.inr (by simp [h4])
    constructor
    · intro hamb
      have hkeys : (collectAbbrev (optionalArguments p) arg).1.length
          = ((optionalArguments p).filter
              (fun o => (abbrevMatchOf arg o).isSome)).length := by
        rw [collectAbbrev, collectAbbrev_fold_keys]
        simpa using abbrevContrib_length arg (optionalArguments p)
      rw [resolveToken, if_pos hguard, if_pos (by simp [h5])]
      rcases hc : collectAbbrev (optionalArguments p) arg with ⟨keys, added, msg⟩
      rw [hc] at hkeys
      have : keys.length > 1 := by
        simp only at hkeys
        omega
      simp only [hc, this, if_pos]
      rfl
    · intro o f hfil hf hp
      have hkeys : (collectAbbrev (optionalArguments p) arg).1 = [f] := by
        rw [collectAbbrev, collectAbbrev_fold_keys]
        rw [List.nil_append, abbrevContrib_flatMap_filter, hfil]
        simp [abbrevContrib, hf, hp]
      have hadded : (collectAbbrev (optionalArguments p) arg).2.1 = true := by
        rw [collectAbbrev, collectAbbrev_fold_added]
        have ho : o ∈ optionalArguments p := by
          have : o ∈ (optionalArguments p).filter
              (fun o => (abbrevMatchOf arg o).isSome) := by
            rw [hfil]; exact List.mem_singleton.mpr rfl
          exact List.mem_of_mem_filter this
        have : (optionalArguments p).any (isPrefixAbbrev arg) = true := by
          refine List.any_eq_true.mpr ⟨o, ho, ?_⟩
          simp [isPrefixAbbrev, hf, hp]
        simp [this]
      rw [resolveToken, if_pos hguard, if_pos (by simp [h5])]
      rcases hc : collectAbbrev (optionalArguments p) arg with ⟨keys, added, msg⟩
      rw [hc] at hkeys hadded
      simp only at hkeys hadded
      subst hkeys hadded
      simp only [List.length_singleton, gt_iff_lt, lt_self_iff_false, if_false,
        if_true, List.cons_ne_self]
      rfl

/-- Witness for the amended C3 at a concrete schema (two arguments `--foo`
and `--foob`, token `--fo`). -/
theorem claim_C3_abbreviation_amended_witness :
    resolveToken c8ambP (optionalArguments c8ambP) false [] "--fo"
      = .error (handleError c8ambP ("ambiguous option: --fo could match"
          ++ (collectAbbrev (optionalArguments c8ambP) "--fo").2.2)) :=
  ((claim_C3_abbreviation_amended c8ambP false [] "--fo").2
    (by decide) (by decide) (by decide) (Or.inr (by decide)) (by decide)).1 (by decide)

/-! ### Inversion helpers for `Except` computations -/

theorem exceptBind_ok {ε α β : Type} {x : Except ε α} {f : α → Except ε β} {b : β} :
    (x >>= f) = Except.ok b ↔ ∃ a, x = Except.ok a ∧ f a = Except.ok b := by
  cases x <;> simp [Bind.bind, Except.bind]

theorem exceptPure_ok {ε α : Type} {a b : α} :
    (pure a : Except ε α) = Except.ok b ↔ a = b := by
  simp [pure, Except.pure]

theorem exceptThrow_ok {ε α : Type} {e : ε} {b : α} :
    (throw e : Except ε α) = Except.ok b ↔ False := by
  simp [throw, throwThe, MonadExceptOf.throw]

/-! ### Positional partitioning accounting (claim C2) -/

/-- Sum of the per-slot minimum token demands of a slot window. -/
def minSumOf (w : List Argument) : Nat := (w.map minAmount).sum

/-- Number of `?`-arity store slots in a window. -/
def oneCountOf (w : List Argument) : Nat :=
  w.countP (fun a => isStoreAction a.m_action && a.m_nargs = "?")

/-- Whether a window contains a greedy (`+` or `*`) store slot. -/
def hasGreedy (w : List Argument) : Bool :=
  w.any (fun a => isStoreAction a.m_action && (a.m_nargs = "+" || a.m_nargs = "*"))

/-- Specification of the `finish` loop: the window length never exceeds the
slot list, `min_args` is the window's minimum sum and stays within the group
size, `one_args` counts the window's `?` slots, and the `more_args` bit is
tied to greedy slots (it can be set by a `+` slot that broke the window, but
only when the minimum sum already reaches the group size). -/
theorem windowScan_spec (k : Nat) :
    ∀ (slots : List Argument) (acc : Nat), acc ≤ k →
      (windowScan k slots acc).1 ≤ slots.length
      ∧ (windowScan k slots acc).2.1 = minSumOf (slots.take (windowScan k slots acc).1)
      ∧ acc + (windowScan k slots acc).2.1 ≤ k
      ∧ (windowScan k slots acc).2.2.1 = oneCountOf (slots.take (windowScan k slots acc).1)
      ∧ ((windowScan k slots acc).2.2.2 = true →
          hasGreedy (slots.take (windowScan k slots acc).1) = true
          ∨ k ≤ acc + (windowScan k slots acc).2.1)
      ∧ (hasGreedy (slots.take (windowScan k slots acc).1) = true →
          (windowScan k slots acc).2.2.2 = true) := by
  intro slots
  induction slots with
  | nil =>
    intro acc hacc
    refine ⟨?_, ?_, ?_, ?_, ?_, ?_⟩ <;>
      simp [windowScan, minSumOf, oneCountOf, hasGreedy] <;> omega
  | cons a rest ih =>
    intro acc hacc
    by_cases hs : isStoreAction a.m_action = false
    · obtain ⟨ih1, ih2, ih3, ih4, ih5, ih6⟩ := ih acc hacc
      have hw : windowScan k (a :: rest) acc
          = ((windowScan k rest acc).1 + 1, (windowScan k rest acc).2.1,
             (windowScan k rest acc).2.2.1, (windowScan k rest acc).2.2.2) := by
        simp [windowScan, hs]
      rw [hw]
      dsimp only
      simp only [List.take_succ_cons, List.length_cons]
      refine ⟨by omega, ?_, by omega, ?_, ?_, ?_⟩
      · simp [minSumOf, minAmount, hs, ih2]
      · simp [oneCountOf, List.countP_cons, hs, ih4]
      · intro hmo
        rcases ih5 hmo with hg | hk
        · left
          simp [hasGreedy, hs]
          simpa [hasGreedy] using hg
        · right
          omega
      · intro hgr
        refine ih6 ?_
        simpa [hasGreedy, hs] using hgr
    · have hs' : isStoreAction a.m_action = true := by
        revert hs
        cases isStoreAction a.m_action <;> simp
      by_cases hbrk : acc + minAmount a > k
      · have hw : windowScan k (a :: rest) acc = (0, 0, scanOneInc a, scanMoreInc a) := by
          simp [windowScan, hs', hbrk]
        rw [hw]
        dsimp only
        have honz : scanOneInc a = 0 := by
          by_cases h? : a.m_nargs = "?"
          · exfalso
            have hm : minAmount a = 0 := by simp [minAmount, hs', h?]
            omega
          · simp [scanOneInc, h?]
        refine ⟨Nat.zero_le _, by simp [minSumOf], by omega,
          by simp [oneCountOf, honz], ?_, by simp [hasGreedy]⟩
        intro hmo
        right
        by_cases hplus : a.m_nargs = "+"
        · have hm : minAmount a = 1 := by simp [minAmount, hs', hplus]
          omega
        · have hstar : a.m_nargs = "*" := by
            simpa [scanMoreInc, hplus] using hmo
          have hm : minAmount a = 0 := by simp [minAmount, hs', hstar]
          omega
      · have hacc' : acc + minAmount a ≤ k := by omega
        obtain ⟨ih1, ih2, ih3, ih4, ih5, ih6⟩ := ih (acc + minAmount a) hacc'
        have hw : windowScan k (a :: rest) acc
            = ((windowScan k rest (acc + minAmount a)).1 + 1,
               minAmount a + (windowScan k rest (acc + minAmount a)).2.1,
               scanOneInc a + (windowScan k rest (acc + minAmount a)).2.2.1,
               scanMoreInc a || (windowScan k rest (acc + minAmount a)).2.2.2) := by
          simp [windowScan, hs', hbrk]
        rw [hw]
        dsimp only
        simp only [List.take_succ_cons, List.length_cons]
        refine ⟨by omega, ?_, by omega, ?_, ?_, ?_⟩
        · simp [minSumOf, ih2]
        · by_cases h? : a.m_nargs = "?" <;>
            simp [oneCountOf, List.countP_cons, scanOneInc, hs', h?, ih4] <;>
            omega
        · intro hmo
          rcases Bool.or_eq_true_iff.mp hmo with hg | hmo'
          · left
            simp [hasGreedy, hs']
            left
            simpa [scanMoreInc] using hg
          · rcases ih5 hmo' with hg | hk
            · left
              simp [hasGreedy]
              right
              simpa [hasGreedy] using hg
            · right
              omega
        · intro hgr
          simp only [hasGreedy, List.any_cons, Bool.or_eq_true_iff] at hgr
          rcases hgr with hg | hgr
          · have : scanMoreInc a = true := by
              simpa [scanMoreInc, hs'] using hg
            simp [this]
          · have := ih6 (by simpa [hasGreedy] using hgr)
            simp [this]

/-- Accounting for the exact branch: consumed plus leftover equals the group. -/
theorem applyExact_account (p : ArgumentParser) :
    ∀ (w : List Argument) (args : List String) (res res' : Res) (cs : List Nat)
      (rem : List String),
      applyExact p w args res = .ok (res', cs, rem) →
      cs.sum + rem.length = args.length := by
  intro w
  induction w with
  | nil =>
    intro args res res' cs rem h
    simp only [applyExact, exceptPure_ok, Prod.mk.injEq] at h
    obtain ⟨-, h2, h3⟩ := h
    simp [← h2, ← h3]
  | cons a w ihw =>
    intro args res res' cs rem h
    simp only [applyExact, exceptBind_ok] at h
    obtain ⟨⟨stored, res1⟩, hst, h⟩ := h
    cases stored
    · simp only [Bool.false_eq_true, if_false] at h
      by_cases h1 : a.m_nargs = "" ∨ a.m_nargs = "+"
      · rw [if_pos h1] at h
        simp only [exceptBind_ok] at h
        obtain ⟨res2, hsv, h⟩ := h
        obtain ⟨⟨res3, cs3, rem3⟩, hrec, hp⟩ := h
        simp only [exceptPure_ok, Prod.mk.injEq] at hp
        obtain ⟨-, h2, h3⟩ := hp
        have := ihw _ _ _ _ _ hrec
        simp only [← h2, ← h3, List.sum_cons]
        simp only [List.length_take, List.length_drop] at *
        omega
      · rw [if_neg h1] at h
        by_cases h2 : a.m_nargs = "?" ∨ a.m_nargs = "*"
        · rw [if_pos h2] at h
          simp only [exceptBind_ok] at h
          obtain ⟨⟨res3, cs3, rem3⟩, hrec, hp⟩ := h
          simp only [exceptPure_ok, Prod.mk.injEq] at hp
          obtain ⟨-, h3, h4⟩ := hp
          have := ihw _ _ _ _ _ hrec
          simp only [← h3, ← h4, List.sum_cons]
          omega
        · rw [if_neg h2] at h
          simp only [exceptBind_ok] at h
          obtain ⟨res2, hsv, h⟩ := h
          obtain ⟨⟨res3, cs3, rem3⟩, hrec, hp⟩ := h
          simp only [exceptPure_ok, Prod.mk.injEq] at hp
          obtain ⟨-, h3, h4⟩ := hp
          have := ihw _ _ _ _ _ hrec
          simp only [← h3, ← h4, List.sum_cons]
          simp only [List.length_take, List.length_drop] at *
          omega
    · simp only [if_pos] at h
      simp only [exceptBind_ok] at h
      obtain ⟨⟨res3, cs3, rem3⟩, hrec, hp⟩ := h
      simp only [exceptPure_ok, Prod.mk.injEq] at hp
      obtain ⟨-, h2, h3⟩ := hp
      have := ihw _ _ _ _ _ hrec
      simp only [← h2, ← h3, List.sum_cons]
      omega

/-- Accounting for the greedy branch. -/
theorem applyGreedy_account (p : ArgumentParser) :
    ∀ (w : List Argument) (args : List String) (over : Nat) (res res' : Res)
      (cs : List Nat) (rem : List String),
      applyGreedy p w args over res = .ok (res', cs, rem) →
      cs.sum + rem.length = args.length := by
  intro w
  induction w with
  | nil =>
    intro args over res res' cs rem h
    simp only [applyGreedy, exceptPure_ok, Prod.mk.injEq] at h
    obtain ⟨-, h2, h3⟩ := h
    simp [← h2, ← h3]
  | cons a w ihw =>
    intro args over res res' cs rem h
    simp only [applyGreedy, exceptBind_ok] at h
    obtain ⟨⟨stored, res1⟩, hst, h⟩ := h
    cases stored
    · simp only [Bool.false_eq_true, if_false] at h
      by_cases h1 : a.m_nargs = ""
      · rw [if_pos h1] at h
        simp only [exceptBind_ok] at h
        obtain ⟨res2, hsv, ⟨⟨res3, cs3, rem3⟩, hrec, hp⟩⟩ := h
        simp only [exceptPure_ok, Prod.mk.injEq] at hp
        obtain ⟨-, h2, h3⟩ := hp
        have := ihw _ _ _ _ _ _ hrec
        simp only [← h2, ← h3, List.sum_cons]
        simp only [List.length_take, List.length_drop] at *
        omega
      · rw [if_neg h1] at h
        by_cases h2 : a.m_nargs = "+"
        · rw [if_pos h2] at h
          simp only [exceptBind_ok] at h
          obtain ⟨res2, hsv, ⟨⟨res3, cs3, rem3⟩, hrec, hp⟩⟩ := h
          simp only [exceptPure_ok, Prod.mk.injEq] at hp
          obtain ⟨-, h3, h4⟩ := hp
          have := ihw _ _ _ _ _ _ hrec
          simp only [← h3, ← h4, List.sum_cons]
          simp only [List.length_take, List.length_drop] at *
          omega
        · rw [if_neg h2] at h
          by_cases h3 : a.m_nargs = "?"
          · rw [if_pos h3] at h
            simp only [exceptBind_ok] at h
            obtain ⟨⟨res3, cs3, rem3⟩, hrec, hp⟩ := h
            simp only [exceptPure_ok, Prod.mk.injEq] at hp
            obtain ⟨-, h4, h5⟩ := hp
            have := ihw _ _ _ _ _ _ hrec
            simp only [← h4, ← h5, List.sum_cons]
            omega
          · rw [if_neg h3] at h
            by_cases h4 : a.m_nargs = "*"
            · rw [if_pos h4] at h
              by_cases h5 : over > 0
              · rw [if_pos h5] at h
                simp only [exceptBind_ok] at h
                obtain ⟨res2, hsv, ⟨⟨res3, cs3, rem3⟩, hrec, hp⟩⟩ := h
                simp only [exceptPure_ok, Prod.mk.injEq] at hp
                obtain ⟨-, h6, h7⟩ := hp
                have := ihw _ _ _ _ _ _ hrec
                simp only [← h6, ← h7, List.sum_cons]
                simp only [List.length_take, List.length_drop] at *
                omega
              · rw [if_neg h5] at h
                simp only [exceptBind_ok] at h
                obtain ⟨⟨res3, cs3, rem3⟩, hrec, hp⟩ := h
                simp only [exceptPure_ok, Prod.mk.injEq] at hp
                obtain ⟨-, h6, h7⟩ := hp
                have := ihw _ _ _ _ _ _ hrec
                simp only [← h6, ← h7, List.sum_cons]
                omega
            · rw [if_neg h4] at h
              simp only [exceptBind_ok] at h
              obtain ⟨res2, hsv, ⟨⟨res3, cs3, rem3⟩, hrec, hp⟩⟩ := h
              simp only [exceptPure_ok, Prod.mk.injEq] at hp
              obtain ⟨-, h6, h7⟩ := hp
              have := ihw _ _ _ _ _ _ hrec
              simp only [← h6, ← h7, List.sum_cons]
              simp only [List.length_take, List.length_drop] at *
              omega
    · simp only [if_pos] at h
      simp only [exceptBind_ok] at h
      obtain ⟨⟨res3, cs3, rem3⟩, hrec, hp⟩ := h
      simp only [exceptPure_ok, Prod.mk.injEq] at hp
      obtain ⟨-, h2, h3⟩ := hp
      have := ihw _ _ _ _ _ _ hrec
      simp only [← h2, ← h3, List.sum_cons]
      omega

/-- Accounting for the `?`-distribution branch. -/
theorem applyOne_account (p : ArgumentParser) (os : Nat) :
    ∀ (w : List Argument) (args : List String) (over : Nat) (res res' : Res)
      (cs : List Nat) (rem : List String),
      applyOne p os w args over res = .ok (res', cs, rem) →
      cs.sum + rem.length = args.length := by
  intro w
  induction w with
  | nil =>
    intro args over res res' cs rem h
    simp only [applyOne, exceptPure_ok, Prod.mk.injEq] at h
    obtain ⟨-, h2, h3⟩ := h
    simp [← h2, ← h3]
  | cons a w ihw =>
    intro args over res res' cs rem h
    simp only [applyOne, exceptBind_ok] at h
    obtain ⟨⟨stored, res1⟩, hst, h⟩ := h
    cases stored
    · simp only [Bool.false_eq_true, if_false] at h
      by_cases h1 : a.m_nargs = ""
      · rw [if_pos h1] at h
        simp only [exceptBind_ok] at h
        obtain ⟨res2, hsv, ⟨⟨res3, cs3, rem3⟩, hrec, hp⟩⟩ := h
        simp only [exceptPure_ok, Prod.mk.injEq] at hp
        obtain ⟨-, h2, h3⟩ := hp
        have := ihw _ _ _ _ _ _ hrec
        simp only [← h2, ← h3, List.sum_cons]
        simp only [List.length_take, List.length_drop] at *
        omega
      · rw [if_neg h1] at h
        by_cases h2 : a.m_nargs = "?"
        · rw [if_pos h2] at h
          by_cases h3 : over < os
          · rw [if_pos h3] at h
            simp only [exceptBind_ok] at h
            obtain ⟨res2, hsv, ⟨⟨res3, cs3, rem3⟩, hrec, hp⟩⟩ := h
            simp only [exceptPure_ok, Prod.mk.injEq] at hp
            obtain ⟨-, h4, h5⟩ := hp
            have := ihw _ _ _ _ _ _ hrec
            simp only [← h4, ← h5, List.sum_cons]
            simp only [List.length_take, List.length_drop] at *
            omega
          · rw [if_neg h3] at h
            simp only [exceptBind_ok] at h
            obtain ⟨⟨res3, cs3, rem3⟩, hrec, hp⟩ := h
            simp only [exceptPure_ok, Prod.mk.injEq] at hp
            obtain ⟨-, h4, h5⟩ := hp
            have := ihw _ _ _ _ _ _ hrec
            simp only [← h4, ← h5, List.sum_cons]
            omega
        · rw [if_neg h2] at h
          simp only [exceptBind_ok] at h
          obtain ⟨res2, hsv, ⟨⟨res3, cs3, rem3⟩, hrec, hp⟩⟩ := h
          simp only [exceptPure_ok, Prod.mk.injEq] at hp
          obtain ⟨-, h4, h5⟩ := hp
          have := ihw _ _ _ _ _ _ hrec
          simp only [← h4, ← h5, List.sum_cons]
          simp only [List.length_take, List.length_drop] at *
          omega
    · simp only [if_pos] at h
      simp only [exceptBind_ok] at h
      obtain ⟨⟨res3, cs3, rem3⟩, hrec, hp⟩ := h
      simp only [exceptPure_ok, Prod.mk.injEq] at hp
      obtain ⟨-, h2, h3⟩ := hp
      have := ihw _ _ _ _ _ _ hrec
      simp only [← h2, ← h3, List.sum_cons]
      omega

/-- Accounting for the minimum-consumption branch. -/
theorem applyMins_account (p : ArgumentParser) :
    ∀ (w : List Argument) (args : List String) (res res' : Res) (cs : List Nat)
      (rem : List String),
      applyMins p w args res = .ok (res', cs, rem) →
      cs.sum + rem.length = args.length := by
  intro w
  induction w with
  | nil =>
    intro args res res' cs rem h
    simp only [applyMins, exceptPure_ok, Prod.mk.injEq] at h
    obtain ⟨-, h2, h3⟩ := h
    simp [← h2, ← h3]
  | cons a w ihw =>
    intro args res res' cs rem h
    simp only [applyMins, exceptBind_ok] at h
    obtain ⟨⟨stored, res1⟩, hst, h⟩ := h
    cases stored
    · simp only [Bool.false_eq_true, if_false] at h
      by_cases h1 : a.m_nargs = ""
      · rw [if_pos h1] at h
        simp only [exceptBind_ok] at h
        obtain ⟨res2, hsv, ⟨⟨res3, cs3, rem3⟩, hrec, hp⟩⟩ := h
        simp only [exceptPure_ok, Prod.mk.injEq] at hp
        obtain ⟨-, h2, h3⟩ := hp
        have := ihw _ _ _ _ _ hrec
        simp only [← h2, ← h3, List.sum_cons]
        simp only [List.length_take, List.length_drop] at *
        omega
      · rw [if_neg h1] at h
        simp only [exceptBind_ok] at h
        obtain ⟨res2, hsv, ⟨⟨res3, cs3, rem3⟩, hrec, hp⟩⟩ := h
        simp only [exceptPure_ok, Prod.mk.injEq] at hp
        obtain ⟨-, h2, h3⟩ := hp
        have := ihw _ _ _ _ _ hrec
        simp only [← h2, ← h3, List.sum_cons]
        simp only [List.length_take, List.length_drop] at *
        omega
    · simp only [if_pos] at h
      simp only [exceptBind_ok] at h
      obtain ⟨⟨res3, cs3, rem3⟩, hrec, hp⟩ := h
      simp only [exceptPure_ok, Prod.mk.injEq] at hp
      obtain ⟨-, h2, h3⟩ := hp
      have := ihw _ _ _ _ _ hrec
      simp only [← h2, ← h3, List.sum_cons]
      omega

/-- A slot list whose non-store slots carry the `"0"` nargs and zero
`num_args` that every action setter establishes (builder-reachable
arguments always satisfy this). -/
def WfWindow (w : List Argument) : Prop :=
  ∀ a ∈ w, isStoreAction a.m_action = false → a.m_nargs = "0" ∧ a.m_num_args = 0

instance (w : List Argument) : Decidable (WfWindow w) := by
  unfold WfWindow
  infer_instance

theorem nonstore_minAmount {a : Argument} (h : isStoreAction a.m_action = false) :
    minAmount a = 0 := by
  simp [minAmount, h]

theorem exceptMap_ok {ε α β : Type} {f : α → β} {x : Except ε α} {b : β} :
    (f <$> x) = Except.ok b ↔ ∃ a, x = Except.ok a ∧ f a = b := by
  cases x <;> simp [Functor.map, Except.map]

theorem isPositionalArgStored_false {p : ArgumentParser} {a : Argument} {res res1 : Res}
    (h : isPositionalArgStored p a res = .ok (false, res1)) :
    res1 = res
    ∧ (isStoreAction a.m_action = true
        ∨ a.m_action = Action.help ∨ a.m_action = Action.version) := by
  cases ha : a.m_action <;>
    simp only [isPositionalArgStored, ha] at h <;>
    simp [exceptMap_ok, exceptPure_ok, Prod.mk.injEq] at h <;>
    simp_all [isStoreAction]

theorem isPositionalArgStored_true {p : ArgumentParser} {a : Argument} {res res1 : Res}
    (h : isPositionalArgStored p a res = .ok (true, res1)) :
    isStoreAction a.m_action = false := by
  cases ha : a.m_action <;>
    simp only [isPositionalArgStored, ha] at h <;>
    simp [exceptMap_ok, exceptPure_ok, Prod.mk.injEq] at h <;>
    simp [isStoreAction]

/-- In the exact branch, a group whose size equals the window minimum is
consumed completely. -/
theorem applyExact_rem (p : ArgumentParser) :
    ∀ (w : List Argument) (args : List String) (res res' : Res) (cs : List Nat)
      (rem : List String),
      WfWindow w →
      args.length = minSumOf w →
      applyExact p w args res = .ok (res', cs, rem) →
      rem = [] := by
  intro w
  induction w with
  | nil =>
    intro args res res' cs rem hw hlen h
    simp only [applyExact, exceptPure_ok, Prod.mk.injEq] at h
    obtain ⟨-, -, h3⟩ := h
    have hargs : args = [] := List.length_eq_zero.mp (by simpa [minSumOf] using hlen)
    rw [← h3, hargs]
  | cons a w ihw =>
    intro args res res' cs rem hw hlen h
    have hwa := hw a (List.mem_cons_self a w)
    have hw' : WfWindow w := fun b hb hs => hw b (List.mem_cons_of_mem a hb) hs
    simp only [applyExact, exceptBind_ok] at h
    obtain ⟨⟨stored, res1⟩, hst, h⟩ := h
    cases stored
    · obtain ⟨hres1, hact⟩ := isPositionalArgStored_false hst
      subst hres1
      simp only [Bool.false_eq_true, if_false] at h
      by_cases h1 : a.m_nargs = "" ∨ a.m_nargs = "+"
      · rw [if_pos h1] at h
        have hs : isStoreAction a.m_action = true := by
          rcases hact with hs | hh | hh
          · exact hs
          all_goals {
            exfalso
            have h0 := (hwa (by simp [isStoreAction, hh])).1
            rcases h1 with h1 | h1 <;> rw [h1] at h0 <;> exact absurd h0 (by decide) }
        have hmin : minAmount a = 1 := by
          rcases h1 with h1 | h1 <;> simp [minAmount, hs, h1]
        simp only [exceptBind_ok] at h
        obtain ⟨res2, hsv, ⟨⟨res3, cs3, rem3⟩, hrec, hp⟩⟩ := h
        simp only [exceptPure_ok, Prod.mk.injEq] at hp
        have hlen' : (args.drop 1).length = minSumOf w := by
          simp only [minSumOf, List.map_cons, List.sum_cons, hmin] at hlen
          simp [List.length_drop, hlen, minSumOf]
        rw [← hp.2.2]
        exact ihw _ _ _ _ _ hw' hlen' hrec
      · rw [if_neg h1] at h
        by_cases h2 : a.m_nargs = "?" ∨ a.m_nargs = "*"
        · rw [if_pos h2] at h
          have hs : isStoreAction a.m_action = true := by
            rcases hact with hs | hh | hh
            · exact hs
            all_goals {
              exfalso
              have h0 := (hwa (by simp [isStoreAction, hh])).1
              rcases h2 with h2 | h2 <;> rw [h2] at h0 <;> exact absurd h0 (by decide) }
          have hmin : minAmount a = 0 := by
            rcases h2 with h2 | h2 <;> simp [minAmount, hs, h2]
          simp only [exceptBind_ok] at h
          obtain ⟨⟨res3, cs3, rem3⟩, hrec, hp⟩ := h
          simp only [exceptPure_ok, Prod.mk.injEq] at hp
          have hlen' : args.length = minSumOf w := by
            simp only [minSumOf, List.map_cons, List.sum_cons, hmin] at hlen
            simpa [minSumOf] using hlen
          rw [← hp.2.2]
          exact ihw _ _ _ _ _ hw' hlen' hrec
        · rw [if_neg h2] at h
          have hmin : minAmount a = a.m_num_args := by
            rcases hact with hs | hh | hh
            · have hne : ¬ a.m_nargs = "" := fun hx => h1 (Or.inl hx)
              have hnp : ¬ a.m_nargs = "+" := fun hx => h1 (Or.inr hx)
              have hnq : ¬ a.m_nargs = "?" := fun hx => h2 (Or.inl hx)
              have hns : ¬ a.m_nargs = "*" := fun hx => h2 (Or.inr hx)
              simp [minAmount, hs, hne, hnp, hnq, hns]
            all_goals {
              have h0 := hwa (by simp [isStoreAction, hh])
              rw [h0.2, nonstore_minAmount (by simp [isStoreAction, hh])] }
          simp only [exceptBind_ok] at h
          obtain ⟨res2, hsv, ⟨⟨res3, cs3, rem3⟩, hrec, hp⟩⟩ := h
          simp only [exceptPure_ok, Prod.mk.injEq] at hp
          have hlen' : (args.drop a.m_num_args).length = minSumOf w := by
            simp only [minSumOf, List.map_cons, List.sum_cons, hmin] at hlen
            simp [List.length_drop, hlen, minSumOf]
          rw [← hp.2.2]
          exact ihw _ _ _ _ _ hw' hlen' hrec
    · have hs0 : isStoreAction a.m_action = false := isPositionalArgStored_true hst
      have hmin : minAmount a = 0 := nonstore_minAmount hs0
      simp only [if_pos] at h
      simp only [exceptBind_ok] at h
      obtain ⟨⟨res3, cs3, rem3⟩, hrec, hp⟩ := h
      simp only [exceptPure_ok, Prod.mk.injEq] at hp
      have hlen' : args.length = minSumOf w := by
        simp only [minSumOf, List.map_cons, List.sum_cons, hmin] at hlen
        simpa [minSumOf] using hlen
      rw [← hp.2.2]
      exact ihw _ _ _ _ _ hw' hlen' hrec

/-- In the greedy branch, the group (minimums plus surplus) is consumed
completely: the first greedy slot absorbs the surplus. -/
theorem applyGreedy_rem (p : ArgumentParser) :
    ∀ (w : List Argument) (args : List String) (over : Nat) (res res' : Res)
      (cs : List Nat) (rem : List String),
      WfWindow w →
      args.length = minSumOf w + over →
      (0 < over → hasGreedy w = true) →
      applyGreedy p w args over res = .ok (res', cs, rem) →
      rem = [] := by
  intro w
  induction w with
  | nil =>
    intro args over res res' cs rem hw hlen hgr h
    simp only [applyGreedy, exceptPure_ok, Prod.mk.injEq] at h
    obtain ⟨-, -, h3⟩ := h
    have hover : over = 0 := by
      by_contra hne
      have := hgr (Nat.pos_of_ne_zero hne)
      simp [hasGreedy] at this
    have hargs : args = [] := by
      simp [minSumOf, hover] at hlen
      exact hlen
    rw [← h3, hargs]
  | cons a w ihw =>
    intro args over res res' cs rem hw hlen hgr h
    have hwa := hw a (List.mem_cons_self a w)
    have hw' : WfWindow w := fun b hb hs => hw b (List.mem_cons_of_mem a hb) hs
    simp only [applyGreedy, exceptBind_ok] at h
    obtain ⟨⟨stored, res1⟩, hst, h⟩ := h
    cases stored
    · obtain ⟨hres1, hact⟩ := isPositionalArgStored_false hst
      subst hres1
      simp only [Bool.false_eq_true, if_false] at h
      by_cases h1 : a.m_nargs = ""
      · rw [if_pos h1] at h
        have hs : isStoreAction a.m_action = true := by
          rcases hact with hs | hh | hh
          · exact hs
          all_goals {
            exfalso
            have h0 := (hwa (by simp [isStoreAction, hh])).1
            rw [h1] at h0
            exact absurd h0 (by decide) }
        have hmin : minAmount a = 1 := by simp [minAmount, hs, h1]
        simp only [exceptBind_ok] at h
        obtain ⟨res2, hsv, ⟨⟨res3, cs3, rem3⟩, hrec, hp⟩⟩ := h
        simp only [exceptPure_ok, Prod.mk.injEq] at hp
        have hlen' : (args.drop 1).length = minSumOf w + over := by
          simp only [minSumOf, List.map_cons, List.sum_cons, hmin] at hlen
          simp only [List.length_drop, hlen, minSumOf]
          omega
        have hgr' : 0 < over → hasGreedy w = true := by
          intro hov
          have := hgr hov
          simpa [hasGreedy, hs, h1] using this
        rw [← hp.2.2]
        exact ihw _ _ _ _ _ _ hw' hlen' hgr' hrec
      · rw [if_neg h1] at h
        by_cases h2 : a.m_nargs = "+"
        · rw [if_pos h2] at h
          have hs : isStoreAction a.m_action = true := by
            rcases hact with hs | hh | hh
            · exact hs
            all_goals {
              exfalso
              have h0 := (hwa (by simp [isStoreAction, hh])).1
              rw [h2] at h0
              exact absurd h0 (by decide) }
          have hmin : minAmount a = 1 := by simp [minAmount, hs, h2]
          simp only [exceptBind_ok] at h
          obtain ⟨res2, hsv, ⟨⟨res3, cs3, rem3⟩, hrec, hp⟩⟩ := h
          simp only [exceptPure_ok, Prod.mk.injEq] at hp
          have hlen' : (args.drop (1 + over)).length = minSumOf w + 0 := by
            simp only [minSumOf, List.map_cons, List.sum_cons, hmin] at hlen
            simp only [List.length_drop, hlen, minSumOf]
            omega
          rw [← hp.2.2]
          exact ihw _ _ _ _ _ _ hw' hlen' (fun hh => absurd hh (by omega)) hrec
        · rw [if_neg h2] at h
          by_cases h3 : a.m_nargs = "?"
          · rw [if_pos h3] at h
            have hmin : minAmount a = 0 := by
              by_cases hs : isStoreAction a.m_action = true
              · simp [minAmount, hs, h3]
              · exact nonstore_minAmount (by revert hs; cases isStoreAction a.m_action <;> simp)
            simp only [exceptBind_ok] at h
            obtain ⟨⟨res3, cs3, rem3⟩, hrec, hp⟩ := h
            simp only [exceptPure_ok, Prod.mk.injEq] at hp
            have hlen' : args.length = minSumOf w + over := by
              simp only [minSumOf, List.map_cons, List.sum_cons, hmin] at hlen
              simpa [minSumOf] using hlen
            have hgr' : 0 < over → hasGreedy w = true := by
              intro hov
              have := hgr hov
              simpa [hasGreedy, h3] using this
            rw [← hp.2.2]
            exact ihw _ _ _ _ _ _ hw' hlen' hgr' hrec
          · rw [if_neg h3] at h
            by_cases h4 : a.m_nargs = "*"
            · rw [if_pos h4] at h
              have hs : isStoreAction a.m_action = true := by
                rcases hact with hs | hh | hh
                · exact hs
                all_goals {
                  exfalso
                  have h0 := (hwa (by simp [isStoreAction, hh])).1
                  rw [h4] at h0
                  exact absurd h0 (by decide) }
              have hmin : minAmount a = 0 := by simp [minAmount, hs, h4]
              by_cases h5 : over > 0
              · rw [if_pos h5] at h
                simp only [exceptBind_ok] at h
                obtain ⟨res2, hsv, ⟨⟨res3, cs3, rem3⟩, hrec, hp⟩⟩ := h
                simp only [exceptPure_ok, Prod.mk.injEq] at hp
                have hlen' : (args.drop over).length = minSumOf w + 0 := by
                  simp only [minSumOf, List.map_cons, List.sum_cons, hmin] at hlen
                  simp only [List.length_drop, hlen, minSumOf]
                  omega
                rw [← hp.2.2]
                exact ihw _ _ _ _ _ _ hw' hlen' (fun hh => absurd hh (by omega)) hrec
              · rw [if_neg h5] at h
                have hover : over = 0 := by omega
                simp only [exceptBind_ok] at h
                obtain ⟨⟨res3, cs3, rem3⟩, hrec, hp⟩ := h
                simp only [exceptPure_ok, Prod.mk.injEq] at hp
                have hlen' : args.length = minSumOf w + over := by
                  simp only [minSumOf, List.map_cons, List.sum_cons, hmin] at hlen
                  simpa [minSumOf] using hlen
                rw [← hp.2.2]
                exact ihw _ _ _ _ _ _ hw' hlen'
                  (fun hh => absurd hh (by omega)) hrec
            · rw [if_neg h4] at h
              have hmin : minAmount a = a.m_num_args := by
                rcases hact with hs | hh | hh
                · simp [minAmount, hs, h1, h2, h3, h4]
                all_goals {
                  have h0 := hwa (by simp [isStoreAction, hh])
                  rw [h0.2, nonstore_minAmount (by simp [isStoreAction, hh])] }
              have hng : ∀ hov : 0 < over, hasGreedy w = true := by
                intro hov
                have := hgr hov
                rcases hact with hs | hh | hh
                · simpa [hasGreedy, hs, h2, h4] using this
                all_goals simpa [hasGreedy, isStoreAction, hh] using this
              simp only [exceptBind_ok] at h
              obtain ⟨res2, hsv, ⟨⟨res3, cs3, rem3⟩, hrec, hp⟩⟩ := h
              simp only [exceptPure_ok, Prod.mk.injEq] at hp
              have hlen' : (args.drop a.m_num_args).length = minSumOf w + over := by
                simp only [minSumOf, List.map_cons, List.sum_cons, hmin] at hlen
                simp only [List.length_drop, hlen, minSumOf]
                omega
              rw [← hp.2.2]
              exact ihw _ _ _ _ _ _ hw' hlen' hng hrec
    · have hs0 : isStoreAction a.m_action = false := isPositionalArgStored_true hst
      have hmin : minAmount a = 0 := nonstore_minAmount hs0
      simp only [if_pos] at h
      simp only [exceptBind_ok] at h
      obtain ⟨⟨res3, cs3, rem3⟩, hrec, hp⟩ := h
      simp only [exceptPure_ok, Prod.mk.injEq] at hp
      have hlen' : args.length = minSumOf w + over := by
        simp only [minSumOf, List.map_cons, List.sum_cons, hmin] at hlen
        simpa [minSumOf] using hlen
      have hgr' : 0 < over → hasGreedy w = true := by
        intro hov
        have := hgr hov
        simpa [hasGreedy, hs0] using this
      rw [← hp.2.2]
      exact ihw _ _ _ _ _ _ hw' hlen' hgr' hrec

/-- In the `?`-distribution branch a group within `min_args + one_args` is
consumed completely: the leading `?` slots absorb the surplus. -/
theorem applyOne_rem (p : ArgumentParser) (os : Nat) :
    ∀ (w : List Argument) (args : List String) (over : Nat) (res res' : Res)
      (cs : List Nat) (rem : List String),
      WfWindow w →
      hasGreedy w = false →
      over ≤ os →
      args.length = minSumOf w + min (oneCountOf w) (os - over) →
      applyOne p os w args over res = .ok (res', cs, rem) →
      rem = [] := by
  intro w
  induction w with
  | nil =>
    intro args over res res' cs rem hw hgf hos hlen h
    simp only [applyOne, exceptPure_ok, Prod.mk.injEq] at h
    obtain ⟨-, -, h3⟩ := h
    have hargs : args = [] := by
      simp [minSumOf, oneCountOf] at hlen
      exact hlen
    rw [← h3, hargs]
  | cons a w ihw =>
    intro args over res res' cs rem hw hgf hos hlen h
    have hwa := hw a (List.mem_cons_self a w)
    have hw' : WfWindow w := fun b hb hs => hw b (List.mem_cons_of_mem a hb) hs
    have hgf' : hasGreedy w = false := by
      simp only [hasGreedy, List.any_cons, Bool.or_eq_false_iff] at hgf
      simpa [hasGreedy] using hgf.2
    have hgfa : (isStoreAction a.m_action && (a.m_nargs = "+" || a.m_nargs = "*")) = false := by
      simp only [hasGreedy, List.any_cons, Bool.or_eq_false_iff] at hgf
      exact hgf.1
    simp only [applyOne, exceptBind_ok] at h
    obtain ⟨⟨stored, res1⟩, hst, h⟩ := h
    cases stored
    · obtain ⟨hres1, hact⟩ := isPositionalArgStored_false hst
      subst hres1
      simp only [Bool.false_eq_true, if_false] at h
      by_cases h1 : a.m_nargs = ""
      · rw [if_pos h1] at h
        have hs : isStoreAction a.m_action = true := by
          rcases hact with hs | hh | hh
          · exact hs
          all_goals {
            exfalso
            have h0 := (hwa (by simp [isStoreAction, hh])).1
            rw [h1] at h0
            exact absurd h0 (by decide) }
        have hmin : minAmount a = 1 := by simp [minAmount, hs, h1]
        have hoc : oneCountOf (a :: w) = oneCountOf w := by
          simp [oneCountOf, List.countP_cons, h1]
        simp only [exceptBind_ok] at h
        obtain ⟨res2, hsv, ⟨⟨res3, cs3, rem3⟩, hrec, hp⟩⟩ := h
        simp only [exceptPure_ok, Prod.mk.injEq] at hp
        have hlen' : (args.drop 1).length = minSumOf w + min (oneCountOf w) (os - over) := by
          simp only [minSumOf, List.map_cons, List.sum_cons, hmin] at hlen
          rw [hoc] at hlen
          simp only [List.length_drop, minSumOf] at hlen ⊢
          omega
        rw [← hp.2.2]
        exact ihw _ _ _ _ _ _ hw' hgf' hos hlen' hrec
      · rw [if_neg h1] at h
        by_cases h2 : a.m_nargs = "?"
        · rw [if_pos h2] at h
          have hs : isStoreAction a.m_action = true := by
            rcases hact with hs | hh | hh
            · exact hs
            all_goals {
              exfalso
              have h0 := (hwa (by simp [isStoreAction, hh])).1
              rw [h2] at h0
              exact absurd h0 (by decide) }
          have hmin : minAmount a = 0 := by simp [minAmount, hs, h2]
          have hoc : oneCountOf (a :: w) = oneCountOf w + 1 := by
            simp [oneCountOf, List.countP_cons, h2, hs]
          by_cases h3 : over < os
          · rw [if_pos h3] at h
            simp only [exceptBind_ok] at h
            obtain ⟨res2, hsv, ⟨⟨res3, cs3, rem3⟩, hrec, hp⟩⟩ := h
            simp only [exceptPure_ok, Prod.mk.injEq] at hp
            have hlen' : (args.drop 1).length
                = minSumOf w + min (oneCountOf w) (os - (over + 1)) := by
              simp only [minSumOf, List.map_cons, List.sum_cons, hmin] at hlen
              rw [hoc] at hlen
              simp only [List.length_drop, minSumOf] at hlen ⊢
              omega
            rw [← hp.2.2]
            exact ihw _ _ _ _ _ _ hw' hgf' (by omega) hlen' hrec
          · rw [if_neg h3] at h
            have hover : over = os := by omega
            simp only [exceptBind_ok] at h
            obtain ⟨⟨res3, cs3, rem3⟩, hrec, hp⟩ := h
            simp only [exceptPure_ok, Prod.mk.injEq] at hp
            have hlen' : args.length = minSumOf w + min (oneCountOf w) (os - over) := by
              simp only [minSumOf, List.map_cons, List.sum_cons, hmin] at hlen
              rw [hoc] at hlen
              simp only [minSumOf] at hlen ⊢
              omega
            rw [← hp.2.2]
            exact ihw _ _ _ _ _ _ hw' hgf' hos hlen' hrec
        · rw [if_neg h2] at h
          have hmin : minAmount a = a.m_num_args := by
            rcases hact with hs | hh | hh
            · have hnp : ¬ a.m_nargs = "+" := by
                intro hx
                rw [hs, hx] at hgfa
                simp at hgfa
              have hns : ¬ a.m_nargs = "*" := by
                intro hx
                rw [hs, hx] at hgfa
                simp at hgfa
              simp [minAmount, hs, h1, h2, hnp, hns]
            all_goals {
              have h0 := hwa (by simp [isStoreAction, hh])
              rw [h0.2, nonstore_minAmount (by simp [isStoreAction, hh])] }
          have hoc : oneCountOf (a :: w) = oneCountOf w := by
            by_cases hs : isStoreAction a.m_action = true <;>
              simp [oneCountOf, List.countP_cons, h2, hs]
          simp only [exceptBind_ok] at h
          obtain ⟨res2, hsv, ⟨⟨res3, cs3, rem3⟩, hrec, hp⟩⟩ := h
          simp only [exceptPure_ok, Prod.mk.injEq] at hp
          have hlen' : (args.drop a.m_num_args).length
              = minSumOf w + min (oneCountOf w) (os - over) := by
            simp only [minSumOf, List.map_cons, List.sum_cons, hmin] at hlen
            rw [hoc] at hlen
            simp only [List.length_drop, minSumOf] at hlen ⊢
            omega
          rw [← hp.2.2]
          exact ihw _ _ _ _ _ _ hw' hgf' hos hlen' hrec
    · have hs0 : isStoreAction a.m_action = false := isPositionalArgStored_true hst
      have hmin : minAmount a = 0 := nonstore_minAmount hs0
      have hoc : oneCountOf (a :: w) = oneCountOf w := by
        simp [oneCountOf, List.countP_cons, hs0]
      simp only [if_pos] at h
      simp only [exceptBind_ok] at h
      obtain ⟨⟨res3, cs3, rem3⟩, hrec, hp⟩ := h
      simp only [exceptPure_ok, Prod.mk.injEq] at hp
      have hlen' : args.length = minSumOf w + min (oneCountOf w) (os - over) := by
        simp only [minSumOf, List.map_cons, List.sum_cons, hmin] at hlen
        rw [hoc] at hlen
        simpa [minSumOf] using hlen
      rw [← hp.2.2]
      exact ihw _ _ _ _ _ _ hw' hgf' hos hlen' hrec

/-- Accounting for one `_match_args_partial` call: the per-slot consumed
counts plus the newly unrecognized tokens cover the group exactly. -/
theorem matchGroup_account (p : ArgumentParser) (positional : List Argument)
    (pos : Nat) (args : List String) (res : Res)
    (pos' : Nat) (res' : Res) (newUnrec : List String) (cs : List Nat)
    (hw : WfWindow positional)
    (h : matchGroup p positional pos args res = .ok (pos', res', newUnrec, cs)) :
    cs.sum + newUnrec.length = args.length := by
  by_cases hp : positional.length ≤ pos
  · rw [matchGroup, if_pos hp, exceptPure_ok] at h
    injection h with h1 h
    injection h with h2 h
    injection h with h3 h4
    simp [← h3, ← h4]
  · have hspec := windowScan_spec args.length (positional.drop pos) 0 (Nat.zero_le _)
    rcases hscan : windowScan args.length (positional.drop pos) 0 with ⟨len, ms, os, mo⟩
    rw [hscan] at hspec
    obtain ⟨hs1, hs2, hs3, hs4, hs5, hs6⟩ := hspec
    simp only at hs1 hs2 hs3 hs4 hs5 hs6
    rw [matchGroup, if_neg hp] at h
    dsimp only at h
    rw [hscan] at h
    have hww : WfWindow ((positional.drop pos).take len) := by
      intro b hb hs
      exact hw b (List.drop_subset _ _ (List.take_subset _ _ hb)) hs
    by_cases hlen0 : len = 0
    · rw [if_pos hlen0, exceptPure_ok] at h
      injection h with h1 h
      injection h with h2 h
      injection h with h3 h4
      simp [← h3, ← h4]
    · rw [if_neg hlen0] at h
      by_cases hms : ms = args.length
      · rw [if_pos hms] at h
        simp only [exceptBind_ok] at h
        obtain ⟨⟨res2, cs2, rem2⟩, happ, hpure⟩ := h
        simp only [exceptPure_ok, Prod.mk.injEq] at hpure
        obtain ⟨-, -, hu, hc⟩ := hpure
        have hrem : rem2 = [] :=
          applyExact_rem p _ _ _ _ _ _ hww (by omega) happ
        have hacc := applyExact_account p _ _ _ _ _ _ happ
        rw [hrem] at hacc
        simp only [← hu, ← hc]
        simpa using hacc
      · rw [if_neg hms] at h
        by_cases hmo : mo = true
        · rw [if_pos hmo] at h
          simp only [exceptBind_ok] at h
          obtain ⟨⟨res2, cs2, rem2⟩, happ, hpure⟩ := h
          simp only [exceptPure_ok, Prod.mk.injEq] at hpure
          obtain ⟨-, -, hu, hc⟩ := hpure
          have hgr : 0 < args.length - ms →
              hasGreedy ((positional.drop pos).take len) = true := by
            intro hov
            rcases hs5 hmo with hg | hk
            · exact hg
            · omega
          have hrem : rem2 = [] :=
            applyGreedy_rem p _ _ _ _ _ _ _ hww (by omega) hgr happ
          have hacc := applyGreedy_account p _ _ _ _ _ _ _ happ
          rw [hrem] at hacc
          simp only [← hu, ← hc]
          simpa using hacc
        · rw [if_neg hmo] at h
          by_cases hone : args.length ≤ ms + os
          · rw [if_pos hone] at h
            simp only [exceptBind_ok] at h
            obtain ⟨⟨res2, cs2, rem2⟩, happ, hpure⟩ := h
            simp only [exceptPure_ok, Prod.mk.injEq] at hpure
            obtain ⟨-, -, hu, hc⟩ := hpure
            have hgf : hasGreedy ((positional.drop pos).take len) = false := by
              by_contra hne
              have : hasGreedy ((positional.drop pos).take len) = true := by
                revert hne
                cases hasGreedy ((positional.drop pos).take len) <;> simp
              exact hmo (hs6 this)
            have hrem : rem2 = [] := by
              refine applyOne_rem p os _ _ _ _ _ _ _ hww hgf (by omega) ?_ happ
              rw [← hs4]
              omega
            have hacc := applyOne_account p os _ _ _ _ _ _ _ happ
            rw [hrem] at hacc
            simp only [← hu, ← hc]
            simpa using hacc
          · rw [if_neg hone] at h
            simp only [exceptBind_ok] at h
            obtain ⟨⟨res2, cs2, rem2⟩, happ, hpure⟩ := h
            simp only [exceptPure_ok, Prod.mk.injEq] at hpure
            obtain ⟨-, -, hu, hc⟩ := hpure
            have hacc := applyMins_account p _ _ _ _ _ _ happ
            simp only [← hu, ← hc]
            omega

/-- Accounting for the whole second pass: the unrecognized list only grows,
and new consumed counts plus new unrecognized tokens cover the groups. -/
theorem matchAll_account (p : ArgumentParser) (positional : List Argument)
    (hw : WfWindow positional) :
    ∀ (gs : List (List String)) (pos : Nat) (res : Res) (unrec : List String)
      (consumed : List Nat) (pos' : Nat) (res' : Res) (unrec' : List String)
      (consumed' : List Nat),
      matchAll p positional gs (pos, res, unrec, consumed)
        = .ok (pos', res', unrec', consumed') →
      ∃ extraU extraC, unrec' = unrec ++ extraU ∧ consumed' = consumed ++ extraC
        ∧ extraC.sum + extraU.length = (gs.map List.length).sum := by
  intro gs
  induction gs with
  | nil =>
    intro pos res unrec consumed pos' res' unrec' consumed' h
    simp only [matchAll, exceptPure_ok] at h
    injection h with h1 h
    injection h with h2 h
    injection h with h3 h4
    exact ⟨[], [], by simp [← h3], by simp [← h4], by simp⟩
  | cons g gs ih =>
    intro pos res unrec consumed pos' res' unrec' consumed' h
    simp only [matchAll, exceptBind_ok] at h
    obtain ⟨⟨pos1, res1, nu, cs1⟩, hmg, hrest⟩ := h
    obtain ⟨eU, eC, hu, hc, hsum⟩ := ih _ _ _ _ _ _ _ _ hrest
    have hacc := matchGroup_account p positional pos g res pos1 res1 nu cs1 hw hmg
    refine ⟨nu ++ eU, cs1 ++ eC, by simp [hu], by simp [hc], ?_⟩
    simp only [List.sum_append, List.length_append, List.map_cons, List.sum_cons]
    omega

/-- Claim C2 (confirmed): for every schema whose non-store positionals carry
the `"0"` arity that the action setters establish, and every token list for
which parsing succeeds, the sum over all positional slots of the tokens each
slot consumed equals the total number of tokens accumulated into positional
groups. -/
theorem claim_C2_positional_partition (p : ArgumentParser)
    (fs : String → Option (List String)) (ts : List String) (ns : Namespace)
    (groups : List (List String)) (consumed : List Nat)
    (HW : WfWindow (positionalArguments p))
    (h : parseAux p fs ts = .ok (ns, groups, consumed)) :
    consumed.sum = (groups.map List.length).sum := by
  simp only [parseAux, exceptBind_ok] at h
  obtain ⟨⟨haveNeg, res0, rts⟩, hprep, h⟩ := h
  obtain ⟨st, hmain, h⟩ := h
  obtain ⟨⟨pos1, res1, unrec1, consumed1⟩, hmatch, h⟩ := h
  obtain ⟨res2, hfin, h⟩ := h
  by_cases hu : unrec1 = []
  · rw [if_neg (by simp [hu])] at h
    rw [exceptPure_ok] at h
    injection h with h1 h
    injection h with h2 h3
    obtain ⟨eU, eC, hueq, hceq, hsum⟩ :=
      matchAll_account p (positionalArguments p) HW st.groups 0 st.result st.unrec []
        pos1 res1 unrec1 consumed1 hmatch
    have hstu : st.unrec = [] ∧ eU = [] := by
      rw [hu] at hueq
      exact ⟨List.append_eq_nil.mp hueq.symm |>.1, List.append_eq_nil.mp hueq.symm |>.2⟩
    rw [← h3, ← h2, hceq]
    simp only [List.nil_append]
    have hlen0 : eU.length = 0 := by rw [hstu.2]; rfl
    omega
  · rw [if_pos hu, exceptThrow_ok] at h
    exact h.elim

/-- Every action setter leaves a non-store action with `nargs = "0"` and zero
`num_args`, so `WfWindow` holds for every builder-built argument list. -/
theorem actionA_nonstore_wf (a : Argument) (v : Action) (a' : Argument)
    (h : a.actionA v = .ok a') :
    isStoreAction a'.m_action = false → a'.m_nargs = "0" ∧ a'.m_num_args = 0 := by
  intro hns
  cases v <;> simp only [Argument.actionA] at h
  case store =>
    rw [exceptPure_ok] at h
    subst h
    simp [isStoreAction] at hns
  case append =>
    rw [exceptPure_ok] at h
    subst h
    simp [isStoreAction] at hns
  case extend =>
    rw [exceptPure_ok] at h
    subst h
    simp [isStoreAction] at hns
  case help =>
    repeat' split at h
    all_goals
      first
        | (rw [exceptThrow_ok] at h; exact h.elim)
        | (rw [exceptPure_ok] at h; subst h; exact ⟨rfl, rfl⟩)
  case version =>
    repeat' split at h
    all_goals
      first
        | (rw [exceptThrow_ok] at h; exact h.elim)
        | (rw [exceptPure_ok] at h; subst h; exact ⟨rfl, rfl⟩)
  all_goals {
    rw [exceptPure_ok] at h
    subst h
    exact ⟨rfl, rfl⟩ }

/-- Scenario-d schema: positionals `a` (implicit), `b` (`"*"`), `c`
(implicit). -/
def c2posA : Argument := { m_flags := ["a"], m_name := "a", m_type := ArgType.Positional }

def c2posB : Argument :=
  { m_flags := ["b"], m_name := "b", m_type := ArgType.Positional, m_nargs := "*" }

def c2posC : Argument := { m_flags := ["c"], m_name := "c", m_type := ArgType.Positional }

theorem c2pos_built :
    mkArgument "-" ["a"] = Except.ok c2posA
    ∧ (do let b ← mkArgument "-" ["b"]; b.nargsS "*") = Except.ok c2posB
    ∧ mkArgument "-" ["c"] = Except.ok c2posC := by decide

def c2p : ArgumentParser := { m_arguments := [c2posA, c2posB, c2posC] }

def c2toks : List String := ["1", "2", "3", "4"]

/-- The parse outcome of the witness scenario (namespace, groups, consumed). -/
def c2out : Namespace × List (List String) × List Nat :=
  (parseAux c2p fsNone c2toks).toOption.getD (⟨[], ""⟩, [], [])

/-- Witness for C2 at the scenario-d schema and tokens. -/
theorem claim_C2_positional_partition_witness :
    c2out.2.2.sum = (c2out.2.1.map List.length).sum :=
  claim_C2_positional_partition c2p fsNone c2toks c2out.1 c2out.2.1 c2out.2.2
    (by decide) (by decide)

/-! ### Value provenance through the result map (claim C1) -/

theorem resLookup_cons (e : String × ArgumentValue) (rest : Res) (k : String) :
    resLookup (e :: rest) k = if e.1 = k then some e.2 else resLookup rest k := by
  by_cases h : e.1 = k <;> simp [resLookup, List.find?_cons, h]

theorem resLookup_resUpdate (res : Res) (kk : String) (f : ArgumentValue → ArgumentValue)
    (k : String) :
    resLookup (resUpdate res kk f) k =
      if k = kk then (resLookup res k).map f else resLookup res k := by
  induction res with
  | nil => simp [resLookup, resUpdate]
  | cons e rest ih =>
    have hupd : resUpdate (e :: rest) kk f =
        (if e.1 = kk then (e.1, f e.2) else e) :: resUpdate rest kk f := rfl
    rw [hupd]
    by_cases hkk : e.1 = kk
    · rw [if_pos hkk, resLookup_cons, resLookup_cons]
      by_cases hek : e.1 = k
      · simp [hek, hek ▸ hkk]
      · simp only [hek, if_neg, not_false_iff, ih]
    · rw [if_neg hkk, resLookup_cons, resLookup_cons]
      by_cases hek : e.1 = k
      · have : ¬ k = kk := fun h => hkk (hek.trans h)
        simp [hek, this]
      · simp only [hek, if_neg, not_false_iff, ih]

theorem mem_valuesAt_resUpdate {g : ArgumentValue → ArgumentValue} {P : String → Prop}
    (hg : ∀ av w, w ∈ (g av).2 → w ∈ av.2 ∨ P w)
    {res : Res} {kk k v : String}
    (h : v ∈ valuesAt (resUpdate res kk g) k) :
    v ∈ valuesAt res k ∨ (k = kk ∧ P v) := by
  rw [valuesAt, resLookup_resUpdate] at h
  by_cases hkk : k = kk
  · rw [if_pos hkk] at h
    cases hl : resLookup res k with
    | none => rw [hl] at h; simp at h
    | some av =>
      rw [hl] at h
      simp only [Option.map_some', Option.getD_some] at h
      rcases hg av v h with h1 | h2
      · left; rw [valuesAt, hl]; simpa using h1
      · right; exact ⟨hkk, h2⟩
  · rw [if_neg hkk] at h
    left; rw [valuesAt]; exact h

theorem mem_valuesAt_updateFold {g : ArgumentValue → ArgumentValue} {P : String → Prop}
    (hg : ∀ av w, w ∈ (g av).2 → w ∈ av.2 ∨ P w) :
    ∀ (flags : List String) (res : Res) (k v : String),
      v ∈ valuesAt (flags.foldl (fun r fl => resUpdate r fl g) res) k →
      v ∈ valuesAt res k ∨ (k ∈ flags ∧ P v)
  | [], _, _, _, h => Or.inl h
  | fl :: fls, res, k, v, h => by
    rcases mem_valuesAt_updateFold hg fls (resUpdate res fl g) k v h with h1 | h2
    · rcases mem_valuesAt_resUpdate hg h1 with h3 | h4
      · exact Or.inl h3
      · exact Or.inr ⟨h4.1 ▸ List.mem_cons_self fl fls, h4.2⟩
    · exact Or.inr ⟨List.mem_cons_of_mem fl h2.1, h2.2⟩

theorem mem_valuesAt_resInsert {res : Res} {kn : String} {av : ArgumentValue}
    {k v : String} (h : v ∈ valuesAt (resInsert res kn av) k) :
    v ∈ valuesAt res k ∨ (k = kn ∧ v ∈ av.2) := by
  induction res with
  | nil =>
    rw [valuesAt, resInsert, resLookup_cons] at h
    by_cases hk : kn = k
    · simp only [hk, if_pos] at h
      simp only [Option.map_some', Option.getD_some] at h
      exact Or.inr ⟨hk.symm, h⟩
    · simp only [hk, if_neg, not_false_iff] at h
      simp [resLookup] at h
  | cons e rest ih =>
    rw [resInsert] at h
    by_cases hlt : strLtData kn.data e.1.data
    · rw [if_pos hlt, valuesAt, resLookup_cons] at h
      by_cases hk : kn = k
      · simp only [hk, if_pos, Option.map_some', Option.getD_some] at h
        exact Or.inr ⟨hk.symm, h⟩
      · simp only [hk, if_neg, not_false_iff] at h
        exact Or.inl h
    · rw [if_neg hlt, valuesAt, resLookup_cons] at h
      by_cases hek : e.1 = k
      · rw [if_pos hek] at h
        left
        rw [valuesAt, resLookup_cons, if_pos hek]
        exact h
      · rw [if_neg hek] at h
        rcases ih h with h1 | h2
        · left
          rw [valuesAt, resLookup_cons, if_neg hek]
          exact h1
        · exact Or.inr h2

theorem resContains_resInsert (res : Res) (kn : String) (av : ArgumentValue) (k : String) :
    resContains (resInsert res kn av) k = (k = kn || resContains res k) := by
  induction res with
  | nil =>
    by_cases hk : k = kn
    · subst hk
      simp [resContains, resInsert, resLookup_cons]
    · have hk2 : ¬ kn = k := fun h => hk h.symm
      simp [resContains, resInsert, resLookup_cons, hk, hk2, resLookup]
  | cons e rest ih =>
    rw [resInsert]
    by_cases hlt : strLtData kn.data e.1.data
    · rw [if_pos hlt]
      by_cases hk : k = kn
      · subst hk
        simp [resContains, resLookup_cons]
      · have hk2 : ¬ kn = k := fun h => hk h.symm
        simp [resContains, resLookup_cons, hk, hk2]
    · rw [if_neg hlt]
      by_cases hek : e.1 = k
      · simp [resContains, resLookup_cons, hek]
      · simp only [resContains, resLookup_cons, hek, if_neg, not_false_iff] at ih ⊢
        exact ih

/-- Provenance of one stored value: a choices-validated store under a key of
the storing argument, a write by a non-store-action argument under one of its
keys (const or count materialization), or some declared argument's default
value. -/
def ValueOrigin (p : ArgumentParser) (k v : String) : Prop :=
  (∃ B, B ∈ allParseArgs p ∧ k ∈ getArgumentFlags B ∧
    (B.m_choices ≠ [] → B.m_choices.contains (removeQuotes v) = true)) ∨
  (∃ B, B ∈ allParseArgs p ∧ k ∈ getArgumentFlags B ∧ isStoreAction B.m_action = false) ∨
  (∃ B, B ∈ allParseArgs p ∧ v = defaultArgValue p B)

/-- The second map is the first plus provenanced values only. -/
def Carries (p : ArgumentParser) (r rr : Res) : Prop :=
  ∀ k v, v ∈ valuesAt rr k → v ∈ valuesAt r k ∨ ValueOrigin p k v

theorem carries_refl (p : ArgumentParser) (r : Res) : Carries p r r :=
  fun _ _ h => Or.inl h

theorem carries_trans {p : ArgumentParser} {r1 r2 r3 : Res}
    (h12 : Carries p r1 r2) (h23 : Carries p r2 r3) : Carries p r1 r3 := by
  intro k v h
  rcases h23 k v h with h1 | h2
  · exact h12 k v h1
  · exact Or.inr h2

theorem foldlM_values {α : Type} {f : Res → α → Except Err Res} {C : String → String → Prop} :
    ∀ (l : List α),
      (∀ r a rr, a ∈ l → f r a = Except.ok rr →
        ∀ k v, v ∈ valuesAt rr k → v ∈ valuesAt r k ∨ C k v) →
      ∀ (r rr : Res), l.foldlM f r = Except.ok rr →
        ∀ k v, v ∈ valuesAt rr k → v ∈ valuesAt r k ∨ C k v
  | [], _, r, rr, h => by
    simp only [List.foldlM_nil, exceptPure_ok] at h
    subst h
    exact fun _ _ hv => Or.inl hv
  | a :: l, hf, r, rr, h => by
    simp only [List.foldlM_cons, exceptBind_ok] at h
    obtain ⟨r1, h1, h2⟩ := h
    intro k v hv
    rcases foldlM_values l
        (fun r a rr ha => hf r a rr (List.mem_cons_of_mem _ ha)) r1 rr h2 k v hv with
      hh | hh
    · exact hf r a r1 (List.mem_cons_self a l) h1 k v hh
    · exact Or.inr hh

theorem carries_foldlM {p : ArgumentParser} {α : Type} {f : Res → α → Except Err Res}
    (l : List α) (hf : ∀ r a rr, a ∈ l → f r a = Except.ok rr → Carries p r rr)
    {r rr : Res} (h : l.foldlM f r = Except.ok rr) : Carries p r rr :=
  foldlM_values l hf r rr h

theorem validateArgumentValue_choices {p : ArgumentParser} {B : Argument} {w : String}
    {u : Unit} (h : validateArgumentValue p B w = Except.ok u)
    (hch : B.m_choices ≠ []) : B.m_choices.contains (removeQuotes w) = true := by
  unfold validateArgumentValue at h
  rw [if_pos hch] at h
  dsimp only at h
  by_cases hc : B.m_choices.contains (removeQuotes w) = true
  · exact hc
  · exfalso
    rw [if_pos (by simpa using hc)] at h
    exact Except.noConfusion h

theorem mem_valuesAt_pushValueAll {flags : List String} {w : String} {r : Res}
    {k v : String} (h : v ∈ valuesAt (pushValueAll flags w r) k) :
    v ∈ valuesAt r k ∨ (k ∈ flags ∧ v = w) := by
  rw [pushValueAll] at h
  refine @mem_valuesAt_updateFold (fun av => (av.1, av.2 ++ [w])) (fun u => u = w)
    ?_ flags r k v h
  intro av u hu
  rcases List.mem_append.mp hu with h1 | h2
  · exact Or.inl h1
  · exact Or.inr (List.mem_singleton.mp h2)

theorem carries_storeValue {p : ArgumentParser} {B : Argument} {w : String} {r rr : Res}
    (hB : B ∈ allParseArgs p)
    (h : storeValue p B w r = Except.ok rr) : Carries p r rr := by
  unfold storeValue at h
  simp only [exceptBind_ok, exceptPure_ok] at h
  obtain ⟨u, hu, hp⟩ := h
  subst hp
  intro k v hv
  rcases mem_valuesAt_pushValueAll hv with h1 | h2
  · exact Or.inl h1
  · refine Or.inr (Or.inl ⟨B, hB, h2.1, fun hch => ?_⟩)
    rw [h2.2]
    exact validateArgumentValue_choices hu hch

theorem carries_storeValues {p : ArgumentParser} {B : Argument} {ws : List String}
    {r rr : Res} (hB : B ∈ allParseArgs p)
    (h : storeValues p B ws r = Except.ok rr) : Carries p r rr := by
  unfold storeValues at h
  exact carries_foldlM ws (fun r a rr _ ha => carries_storeValue hB ha) h

theorem carries_storeDefaultValue {p : ArgumentParser} {B : Argument}
    (hB : B ∈ allParseArgs p) (r : Res) : Carries p r (storeDefaultValue p B r) := by
  intro k v hv
  unfold storeDefaultValue at hv
  by_cases ha : B.m_action = Action.store
  · rw [if_pos ha] at hv
    have hg : ∀ (av : ArgumentValue) (w : String),
        w ∈ ((fun av => if av.2 = ([] : List String) then (av.1, [defaultArgValue p B])
          else av) av).2 →
        w ∈ av.2 ∨ w = defaultArgValue p B := by
      intro av w hw
      dsimp only at hw
      split at hw
      · exact Or.inr (List.mem_singleton.mp hw)
      · exact Or.inl hw
    rcases mem_valuesAt_updateFold hg (getArgumentFlags B) r k v hv with h1 | h2
    · exact Or.inl h1
    · exact Or.inr (Or.inr (Or.inr ⟨B, hB, h2.2⟩))
  · rw [if_neg ha] at hv
    exact Or.inl hv

theorem carries_storeConstValue {p : ArgumentParser} {B : Argument}
    (hB : B ∈ allParseArgs p) (hns : isStoreAction B.m_action = false) (r : Res) :
    Carries p r (storeConstValue B r) := by
  intro k v hv
  unfold storeConstValue at hv
  have hg : ∀ (av : ArgumentValue) (w : String),
      w ∈ ((fun av => if av.2 = ([] : List String) then (av.1, [B.m_const]) else av) av).2 →
      w ∈ av.2 ∨ True := fun _ _ _ => Or.inr trivial
  rcases mem_valuesAt_updateFold hg (getArgumentFlags B) r k v hv with h1 | h2
  · exact Or.inl h1
  · exact Or.inr (Or.inr (Or.inl ⟨B, hB, h2.1, hns⟩))

theorem carries_storeCountValue {p : ArgumentParser} {B : Argument}
    (hB : B ∈ allParseArgs p) (hns : isStoreAction B.m_action = false) (r : Res) :
    Carries p r (storeCountValue B r) := by
  intro k v hv
  unfold storeCountValue at hv
  rcases mem_valuesAt_pushValueAll hv with h1 | h2
  · exact Or.inl h1
  · exact Or.inr (Or.inr (Or.inl ⟨B, hB, h2.1, hns⟩))

theorem carries_clearValues (p : ArgumentParser) (B : Argument) (r : Res) :
    Carries p r (clearValues B r) := by
  intro k v hv
  unfold clearValues at hv
  have hg : ∀ (av : ArgumentValue) (w : String),
      w ∈ ((fun av => (av.1, ([] : List String))) av).2 → w ∈ av.2 ∨ False := by
    intro av w hw
    simp at hw
  rcases mem_valuesAt_updateFold hg (getArgumentFlags B) r k v hv with h1 | h2
  · exact Or.inl h1
  · exact absurd h2.2 id

theorem carries_appendConstValue {p : ArgumentParser} {B : Argument} {r rr : Res}
    (hB : B ∈ allParseArgs p) (hns : isStoreAction B.m_action = false)
    (h : appendConstValue p B r = Except.ok rr) : Carries p r rr := by
  unfold appendConstValue at h
  refine carries_foldlM (getArgumentFlags B) ?_ h
  intro r1 fl r2 hfl hstep
  split at hstep
  · simp only [exceptBind_ok, exceptThrow_ok, false_and, exists_false] at hstep
  · simp only [exceptBind_ok, exceptPure_ok] at hstep
    obtain ⟨u, hu, hp⟩ := hstep
    subst hp
    intro k v hv
    have hg : ∀ (av : ArgumentValue) (w : String),
        w ∈ ((fun av => (av.1, av.2 ++ [B.m_const])) av).2 → w ∈ av.2 ∨ True :=
      fun _ _ _ => Or.inr trivial
    rcases mem_valuesAt_resUpdate hg hv with h1 | h2
    · exact Or.inl h1
    · exact Or.inr (Or.inr (Or.inl ⟨B, hB, h2.1 ▸ hfl, hns⟩))

theorem carries_isPositionalArgStored {p : ArgumentParser} {B : Argument} {r : Res}
    {b : Bool} {rr : Res} (hB : B ∈ allParseArgs p)
    (h : isPositionalArgStored p B r = Except.ok (b, rr)) : Carries p r rr := by
  unfold isPositionalArgStored at h
  split at h
  · next h1 =>
    rw [exceptPure_ok] at h
    cases h
    refine carries_storeConstValue hB ?_ r
    rcases h1 with h1 | h1 | h1 <;> simp [isStoreAction, h1]
  · split at h
    · next h2 =>
      simp only [exceptBind_ok, exceptPure_ok] at h
      obtain ⟨r1, ha, hp⟩ := h
      cases hp
      exact carries_appendConstValue hB (by simp [isStoreAction, h2]) ha
    · split at h
      · next h3 =>
        rw [exceptPure_ok] at h
        cases h
        exact carries_storeCountValue hB (by simp [isStoreAction, h3]) r
      · rw [exceptPure_ok] at h
        cases h
        exact carries_refl p r

theorem getOptionalArgByFlag_mem {opts : List Argument} {key : String} {a : Argument}
    (h : getOptionalArgByFlag opts key = some a) : a ∈ opts :=
  List.mem_of_find?_eq_some h

theorem getOptionalArgByDest_mem {opts : List Argument} {key : String} {a : Argument}
    (h : getOptionalArgByDest opts key = some a) : a ∈ opts :=
  List.mem_of_find?_eq_some h

theorem mem_allParseArgs_of_optional {p : ArgumentParser} {a : Argument}
    (h : a ∈ optionalArguments p) : a ∈ allParseArgs p := by
  rw [allParseArgs]
  exact List.mem_append_right _ h

theorem mem_allParseArgs_of_positional {p : ArgumentParser} {a : Argument}
    (h : a ∈ positionalArguments p) : a ∈ allParseArgs p := by
  rw [allParseArgs]
  exact List.mem_append_left _ h

theorem carries_dispatchOpt {p : ArgumentParser} {haveNeg : Bool} {temp : Argument}
    {argN : String} {splitted rest : List String} {r rr : Res} {n : Nat}
    (hB : temp ∈ allParseArgs p)
    (h : dispatchOpt p haveNeg temp argN splitted rest r = Except.ok (rr, n)) :
    Carries p r rr := by
  cases ha : temp.m_action with
  | store =>
    simp only [dispatchOpt, ha] at h
    split at h
    · split at h
      · simp only [exceptBind_ok, exceptThrow_ok, false_and, and_false, exists_false] at h
      · simp only [pure_bind] at h
        split at h
        · simp only [exceptBind_ok, exceptThrow_ok, false_and, and_false, exists_false] at h
        · simp only [pure_bind, exceptBind_ok, exceptPure_ok, Prod.mk.injEq] at h
          obtain ⟨r1, hsv, he, -⟩ := h
          subst he
          exact carries_trans (carries_clearValues p temp r) (carries_storeValue hB hsv)
    · simp only [exceptBind_ok, exceptPure_ok, Prod.mk.injEq] at h
      obtain ⟨⟨ws, k2⟩, hco, r1, hsv, he, -⟩ := h
      subst he
      exact carries_trans (carries_clearValues p temp r) (carries_storeValues hB hsv)
  | append =>
    simp only [dispatchOpt, ha] at h
    split at h
    · split at h
      · simp only [exceptBind_ok, exceptThrow_ok, false_and, and_false, exists_false] at h
      · simp only [pure_bind] at h
        split at h
        · simp only [exceptBind_ok, exceptThrow_ok, false_and, and_false, exists_false] at h
        · simp only [pure_bind, exceptBind_ok, exceptPure_ok, Prod.mk.injEq] at h
          obtain ⟨r1, hsv, he, -⟩ := h
          subst he
          exact carries_storeValue hB hsv
    · simp only [exceptBind_ok, exceptPure_ok, Prod.mk.injEq] at h
      obtain ⟨⟨ws, k2⟩, hco, r1, hsv, he, -⟩ := h
      subst he
      exact carries_storeValues hB hsv
  | extend =>
    simp only [dispatchOpt, ha] at h
    split at h
    · split at h
      · simp only [exceptBind_ok, exceptThrow_ok, false_and, and_false, exists_false] at h
      · simp only [pure_bind] at h
        split at h
        · simp only [exceptBind_ok, exceptThrow_ok, false_and, and_false, exists_false] at h
        · simp only [pure_bind, exceptBind_ok, exceptPure_ok, Prod.mk.injEq] at h
          obtain ⟨r1, hsv, he, -⟩ := h
          subst he
          exact carries_storeValue hB hsv
    · simp only [exceptBind_ok, exceptPure_ok, Prod.mk.injEq] at h
      obtain ⟨⟨ws, k2⟩, hco, r1, hsv, he, -⟩ := h
      subst he
      exact carries_storeValues hB hsv
  | store_const =>
    simp only [dispatchOpt, ha] at h
    split at h
    · rw [exceptPure_ok] at h
      cases h
      exact carries_storeConstValue hB (by simp [isStoreAction, ha]) r
    · simp only [exceptThrow_ok] at h
  | store_true =>
    simp only [dispatchOpt, ha] at h
    split at h
    · rw [exceptPure_ok] at h
      cases h
      exact carries_storeConstValue hB (by simp [isStoreAction, ha]) r
    · simp only [exceptThrow_ok] at h
  | store_false =>
    simp only [dispatchOpt, ha] at h
    split at h
    · rw [exceptPure_ok] at h
      cases h
      exact carries_storeConstValue hB (by simp [isStoreAction, ha]) r
    · simp only [exceptThrow_ok] at h
  | append_const =>
    simp only [dispatchOpt, ha] at h
    split at h
    · simp only [exceptBind_ok, exceptPure_ok, Prod.mk.injEq] at h
      obtain ⟨r1, hap, he, -⟩ := h
      subst he
      exact carries_appendConstValue hB (by simp [isStoreAction, ha]) hap
    · simp only [exceptThrow_ok] at h
  | help =>
    simp only [dispatchOpt, ha] at h
    split at h <;> simp only [exceptThrow_ok] at h
  | version =>
    simp only [dispatchOpt, ha] at h
    split at h
    · split at h <;> simp only [exceptThrow_ok] at h
    · simp only [exceptThrow_ok] at h
  | count =>
    simp only [dispatchOpt, ha] at h
    split at h
    · rw [exceptPure_ok] at h
      cases h
      exact carries_storeCountValue hB (by simp [isStoreAction, ha]) r
    · simp only [exceptThrow_ok] at h

theorem carries_mainLoop {p : ArgumentParser} {optionals : List Argument} {haveNeg : Bool}
    (hopt : ∀ a ∈ optionals, a ∈ allParseArgs p) :
    ∀ (fuel : Nat) (ts : List String) (st st2 : MainSt),
      mainLoop p optionals haveNeg fuel ts st = Except.ok st2 →
      Carries p st.result st2.result := by
  intro fuel
  induction fuel with
  | zero =>
    intro ts st st2 h
    cases ts with
    | nil =>
      simp only [mainLoop, exceptPure_ok] at h
      subst h
      exact carries_refl p st.result
    | cons t ts =>
      simp only [mainLoop, exceptThrow_ok] at h
  | succ m ih =>
    intro ts st st2 h
    cases ts with
    | nil =>
      simp only [mainLoop, exceptPure_ok] at h
      subst h
      exact carries_refl p st.result
    | cons tok rest =>
      rw [mainLoop] at h
      split at h
      · simp only [exceptThrow_ok] at h
      · dsimp only at h
        split at h
        · next temp heq =>
          simp only [exceptBind_ok] at h
          obtain ⟨⟨r1, k⟩, hdis, hrec⟩ := h
          have htemp : temp ∈ allParseArgs p := hopt temp (getOptionalArgByFlag_mem heq)
          exact carries_trans (carries_dispatchOpt htemp hdis) (ih _ _ _ hrec)
        · split at h
          · have hx := ih _ _ _ h
            exact hx
          · have hx := ih _ _ _ h
            exact hx

theorem carries_applyExact (p : ArgumentParser) :
    ∀ (w : List Argument) (args : List String) (res res2 : Res) (cs : List Nat)
      (rem : List String),
      (∀ a ∈ w, a ∈ allParseArgs p) →
      applyExact p w args res = .ok (res2, cs, rem) →
      Carries p res res2 := by
  intro w
  induction w with
  | nil =>
    intro args res res2 cs rem _ h
    simp only [applyExact, exceptPure_ok, Prod.mk.injEq] at h
    obtain ⟨h1, -, -⟩ := h
    subst h1
    exact carries_refl p res
  | cons a w ihw =>
    intro args res res2 cs rem hmem h
    have hma : a ∈ allParseArgs p := hmem a (List.mem_cons_self a w)
    have hmw : ∀ b ∈ w, b ∈ allParseArgs p := fun b hb => hmem b (List.mem_cons_of_mem a hb)
    simp only [applyExact, exceptBind_ok] at h
    obtain ⟨⟨stored, res1⟩, hst, h⟩ := h
    have hc0 : Carries p res res1 := carries_isPositionalArgStored hma hst
    cases stored
    · simp only [Bool.false_eq_true, if_false] at h
      by_cases h1 : a.m_nargs = "" ∨ a.m_nargs = "+"
      · rw [if_pos h1] at h
        simp only [exceptBind_ok] at h
        obtain ⟨r2, hsv, h⟩ := h
        obtain ⟨⟨r3, cs3, rem3⟩, hrec, hp⟩ := h
        simp only [exceptPure_ok, Prod.mk.injEq] at hp
        obtain ⟨he, -, -⟩ := hp
        subst he
        exact carries_trans hc0
          (carries_trans (carries_storeValues hma hsv) (ihw _ _ _ _ _ hmw hrec))
      · rw [if_neg h1] at h
        by_cases h2 : a.m_nargs = "?" ∨ a.m_nargs = "*"
        · rw [if_pos h2] at h
          simp only [exceptBind_ok] at h
          obtain ⟨⟨r3, cs3, rem3⟩, hrec, hp⟩ := h
          simp only [exceptPure_ok, Prod.mk.injEq] at hp
          obtain ⟨he, -, -⟩ := hp
          subst he
          exact carries_trans hc0
            (carries_trans (carries_storeDefaultValue hma res1) (ihw _ _ _ _ _ hmw hrec))
        · rw [if_neg h2] at h
          simp only [exceptBind_ok] at h
          obtain ⟨r2, hsv, h⟩ := h
          obtain ⟨⟨r3, cs3, rem3⟩, hrec, hp⟩ := h
          simp only [exceptPure_ok, Prod.mk.injEq] at hp
          obtain ⟨he, -, -⟩ := hp
          subst he
          exact carries_trans hc0
            (carries_trans (carries_storeValues hma hsv) (ihw _ _ _ _ _ hmw hrec))
    · simp only [if_pos] at h
      simp only [exceptBind_ok] at h
      obtain ⟨⟨r3, cs3, rem3⟩, hrec, hp⟩ := h
      simp only [exceptPure_ok, Prod.mk.injEq] at hp
      obtain ⟨he, -, -⟩ := hp
      subst he
      exact carries_trans hc0 (ihw _ _ _ _ _ hmw hrec)

theorem carries_applyGreedy (p : ArgumentParser) :
    ∀ (w : List Argument) (args : List String) (over : Nat) (res res2 : Res)
      (cs : List Nat) (rem : List String),
      (∀ a ∈ w, a ∈ allParseArgs p) →
      applyGreedy p w args over res = .ok (res2, cs, rem) →
      Carries p res res2 := by
  intro w
  induction w with
  | nil =>
    intro args over res res2 cs rem _ h
    simp only [applyGreedy, exceptPure_ok, Prod.mk.injEq] at h
    obtain ⟨h1, -, -⟩ := h
    subst h1
    exact carries_refl p res
  | cons a w ihw =>
    intro args over res res2 cs rem hmem h
    have hma : a ∈ allParseArgs p := hmem a (List.mem_cons_self a w)
    have hmw : ∀ b ∈ w, b ∈ allParseArgs p := fun b hb => hmem b (List.mem_cons_of_mem a hb)
    simp only [applyGreedy, exceptBind_ok] at h
    obtain ⟨⟨stored, res1⟩, hst, h⟩ := h
    have hc0 : Carries p res res1 := carries_isPositionalArgStored hma hst
    cases stored
    · simp only [Bool.false_eq_true, if_false] at h
      by_cases h1 : a.m_nargs = ""
      · rw [if_pos h1] at h
        simp only [exceptBind_ok] at h
        obtain ⟨r2, hsv, h⟩ := h
        obtain ⟨⟨r3, cs3, rem3⟩, hrec, hp⟩ := h
        simp only [exceptPure_ok, Prod.mk.injEq] at hp
        obtain ⟨he, -, -⟩ := hp
        subst he
        exact carries_trans hc0
          (carries_trans (carries_storeValues hma hsv) (ihw _ _ _ _ _ _ hmw hrec))
      · rw [if_neg h1] at h
        by_cases h2 : a.m_nargs = "+"
        · rw [if_pos h2] at h
          simp only [exceptBind_ok] at h
          obtain ⟨r2, hsv, h⟩ := h
          obtain ⟨⟨r3, cs3, rem3⟩, hrec, hp⟩ := h
          simp only [exceptPure_ok, Prod.mk.injEq] at hp
          obtain ⟨he, -, -⟩ := hp
          subst he
          exact carries_trans hc0
            (carries_trans (carries_storeValues hma hsv) (ihw _ _ _ _ _ _ hmw hrec))
        · rw [if_neg h2] at h
          by_cases h3 : a.m_nargs = "?"
          · rw [if_pos h3] at h
            simp only [exceptBind_ok] at h
            obtain ⟨⟨r3, cs3, rem3⟩, hrec, hp⟩ := h
            simp only [exceptPure_ok, Prod.mk.injEq] at hp
            obtain ⟨he, -, -⟩ := hp
            subst he
            exact carries_trans hc0
              (carries_trans (carries_storeDefaultValue hma res1) (ihw _ _ _ _ _ _ hmw hrec))
          · rw [if_neg h3] at h
            by_cases h4 : a.m_nargs = "*"
            · rw [if_pos h4] at h
              by_cases h5 : over > 0
              · rw [if_pos h5] at h
                simp only [exceptBind_ok] at h
                obtain ⟨r2, hsv, h⟩ := h
                obtain ⟨⟨r3, cs3, rem3⟩, hrec, hp⟩ := h
                simp only [exceptPure_ok, Prod.mk.injEq] at hp
                obtain ⟨he, -, -⟩ := hp
                subst he
                exact carries_trans hc0
                  (carries_trans (carries_storeValues hma hsv) (ihw _ _ _ _ _ _ hmw hrec))
              · rw [if_neg h5] at h
                simp only [exceptBind_ok] at h
                obtain ⟨⟨r3, cs3, rem3⟩, hrec, hp⟩ := h
                simp only [exceptPure_ok, Prod.mk.injEq] at hp
                obtain ⟨he, -, -⟩ := hp
                subst he
                exact carries_trans hc0
                  (carries_trans (carries_storeDefaultValue hma res1)
                    (ihw _ _ _ _ _ _ hmw hrec))
            · rw [if_neg h4] at h
              simp only [exceptBind_ok] at h
              obtain ⟨r2, hsv, h⟩ := h
              obtain ⟨⟨r3, cs3, rem3⟩, hrec, hp⟩ := h
              simp only [exceptPure_ok, Prod.mk.injEq] at hp
              obtain ⟨he, -, -⟩ := hp
              subst he
              exact carries_trans hc0
                (carries_trans (carries_storeValues hma hsv) (ihw _ _ _ _ _ _ hmw hrec))
    · simp only [if_pos] at h
      simp only [exceptBind_ok] at h
      obtain ⟨⟨r3, cs3, rem3⟩, hrec, hp⟩ := h
      simp only [exceptPure_ok, Prod.mk.injEq] at hp
      obtain ⟨he, -, -⟩ := hp
      subst he
      exact carries_trans hc0 (ihw _ _ _ _ _ _ hmw hrec)

theorem carries_applyOne (p : ArgumentParser) (os : Nat) :
    ∀ (w : List Argument) (args : List String) (over : Nat) (res res2 : Res)
      (cs : List Nat) (rem : List String),
      (∀ a ∈ w, a ∈ allParseArgs p) →
      applyOne p os w args over res = .ok (res2, cs, rem) →
      Carries p res res2 := by
  intro w
  induction w with
  | nil =>
    intro args over res res2 cs rem _ h
    simp only [applyOne, exceptPure_ok, Prod.mk.injEq] at h
    obtain ⟨h1, -, -⟩ := h
    subst h1
    exact carries_refl p res
  | cons a w ihw =>
    intro args over res res2 cs rem hmem h
    have hma : a ∈ allParseArgs p := hmem a (List.mem_cons_self a w)
    have hmw : ∀ b ∈ w, b ∈ allParseArgs p := fun b hb => hmem b (List.mem_cons_of_mem a hb)
    simp only [applyOne, exceptBind_ok] at h
    obtain ⟨⟨stored, res1⟩, hst, h⟩ := h
    have hc0 : Carries p res res1 := carries_isPositionalArgStored hma hst
    cases stored
    · simp only [Bool.false_eq_true, if_false] at h
      by_cases h1 : a.m_nargs = ""
      · rw [if_pos h1] at h
        simp only [exceptBind_ok] at h
        obtain ⟨r2, hsv, h⟩ := h
        obtain ⟨⟨r3, cs3, rem3⟩, hrec, hp⟩ := h
        simp only [exceptPure_ok, Prod.mk.injEq] at hp
        obtain ⟨he, -, -⟩ := hp
        subst he
        exact carries_trans hc0
          (carries_trans (carries_storeValues hma hsv) (ihw _ _ _ _ _ _ hmw hrec))
      · rw [if_neg h1] at h
        by_cases h2 : a.m_nargs = "?"
        · rw [if_pos h2] at h
          by_cases h3 : over < os
          · rw [if_pos h3] at h
            simp only [exceptBind_ok] at h
            obtain ⟨r2, hsv, h⟩ := h
            obtain ⟨⟨r3, cs3, rem3⟩, hrec, hp⟩ := h
            simp only [exceptPure_ok, Prod.mk.injEq] at hp
            obtain ⟨he, -, -⟩ := hp
            subst he
            exact carries_trans hc0
              (carries_trans (carries_storeValues hma hsv) (ihw _ _ _ _ _ _ hmw hrec))
          · rw [if_neg h3] at h
            simp only [exceptBind_ok] at h
            obtain ⟨⟨r3, cs3, rem3⟩, hrec, hp⟩ := h
            simp only [exceptPure_ok, Prod.mk.injEq] at hp
            obtain ⟨he, -, -⟩ := hp
            subst he
            exact carries_trans hc0
              (carries_trans (carries_storeDefaultValue hma res1) (ihw _ _ _ _ _ _ hmw hrec))
        · rw [if_neg h2] at h
          simp only [exceptBind_ok] at h
          obtain ⟨r2, hsv, h⟩ := h
          obtain ⟨⟨r3, cs3, rem3⟩, hrec, hp⟩ := h
          simp only [exceptPure_ok, Prod.mk.injEq] at hp
          obtain ⟨he, -, -⟩ := hp
          subst he
          exact carries_trans hc0
            (carries_trans (carries_storeValues hma hsv) (ihw _ _ _ _ _ _ hmw hrec))
    · simp only [if_pos] at h
      simp only [exceptBind_ok] at h
      obtain ⟨⟨r3, cs3, rem3⟩, hrec, hp⟩ := h
      simp only [exceptPure_ok, Prod.mk.injEq] at hp
      obtain ⟨he, -, -⟩ := hp
      subst he
      exact carries_trans hc0 (ihw _ _ _ _ _ _ hmw hrec)

theorem carries_applyMins (p : ArgumentParser) :
    ∀ (w : List Argument) (args : List String) (res res2 : Res) (cs : List Nat)
      (rem : List String),
      (∀ a ∈ w, a ∈ allParseArgs p) →
      applyMins p w args res = .ok (res2, cs, rem) →
      Carries p res res2 := by
  intro w
  induction w with
  | nil =>
    intro args res res2 cs rem _ h
    simp only [applyMins, exceptPure_ok, Prod.mk.injEq] at h
    obtain ⟨h1, -, -⟩ := h
    subst h1
    exact carries_refl p res
  | cons a w ihw =>
    intro args res res2 cs rem hmem h
    have hma : a ∈ allParseArgs p := hmem a (List.mem_cons_self a w)
    have hmw : ∀ b ∈ w, b ∈ allParseArgs p := fun b hb => hmem b (List.mem_cons_of_mem a hb)
    simp only [applyMins, exceptBind_ok] at h
    obtain ⟨⟨stored, res1⟩, hst, h⟩ := h
    have hc0 : Carries p res res1 := carries_isPositionalArgStored hma hst
    cases stored
    · simp only [Bool.false_eq_true, if_false] at h
      by_cases h1 : a.m_nargs = ""
      · rw [if_pos h1] at h
        simp only [exceptBind_ok] at h
        obtain ⟨r2, hsv, h⟩ := h
        obtain ⟨⟨r3, cs3, rem3⟩, hrec, hp⟩ := h
        simp only [exceptPure_ok, Prod.mk.injEq] at hp
        obtain ⟨he, -, -⟩ := hp
        subst he
        exact carries_trans hc0
          (carries_trans (carries_storeValues hma hsv) (ihw _ _ _ _ _ hmw hrec))
      · rw [if_neg h1] at h
        simp only [exceptBind_ok] at h
        obtain ⟨r2, hsv, h⟩ := h
        obtain ⟨⟨r3, cs3, rem3⟩, hrec, hp⟩ := h
        simp only [exceptPure_ok, Prod.mk.injEq] at hp
        obtain ⟨he, -, -⟩ := hp
        subst he
        exact carries_trans hc0
          (carries_trans (carries_storeValues hma hsv) (ihw _ _ _ _ _ hmw hrec))
    · simp only [if_pos] at h
      simp only [exceptBind_ok] at h
      obtain ⟨⟨r3, cs3, rem3⟩, hrec, hp⟩ := h
      simp only [exceptPure_ok, Prod.mk.injEq] at hp
      obtain ⟨he, -, -⟩ := hp
      subst he
      exact carries_trans hc0 (ihw _ _ _ _ _ hmw hrec)

theorem carries_matchGroup {p : ArgumentParser} {positional : List Argument}
    {pos : Nat} {args : List String} {r : Res} {pos2 : Nat} {rr : Res}
    {unrec : List String} {cs : List Nat}
    (hmem : ∀ a ∈ positional, a ∈ allParseArgs p)
    (h : matchGroup p positional pos args r = Except.ok (pos2, rr, unrec, cs)) :
    Carries p r rr := by
  by_cases hp : positional.length ≤ pos
  · rw [matchGroup, if_pos hp, exceptPure_ok] at h
    injection h with h1 h
    injection h with h2 h
    subst h2
    exact carries_refl p r
  · rcases hscan : windowScan args.length (positional.drop pos) 0 with ⟨len, ms, os, mo⟩
    rw [matchGroup, if_neg hp] at h
    dsimp only at h
    rw [hscan] at h
    have hwin : ∀ a ∈ (positional.drop pos).take len, a ∈ allParseArgs p :=
      fun a haw => hmem a (List.drop_subset _ _ (List.take_subset _ _ haw))
    by_cases hlen0 : len = 0
    · rw [if_pos hlen0, exceptPure_ok] at h
      injection h with h1 h
      injection h with h2 h
      subst h2
      exact carries_refl p r
    · rw [if_neg hlen0] at h
      by_cases hms : ms = args.length
      · rw [if_pos hms] at h
        simp only [exceptBind_ok] at h
        obtain ⟨⟨r2, cs2, rem2⟩, happ, hpure⟩ := h
        simp only [exceptPure_ok, Prod.mk.injEq] at hpure
        obtain ⟨-, he, -, -⟩ := hpure
        subst he
        exact carries_applyExact p _ _ _ _ _ _ hwin happ
      · rw [if_neg hms] at h
        by_cases hmo : mo = true
        · rw [if_pos hmo] at h
          simp only [exceptBind_ok] at h
          obtain ⟨⟨r2, cs2, rem2⟩, happ, hpure⟩ := h
          simp only [exceptPure_ok, Prod.mk.injEq] at hpure
          obtain ⟨-, he, -, -⟩ := hpure
          subst he
          exact carries_applyGreedy p _ _ _ _ _ _ _ hwin happ
        · rw [if_neg hmo] at h
          by_cases hone : args.length ≤ ms + os
          · rw [if_pos hone] at h
            simp only [exceptBind_ok] at h
            obtain ⟨⟨r2, cs2, rem2⟩, happ, hpure⟩ := h
            simp only [exceptPure_ok, Prod.mk.injEq] at hpure
            obtain ⟨-, he, -, -⟩ := hpure
            subst he
            exact carries_applyOne p os _ _ _ _ _ _ _ hwin happ
          · rw [if_neg hone] at h
            simp only [exceptBind_ok] at h
            obtain ⟨⟨r2, cs2, rem2⟩, happ, hpure⟩ := h
            simp only [exceptPure_ok, Prod.mk.injEq] at hpure
            obtain ⟨-, he, -, -⟩ := hpure
            subst he
            exact carries_applyMins p _ _ _ _ _ _ hwin happ

theorem carries_matchAll {p : ArgumentParser} {positional : List Argument}
    (hmem : ∀ a ∈ positional, a ∈ allParseArgs p) :
    ∀ (gs : List (List String)) (acc : Nat × Res × List String × List Nat)
      (out : Nat × Res × List String × List Nat),
      matchAll p positional gs acc = Except.ok out →
      Carries p acc.2.1 out.2.1 := by
  intro gs
  induction gs with
  | nil =>
    intro acc out h
    simp only [matchAll, exceptPure_ok] at h
    subst h
    exact carries_refl p acc.2.1
  | cons g gs ih =>
    intro acc out h
    obtain ⟨pos, r0, unrec, consumed⟩ := acc
    simp only [matchAll, exceptBind_ok] at h
    obtain ⟨⟨pos1, r1, nu, cs1⟩, hmg, hrest⟩ := h
    exact carries_trans (carries_matchGroup hmem hmg)
      (ih (pos1, r1, unrec ++ nu, consumed ++ cs1) out hrest)

theorem carries_finalizeFold (p : ArgumentParser) :
    ∀ (slots : List Argument) (acc : String × Res) (out : String × Res),
      (∀ a ∈ slots, a ∈ allParseArgs p) →
      slots.foldlM
        (fun (acc : String × Res) arg => do
          let (argsStr, res) := acc
          if argsStr = "" then do
            let (stored, res) ← isPositionalArgStored p arg res
            if stored then pure (argsStr, res)
            else if arg.m_nargs = "?" ∨ arg.m_nargs = "*" then
              pure (argsStr, storeDefaultValue p arg res)
            else pure (arg.m_flags.headD "", res)
          else pure (argsStr ++ ", " ++ arg.m_flags.headD "", res)) acc = Except.ok out →
      Carries p acc.2 out.2 := by
  intro slots
  induction slots with
  | nil =>
    intro acc out _ h
    simp only [List.foldlM_nil, exceptPure_ok] at h
    subst h
    exact carries_refl p acc.2
  | cons a slots ih =>
    intro acc out hmem h
    have hma : a ∈ allParseArgs p := hmem a (List.mem_cons_self a slots)
    have hmw : ∀ b ∈ slots, b ∈ allParseArgs p :=
      fun b hb => hmem b (List.mem_cons_of_mem a hb)
    simp only [List.foldlM_cons, exceptBind_ok] at h
    obtain ⟨acc1, hstep, hrest⟩ := h
    have hc2 : Carries p acc1.2 out.2 := ih acc1 out hmw hrest
    obtain ⟨s0, r0⟩ := acc
    have hc1 : Carries p r0 acc1.2 := by
      dsimp only at hstep
      split at hstep
      · simp only [exceptBind_ok] at hstep
        obtain ⟨⟨stored, r1⟩, hst, hstep⟩ := hstep
        have hcs : Carries p r0 r1 := carries_isPositionalArgStored hma hst
        split at hstep
        · rw [exceptPure_ok] at hstep
          subst hstep
          exact hcs
        · split at hstep
          · rw [exceptPure_ok] at hstep
            subst hstep
            exact carries_trans hcs (carries_storeDefaultValue hma r1)
          · rw [exceptPure_ok] at hstep
            subst hstep
            exact hcs
      · rw [exceptPure_ok] at hstep
        subst hstep
        exact carries_refl p r0
    exact carries_trans hc1 hc2

theorem carries_finalizeBlock {p : ArgumentParser} {positional : List Argument}
    {requiredArgs : List String} {pos : Nat} {r rr : Res}
    (hmem : ∀ a ∈ positional, a ∈ allParseArgs p)
    (h : finalizeBlock p positional requiredArgs pos r = Except.ok rr) :
    Carries p r rr := by
  unfold finalizeBlock at h
  split at h
  · simp only [exceptBind_ok] at h
    obtain ⟨⟨argsStr2, r1⟩, hfold, h⟩ := h
    dsimp only at h
    split at h
    · simp only [exceptThrow_ok] at h
    · rw [exceptPure_ok] at h
      exact h ▸ carries_finalizeFold p (positional.drop pos) ("", r) (argsStr2, r1)
        (fun a ha => hmem a (List.drop_subset _ _ ha)) hfold
  · rw [exceptPure_ok] at h
    subst h
    exact carries_refl p r

/-- The per-entry transformation of the default-materialization pass. -/
def fillEntry (p : ArgumentParser) (optionals : List Argument)
    (e : String × ArgumentValue) : String × ArgumentValue :=
  if e.2.2 = [] ∧ e.2.1 ≠ Action.count then
    match getOptionalArgByDest optionals e.1 with
    | none => e
    | some argument =>
      let v := defaultArgValue p argument
      if v ≠ "" then (e.1, (e.2.1, [v])) else e
  else e

theorem fillDefaults_eq_map (p : ArgumentParser) (opts : List Argument) (r : Res) :
    fillDefaults p opts r = r.map (fillEntry p opts) := rfl

theorem fillEntry_fst (p : ArgumentParser) (opts : List Argument)
    (e : String × ArgumentValue) : (fillEntry p opts e).1 = e.1 := by
  unfold fillEntry
  split
  · rcases hfind : getOptionalArgByDest opts e.1 with _ | argument
    · rfl
    · dsimp only
      split <;> rfl
  · rfl

theorem mem_fillEntry (p : ArgumentParser) (opts : List Argument)
    (e : String × ArgumentValue) (v : String)
    (hv : v ∈ (fillEntry p opts e).2.2) :
    v ∈ e.2.2 ∨ ∃ B, getOptionalArgByDest opts e.1 = some B ∧ v = defaultArgValue p B := by
  unfold fillEntry at hv
  split at hv
  · cases hfind : getOptionalArgByDest opts e.1 with
    | none =>
      rw [hfind] at hv
      exact Or.inl hv
    | some argument =>
      rw [hfind] at hv
      dsimp only at hv
      split at hv
      · exact Or.inr ⟨argument, rfl, List.mem_singleton.mp hv⟩
      · exact Or.inl hv
  · exact Or.inl hv

theorem carries_fillDefaults (p : ArgumentParser) (opts : List Argument)
    (hmem : ∀ a ∈ opts, a ∈ allParseArgs p) :
    ∀ r : Res, Carries p r (fillDefaults p opts r) := by
  intro r
  induction r with
  | nil =>
    intro k v hv
    simp [fillDefaults, valuesAt, resLookup] at hv
  | cons e rest ih =>
    intro k v hv
    rw [fillDefaults_eq_map, List.map_cons, valuesAt, resLookup_cons] at hv
    by_cases hek : e.1 = k
    · rw [if_pos (by rw [fillEntry_fst]; exact hek)] at hv
      simp only [Option.map_some', Option.getD_some] at hv
      rcases mem_fillEntry p opts e v hv with h1 | ⟨B, hfind, hdef⟩
      · left
        rw [valuesAt, resLookup_cons, if_pos hek]
        simpa using h1
      · exact Or.inr (Or.inr (Or.inr ⟨B, hmem B (getOptionalArgByDest_mem hfind), hdef⟩))
    · rw [if_neg (by rw [fillEntry_fst]; exact hek)] at hv
      have hv2 : v ∈ valuesAt (fillDefaults p opts rest) k := by
        rw [fillDefaults_eq_map, valuesAt]
        exact hv
      rcases ih k v hv2 with h1 | h2
      · left
        rw [valuesAt, resLookup_cons, if_neg hek]
        exact h1
      · exact Or.inr h2

theorem insertFold_keys (v : ArgumentValue) (e : String → Err) :
    ∀ (flags : List String) (r rr : Res),
      (flags.foldlM (fun r fl =>
        if resContains r fl then throw (e fl) else pure (resInsert r fl v)) r
        : Except Err Res) = Except.ok rr →
      (∀ k, resContains rr k = true ↔ k ∈ flags ∨ resContains r k = true)
      ∧ (∀ k ∈ flags, resContains r k = false)
  | [], r, rr, h => by
    simp only [List.foldlM_nil, exceptPure_ok] at h
    subst h
    exact ⟨fun k => by simp, fun k hk => absurd hk (List.not_mem_nil k)⟩
  | fl :: fls, r, rr, h => by
    simp only [List.foldlM_cons, exceptBind_ok] at h
    obtain ⟨r1, hstep, hrest⟩ := h
    split at hstep
    · rw [exceptThrow_ok] at hstep
      exact hstep.elim
    · next hc =>
      rw [exceptPure_ok] at hstep
      subst hstep
      obtain ⟨ih1, ih2⟩ := insertFold_keys v e fls (resInsert r fl v) rr hrest
      constructor
      · intro k
        rw [ih1 k, resContains_resInsert]
        simp only [Bool.or_eq_true, decide_eq_true_eq, List.mem_cons]
        tauto
      · intro k hk
        rcases List.mem_cons.mp hk with hk | hk
        · subst hk
          simpa using hc
        · have h2 := ih2 k hk
          rw [resContains_resInsert] at h2
          cases hrk : resContains r k
          · rfl
          · rw [hrk, Bool.or_true] at h2
            exact Bool.noConfusion h2

theorem createResult_keys :
    ∀ (args : List Argument) (r rr : Res),
      createResult args r = Except.ok rr →
      (∀ k, resContains rr k = true ↔
        (∃ A, A ∈ args ∧ k ∈ getArgumentFlags A) ∨ resContains r k = true)
      ∧ (∀ A ∈ args, ∀ k ∈ getArgumentFlags A, resContains r k = false)
      ∧ (∀ A ∈ args, ∀ B ∈ args, ∀ k,
          k ∈ getArgumentFlags A → k ∈ getArgumentFlags B → A = B)
  | [], r, rr, h => by
    simp only [createResult, List.foldlM_nil, exceptPure_ok] at h
    subst h
    exact ⟨fun k => by simp, by simp, by simp⟩
  | a :: rest, r, rr, h => by
    simp only [createResult, List.foldlM_cons, exceptBind_ok] at h
    obtain ⟨r1, hstep, hrest⟩ := h
    obtain ⟨i1, i2⟩ := insertFold_keys (a.m_action, [])
      (fun flag => (⟨.argumentError,
        "argument " ++ flag ++ ": conflicting option string: " ++ flag⟩ : Err))
      (getArgumentFlags a) r r1 hstep
    have hrest2 : createResult rest r1 = Except.ok rr := by
      simp only [createResult]
      exact hrest
    obtain ⟨c1, c2, c3⟩ := createResult_keys rest r1 rr hrest2
    refine ⟨?_, ?_, ?_⟩
    · intro k
      rw [c1 k, i1 k]
      simp only [List.mem_cons]
      constructor
      · rintro (⟨A, hA, hk⟩ | (hk | hk))
        · exact Or.inl ⟨A, Or.inr hA, hk⟩
        · exact Or.inl ⟨a, Or.inl rfl, hk⟩
        · exact Or.inr hk
      · rintro (⟨A, hA | hA, hk⟩ | hk)
        · exact Or.inr (Or.inl (hA ▸ hk))
        · exact Or.inl ⟨A, hA, hk⟩
        · exact Or.inr (Or.inr hk)
    · intro A hA k hk
      rcases List.mem_cons.mp hA with hA | hA
      · exact i2 k (hA ▸ hk)
      · have h2 := c2 A hA k hk
        cases hrk : resContains r k
        · rfl
        · have ht : resContains r1 k = true := (i1 k).mpr (Or.inr hrk)
          exact Bool.noConfusion (ht.symm.trans h2)
    · intro A hA B hB k hkA hkB
      rcases List.mem_cons.mp hA with hA | hA <;> rcases List.mem_cons.mp hB with hB | hB
      · exact hA.trans hB.symm
      · exfalso
        have ht : resContains r1 k = true := (i1 k).mpr (Or.inl (hA ▸ hkA))
        have hf := c2 B hB k hkB
        exact Bool.noConfusion (ht.symm.trans hf)
      · exfalso
        have ht : resContains r1 k = true := (i1 k).mpr (Or.inl (hB ▸ hkB))
        have hf := c2 A hA k hkA
        exact Bool.noConfusion (ht.symm.trans hf)
      · exact c3 A hA B hB k hkA hkB

theorem createResult_values :
    ∀ (args : List Argument) (r rr : Res),
      createResult args r = Except.ok rr →
      ∀ k v, v ∈ valuesAt rr k → v ∈ valuesAt r k := by
  have hinner : ∀ (flags : List String) (act : Action) (r rr : Res),
      (flags.foldlM (fun res flag =>
        if resContains res flag then
          throw ((⟨.argumentError,
            "argument " ++ flag ++ ": conflicting option string: " ++ flag⟩ : Err))
        else pure (resInsert res flag (act, []))) r : Except Err Res) = Except.ok rr →
      ∀ k v, v ∈ valuesAt rr k → v ∈ valuesAt r k := by
    intro flags act
    induction flags with
    | nil =>
      intro r rr h k v hv
      simp only [List.foldlM_nil, exceptPure_ok] at h
      subst h
      exact hv
    | cons fl fls ih =>
      intro r rr h k v hv
      simp only [List.foldlM_cons, exceptBind_ok] at h
      obtain ⟨r1, hstep, hrest⟩ := h
      split at hstep
      · rw [exceptThrow_ok] at hstep
        exact hstep.elim
      · rw [exceptPure_ok] at hstep
        subst hstep
        have h2 := ih _ _ hrest k v hv
        rcases mem_valuesAt_resInsert h2 with h1 | h3
        · exact h1
        · exact absurd h3.2 (List.not_mem_nil v)
  intro args
  induction args with
  | nil =>
    intro r rr h k v hv
    simp only [createResult, List.foldlM_nil, exceptPure_ok] at h
    subst h
    exact hv
  | cons a rest ih =>
    intro r rr h k v hv
    simp only [createResult, List.foldlM_cons, exceptBind_ok] at h
    obtain ⟨r1, hstep, hrest⟩ := h
    have hrest2 : createResult rest r1 = Except.ok rr := by
      simp only [createResult]
      exact hrest
    exact hinner (getArgumentFlags a) a.m_action r r1 hstep k v (ih r1 rr hrest2 k v hv)

theorem parsePrep_parts {p : ArgumentParser} {fs : String → Option (List String)}
    {ts : List String} {hn : Bool} {res : Res} {rts : List String}
    (h : parsePrep p fs ts = Except.ok (hn, res, rts)) :
    ∃ r1, createResult (positionalArguments p) [] = Except.ok r1 ∧
      createResult (optionalArguments p) r1 = Except.ok res := by
  unfold parsePrep at h
  simp only [exceptBind_ok] at h
  obtain ⟨exp, hexp, u1, hv1, u2, hv2, r1, hc1, r2, hc2, rts2, hab, hp⟩ := h
  rw [exceptPure_ok] at hp
  injection hp with h1 hp
  injection hp with h2 h3
  exact ⟨r1, hc1, h2 ▸ hc2⟩

theorem parsePrep_empty {p : ArgumentParser} {fs : String → Option (List String)}
    {ts : List String} {hn : Bool} {res : Res} {rts : List String}
    (h : parsePrep p fs ts = Except.ok (hn, res, rts)) :
    ∀ k v, v ∈ valuesAt res k → False := by
  obtain ⟨r1, hc1, hc2⟩ := parsePrep_parts h
  intro k v hv
  have h2 := createResult_values _ _ _ hc2 k v hv
  have h3 := createResult_values _ _ _ hc1 k v h2
  simp [valuesAt, resLookup] at h3

theorem parsePrep_distinct {p : ArgumentParser} {fs : String → Option (List String)}
    {ts : List String} {hn : Bool} {res : Res} {rts : List String}
    (h : parsePrep p fs ts = Except.ok (hn, res, rts)) :
    ∀ A ∈ allParseArgs p, ∀ B ∈ allParseArgs p, ∀ k,
      k ∈ getArgumentFlags A → k ∈ getArgumentFlags B → A = B := by
  obtain ⟨r1, hc1, hc2⟩ := parsePrep_parts h
  obtain ⟨p1, p2, p3⟩ := createResult_keys _ _ _ hc1
  obtain ⟨q1, q2, q3⟩ := createResult_keys _ _ _ hc2
  intro A hA B hB k hkA hkB
  rw [allParseArgs, List.mem_append] at hA hB
  rcases hA with hA | hA <;> rcases hB with hB | hB
  · exact p3 A hA B hB k hkA hkB
  · exfalso
    have ht : resContains r1 k = true := (p1 k).mpr (Or.inl ⟨A, hA, hkA⟩)
    have hf := q2 B hB k hkB
    exact Bool.noConfusion (ht.symm.trans hf)
  · exfalso
    have ht : resContains r1 k = true := (p1 k).mpr (Or.inl ⟨B, hB, hkB⟩)
    have hf := q2 A hA k hkA
    exact Bool.noConfusion (ht.symm.trans hf)
  · exact q3 A hA B hB k hkA hkB

theorem parseAux_parts {p : ArgumentParser} {fs : String → Option (List String)}
    {ts : List String} {out : Namespace × List (List String) × List Nat}
    (h : parseAux p fs ts = Except.ok out) :
    ∃ hn res0 rts st pos r2 unrec consumed r3,
      parsePrep p fs ts = Except.ok (hn, res0, rts) ∧
      mainLoop p (optionalArguments p) hn rts.length rts ⟨res0, [], []⟩ = Except.ok st ∧
      matchAll p (positionalArguments p) st.groups (0, st.result, st.unrec, []) =
        Except.ok (pos, r2, unrec, consumed) ∧
      finalizeBlock p (positionalArguments p)
        (collectRequired (optionalArguments p) r2) pos r2 = Except.ok r3 ∧
      out.1.m_arguments = fillDefaults p (optionalArguments p) r3 := by
  unfold parseAux at h
  simp only [exceptBind_ok] at h
  obtain ⟨⟨hn, res0, rts⟩, hprep, st, hml, ⟨pos, r2, unrec, consumed⟩, hma, r3, hfin,
    hlast⟩ := h
  split at hlast
  · rw [exceptThrow_ok] at hlast
    exact hlast.elim
  · rw [exceptPure_ok] at hlast
    exact ⟨hn, res0, rts, st, pos, r2, unrec, consumed, r3, hprep, hml, hma, hfin,
      by rw [← hlast]⟩

/-- Claim C1 (amended): on a successful parse, every value stored under a key
of an argument declared with a non-empty choices list and a store-family
action either passes the choices check after quote stripping, or is the
default value of some declared argument.  Token-supplied and const values are
always validated; only default materialization bypasses the choices filter. -/
theorem claim_C1_choices_amended (p : ArgumentParser)
    (fs : String → Option (List String)) (ts : List String) (ns : Namespace)
    (A : Argument) (hA : A ∈ allParseArgs p)
    (hst : isStoreAction A.m_action = true) (hch : A.m_choices ≠ [])
    (hok : parseKnownArgs p fs ts = Except.ok ns) :
    ∀ k ∈ getArgumentFlags A, ∀ v ∈ valuesAt ns.m_arguments k,
      A.m_choices.contains (removeQuotes v) = true ∨
        ∃ B, B ∈ allParseArgs p ∧ v = defaultArgValue p B := by
  unfold parseKnownArgs at hok
  cases haux : parseAux p fs ts with
  | error e =>
    rw [haux] at hok
    simp [Except.map] at hok
  | ok out =>
    rw [haux] at hok
    simp only [Except.map] at hok
    injection hok with hns
    obtain ⟨hn, res0, rts, st, pos, r2, unrec, consumed, r3, hprep, hml, hma, hfin,
      hfill⟩ := parseAux_parts haux
    have hdist := parsePrep_distinct hprep
    have hempty := parsePrep_empty hprep
    have c1 : Carries p res0 st.result :=
      carries_mainLoop (fun a ha => mem_allParseArgs_of_optional ha)
        rts.length rts ⟨res0, [], []⟩ st hml
    have c2 : Carries p st.result r2 :=
      carries_matchAll (fun a ha => mem_allParseArgs_of_positional ha)
        st.groups (0, st.result, st.unrec, []) (pos, r2, unrec, consumed) hma
    have c3 : Carries p r2 r3 :=
      carries_finalizeBlock (fun a ha => mem_allParseArgs_of_positional ha) hfin
    have c4 : Carries p r3 ns.m_arguments := by
      rw [← hns, hfill]
      exact carries_fillDefaults p (optionalArguments p)
        (fun a ha => mem_allParseArgs_of_optional ha) r3
    have hcar : Carries p res0 ns.m_arguments :=
      carries_trans (carries_trans (carries_trans c1 c2) c3) c4
    intro k hk v hv
    rcases hcar k v hv with h0 | horig
    · exact absurd h0 (fun hx => hempty k v hx)
    · rcases horig with ⟨B, hBmem, hkB, hcho⟩ | ⟨B, hBmem, hkB, hns2⟩ | ⟨B, hBmem, hdef⟩
      · have hAB : A = B := hdist A hA B hBmem k hk hkB
        exact Or.inl (by rw [hAB]; exact hcho (by rw [← hAB]; exact hch))
      · have hAB : A = B := hdist A hA B hBmem k hk hkB
        rw [← hAB, hst] at hns2
        exact Bool.noConfusion hns2
      · exact Or.inr ⟨B, hBmem, hdef⟩

/-- The namespace produced by the C1 witness parse. -/
def c1amNs : Namespace :=
  ⟨[("--help", (Action.store_true, ["0"])), ("--level", (Action.store, ["low"])),
    ("-h", (Action.store_true, ["0"]))], "-"⟩

theorem claim_C1_choices_amended_witness :
    parseKnownArgs c1cexP fsNone ["--level", "low"] = Except.ok c1amNs ∧
    (∀ k ∈ getArgumentFlags c1cexArg, ∀ v ∈ valuesAt c1amNs.m_arguments k,
      c1cexArg.m_choices.contains (removeQuotes v) = true ∨
        ∃ B, B ∈ allParseArgs c1cexP ∧ v = defaultArgValue c1cexP B) :=
  ⟨by decide, claim_C1_choices_amended c1cexP fsNone ["--level", "low"] c1amNs c1cexArg
    (by decide) (by decide) (by decide) (by decide)⟩

/-! ### Key-local characterization of the result-map writers (claims C5, C6, C9) -/

theorem resLookup_updateFold_other {g : ArgumentValue → ArgumentValue} :
    ∀ (flags : List String) (r : Res) (k : String), k ∉ flags →
      resLookup (flags.foldl (fun rr fl => resUpdate rr fl g) r) k = resLookup r k
  | [], _, _, _ => rfl
  | fl :: fls, r, k, hk => by
    have h1 : k ∉ fls := fun h => hk (List.mem_cons_of_mem fl h)
    have h2 : k ≠ fl := fun h => hk (h ▸ List.mem_cons_self fl fls)
    rw [List.foldl_cons, resLookup_updateFold_other fls _ k h1, resLookup_resUpdate,
      if_neg h2]

theorem resLookup_updateFold_mem {g : ArgumentValue → ArgumentValue} :
    ∀ (flags : List String) (r : Res) (k : String), flags.Nodup → k ∈ flags →
      resLookup (flags.foldl (fun rr fl => resUpdate rr fl g) r) k = (resLookup r k).map g
  | [], _, k, _, hk => absurd hk (List.not_mem_nil k)
  | fl :: fls, r, k, hN, hk => by
    rw [List.foldl_cons]
    rcases List.mem_cons.mp hk with hk1 | hk1
    · subst hk1
      have hnotin : k ∉ fls := (List.nodup_cons.mp hN).1
      rw [resLookup_updateFold_other fls _ k hnotin, resLookup_resUpdate, if_pos rfl]
    · have hne : k ≠ fl := fun h => (List.nodup_cons.mp hN).1 (h ▸ hk1)
      rw [resLookup_updateFold_mem fls _ k (List.nodup_cons.mp hN).2 hk1,
        resLookup_resUpdate, if_neg hne]

theorem pushValueAll_lookup_mem {flags : List String} {w : String} {r : Res} {k : String}
    (hN : flags.Nodup) (hk : k ∈ flags) :
    resLookup (pushValueAll flags w r) k =
      (resLookup r k).map (fun av => (av.1, av.2 ++ [w])) := by
  unfold pushValueAll
  exact resLookup_updateFold_mem flags r k hN hk

theorem pushValueAll_lookup_other {flags : List String} {w : String} {r : Res} {k : String}
    (hk : k ∉ flags) : resLookup (pushValueAll flags w r) k = resLookup r k := by
  unfold pushValueAll
  exact resLookup_updateFold_other flags r k hk

theorem storeValue_push {p : ArgumentParser} {B : Argument} {w : String} {r rr : Res}
    (h : storeValue p B w r = Except.ok rr) :
    rr = pushValueAll (getArgumentFlags B) w r := by
  unfold storeValue at h
  simp only [exceptBind_ok, exceptPure_ok] at h
  obtain ⟨u, -, hp⟩ := h
  exact hp.symm

theorem storeValues_lookup_mem {p : ArgumentParser} {B : Argument} :
    ∀ (ws : List String) (r rr : Res),
      storeValues p B ws r = Except.ok rr → (getArgumentFlags B).Nodup →
      ∀ k ∈ getArgumentFlags B,
        resLookup rr k = (resLookup r k).map (fun av => (av.1, av.2 ++ ws))
  | [], r, rr, h, hN, k, hk => by
    unfold storeValues at h
    simp only [List.foldlM_nil, exceptPure_ok] at h
    subst h
    cases hl : resLookup r k <;> simp
  | w :: ws, r, rr, h, hN, k, hk => by
    unfold storeValues at h
    simp only [List.foldlM_cons, exceptBind_ok] at h
    obtain ⟨r1, h1, h2⟩ := h
    have hr1 : r1 = pushValueAll (getArgumentFlags B) w r := storeValue_push h1
    have hrec := storeValues_lookup_mem ws r1 rr (by unfold storeValues; exact h2) hN k hk
    rw [hrec, hr1, pushValueAll_lookup_mem hN hk]
    cases hl : resLookup r k
    · rfl
    · simp [List.append_assoc]

theorem storeValues_lookup_other {p : ArgumentParser} {B : Argument} :
    ∀ (ws : List String) (r rr : Res),
      storeValues p B ws r = Except.ok rr → ∀ k, k ∉ getArgumentFlags B →
        resLookup rr k = resLookup r k
  | [], r, rr, h, k, hk => by
    unfold storeValues at h
    simp only [List.foldlM_nil, exceptPure_ok] at h
    subst h
    rfl
  | w :: ws, r, rr, h, k, hk => by
    unfold storeValues at h
    simp only [List.foldlM_cons, exceptBind_ok] at h
    obtain ⟨r1, h1, h2⟩ := h
    have hr1 : r1 = pushValueAll (getArgumentFlags B) w r := storeValue_push h1
    have hrec := storeValues_lookup_other ws r1 rr (by unfold storeValues; exact h2) k hk
    rw [hrec, hr1, pushValueAll_lookup_other hk]

theorem clearValues_lookup_mem {B : Argument} {r : Res} {k : String}
    (hN : (getArgumentFlags B).Nodup) (hk : k ∈ getArgumentFlags B) :
    resLookup (clearValues B r) k =
      (resLookup r k).map (fun av => (av.1, ([] : List String))) := by
  unfold clearValues
  exact resLookup_updateFold_mem _ r k hN hk

theorem clearValues_lookup_other {B : Argument} {r : Res} {k : String}
    (hk : k ∉ getArgumentFlags B) : resLookup (clearValues B r) k = resLookup r k := by
  unfold clearValues
  exact resLookup_updateFold_other _ r k hk

theorem storeConstValue_lookup_mem {B : Argument} {r : Res} {k : String}
    (hN : (getArgumentFlags B).Nodup) (hk : k ∈ getArgumentFlags B) :
    resLookup (storeConstValue B r) k =
      (resLookup r k).map
        (fun av => if av.2 = [] then (av.1, [B.m_const]) else av) := by
  unfold storeConstValue
  exact resLookup_updateFold_mem _ r k hN hk

theorem storeConstValue_lookup_other {B : Argument} {r : Res} {k : String}
    (hk : k ∉ getArgumentFlags B) : resLookup (storeConstValue B r) k = resLookup r k := by
  unfold storeConstValue
  exact resLookup_updateFold_other _ r k hk

theorem storeDefault_store_lookup_mem {p : ArgumentParser} {B : Argument} {r : Res}
    {k : String} (ha : B.m_action = Action.store)
    (hN : (getArgumentFlags B).Nodup) (hk : k ∈ getArgumentFlags B) :
    resLookup (storeDefaultValue p B r) k =
      (resLookup r k).map
        (fun av => if av.2 = [] then (av.1, [defaultArgValue p B]) else av) := by
  unfold storeDefaultValue
  rw [if_pos ha]
  exact resLookup_updateFold_mem _ r k hN hk

theorem storeDefaultValue_lookup_other {p : ArgumentParser} {B : Argument} {r : Res}
    {k : String} (hk : k ∉ getArgumentFlags B) :
    resLookup (storeDefaultValue p B r) k = resLookup r k := by
  unfold storeDefaultValue
  split
  · exact resLookup_updateFold_other _ r k hk
  · rfl

theorem storeCountValue_lookup_mem {B : Argument} {r : Res} {k : String}
    (hN : (getArgumentFlags B).Nodup) (hk : k ∈ getArgumentFlags B) :
    resLookup (storeCountValue B r) k =
      (resLookup r k).map (fun av => (av.1, av.2 ++ [""])) := by
  unfold storeCountValue
  exact pushValueAll_lookup_mem hN hk

theorem storeCountValue_lookup_other {B : Argument} {r : Res} {k : String}
    (hk : k ∉ getArgumentFlags B) : resLookup (storeCountValue B r) k = resLookup r k := by
  unfold storeCountValue
  exact pushValueAll_lookup_other hk

theorem appendConstFold_push {p : ArgumentParser} {B : Argument} :
    ∀ (flags : List String) (r rr : Res),
      (flags.foldlM (fun res flag => do
        if B.m_default ≠ "" then
          throw (handleError p ("argument " ++ B.m_flags.headD ""
            ++ ": ignored default value " ++ B.m_default))
        pure (resUpdate res flag (fun av => (av.1, av.2 ++ [B.m_const]))))
        r : Except Err Res) = Except.ok rr →
      rr = flags.foldl
        (fun res flag => resUpdate res flag (fun av => (av.1, av.2 ++ [B.m_const]))) r
  | [], r, rr, h => by
    simp only [List.foldlM_nil, exceptPure_ok] at h
    subst h
    rfl
  | fl :: fls, r, rr, h => by
    simp only [List.foldlM_cons, exceptBind_ok] at h
    obtain ⟨r1, hstep, hrest⟩ := h
    split at hstep
    · simp only [exceptBind_ok, exceptThrow_ok, false_and, and_false, exists_false] at hstep
    · simp only [pure_bind, exceptPure_ok] at hstep
      subst hstep
      rw [List.foldl_cons]
      exact appendConstFold_push fls _ rr hrest

theorem appendConstValue_push {p : ArgumentParser} {B : Argument} {r rr : Res}
    (h : appendConstValue p B r = Except.ok rr) :
    rr = (getArgumentFlags B).foldl
      (fun res flag => resUpdate res flag (fun av => (av.1, av.2 ++ [B.m_const]))) r := by
  unfold appendConstValue at h
  exact appendConstFold_push (getArgumentFlags B) r rr h

theorem isPositionalArgStored_other {p : ArgumentParser} {B : Argument} {r : Res}
    {b : Bool} {rr : Res} {k : String} (hk : k ∉ getArgumentFlags B)
    (h : isPositionalArgStored p B r = Except.ok (b, rr)) :
    resLookup rr k = resLookup r k := by
  unfold isPositionalArgStored at h
  split at h
  · rw [exceptPure_ok] at h
    cases h
    exact storeConstValue_lookup_other hk
  · split at h
    · simp only [exceptBind_ok, exceptPure_ok] at h
      obtain ⟨r1, ha, hp⟩ := h
      cases hp
      rw [appendConstValue_push ha]
      exact resLookup_updateFold_other _ r k hk
    · split at h
      · rw [exceptPure_ok] at h
        cases h
        exact storeCountValue_lookup_other hk
      · rw [exceptPure_ok] at h
        cases h
        rfl

theorem action_append_ne_store : (Action.append = Action.store) = False := by
  simp

theorem action_extend_ne_store : (Action.extend = Action.store) = False := by
  simp

theorem consumeOptValues_le {p : ArgumentParser} {B : Argument} {argN : String}
    {vs ws : List String} {k2 : Nat}
    (h : consumeOptValues p B argN vs = Except.ok (ws, k2)) : k2 ≤ vs.length := by
  unfold consumeOptValues at h
  dsimp only at h
  split at h
  · split at h
    · rw [exceptThrow_ok] at h
      exact h.elim
    · next hvs =>
      rw [exceptPure_ok] at h
      injection h with h1 h2
      omega
  · split at h
    · split at h
      · rw [exceptPure_ok] at h
        injection h with h1 h2
        omega
      · rw [exceptPure_ok] at h
        injection h with h1 h2
        omega
    · split at h
      · rw [exceptPure_ok] at h
        injection h with h1 h2
        omega
      · split at h
        · split at h
          · rw [exceptThrow_ok] at h
            exact h.elim
          · rw [exceptPure_ok] at h
            injection h with h1 h2
            omega
        · split at h
          · rw [exceptThrow_ok] at h
            exact h.elim
          · split at h
            · rw [exceptPure_ok] at h
              injection h with h1 h2
              omega
            · split at h
              · rw [exceptThrow_ok] at h
                exact h.elim
              · next hge =>
                rw [exceptPure_ok] at h
                injection h with h1 h2
                omega

theorem dispatchOpt_other {p : ArgumentParser} {haveNeg : Bool} {temp : Argument}
    {argN : String} {splitted rest : List String} {r rr : Res} {n : Nat} {k : String}
    (hk : k ∉ getArgumentFlags temp)
    (h : dispatchOpt p haveNeg temp argN splitted rest r = Except.ok (rr, n)) :
    resLookup rr k = resLookup r k := by
  cases ha : temp.m_action with
  | store =>
    simp only [dispatchOpt, ha, eq_self_iff_true, if_true, action_append_ne_store,
      action_extend_ne_store, if_false] at h
    split at h
    · split at h
      · simp only [exceptBind_ok, exceptThrow_ok, false_and, and_false, exists_false] at h
      · simp only [pure_bind] at h
        split at h
        · simp only [exceptBind_ok, exceptThrow_ok, false_and, and_false, exists_false] at h
        · simp only [pure_bind, exceptBind_ok, exceptPure_ok, Prod.mk.injEq] at h
          obtain ⟨r1, hsv, he, -⟩ := h
          subst he
          rw [storeValue_push hsv, pushValueAll_lookup_other hk,
            clearValues_lookup_other hk]
    · simp only [exceptBind_ok, exceptPure_ok, Prod.mk.injEq] at h
      obtain ⟨⟨ws, k2⟩, hco, r1, hsv, he, -⟩ := h
      subst he
      rw [storeValues_lookup_other _ _ _ hsv k hk, clearValues_lookup_other hk]
  | append =>
    simp only [dispatchOpt, ha, eq_self_iff_true, if_true, action_append_ne_store,
      action_extend_ne_store, if_false] at h
    split at h
    · split at h
      · simp only [exceptBind_ok, exceptThrow_ok, false_and, and_false, exists_false] at h
      · simp only [pure_bind] at h
        split at h
        · simp only [exceptBind_ok, exceptThrow_ok, false_and, and_false, exists_false] at h
        · simp only [pure_bind, exceptBind_ok, exceptPure_ok, Prod.mk.injEq] at h
          obtain ⟨r1, hsv, he, -⟩ := h
          subst he
          rw [storeValue_push hsv, pushValueAll_lookup_other hk]
    · simp only [exceptBind_ok, exceptPure_ok, Prod.mk.injEq] at h
      obtain ⟨⟨ws, k2⟩, hco, r1, hsv, he, -⟩ := h
      subst he
      rw [storeValues_lookup_other _ _ _ hsv k hk]
  | extend =>
    simp only [dispatchOpt, ha, eq_self_iff_true, if_true, action_append_ne_store,
      action_extend_ne_store, if_false] at h
    split at h
    · split at h
      · simp only [exceptBind_ok, exceptThrow_ok, false_and, and_false, exists_false] at h
      · simp only [pure_bind] at h
        split at h
        · simp only [exceptBind_ok, exceptThrow_ok, false_and, and_false, exists_false] at h
        · simp only [pure_bind, exceptBind_ok, exceptPure_ok, Prod.mk.injEq] at h
          obtain ⟨r1, hsv, he, -⟩ := h
          subst he
          rw [storeValue_push hsv, pushValueAll_lookup_other hk]
    · simp only [exceptBind_ok, exceptPure_ok, Prod.mk.injEq] at h
      obtain ⟨⟨ws, k2⟩, hco, r1, hsv, he, -⟩ := h
      subst he
      rw [storeValues_lookup_other _ _ _ hsv k hk]
  | store_const =>
    simp only [dispatchOpt, ha, eq_self_iff_true, if_true, action_append_ne_store,
      action_extend_ne_store, if_false] at h
    split at h
    · rw [exceptPure_ok] at h
      cases h
      exact storeConstValue_lookup_other hk
    · simp only [exceptThrow_ok] at h
  | store_true =>
    simp only [dispatchOpt, ha, eq_self_iff_true, if_true, action_append_ne_store,
      action_extend_ne_store, if_false] at h
    split at h
    · rw [exceptPure_ok] at h
      cases h
      exact storeConstValue_lookup_other hk
    · simp only [exceptThrow_ok] at h
  | store_false =>
    simp only [dispatchOpt, ha, eq_self_iff_true, if_true, action_append_ne_store,
      action_extend_ne_store, if_false] at h
    split at h
    · rw [exceptPure_ok] at h
      cases h
      exact storeConstValue_lookup_other hk
    · simp only [exceptThrow_ok] at h
  | append_const =>
    simp only [dispatchOpt, ha, eq_self_iff_true, if_true, action_append_ne_store,
      action_extend_ne_store, if_false] at h
    split at h
    · simp only [exceptBind_ok, exceptPure_ok, Prod.mk.injEq] at h
      obtain ⟨r1, hap, he, -⟩ := h
      subst he
      rw [appendConstValue_push hap]
      exact resLookup_updateFold_other _ r k hk
    · simp only [exceptThrow_ok] at h
  | help =>
    simp only [dispatchOpt, ha, eq_self_iff_true, if_true, action_append_ne_store,
      action_extend_ne_store, if_false] at h
    split at h <;> simp only [exceptThrow_ok] at h
  | version =>
    simp only [dispatchOpt, ha, eq_self_iff_true, if_true, action_append_ne_store,
      action_extend_ne_store, if_false] at h
    split at h
    · split at h <;> simp only [exceptThrow_ok] at h
    · simp only [exceptThrow_ok] at h
  | count =>
    simp only [dispatchOpt, ha, eq_self_iff_true, if_true, action_append_ne_store,
      action_extend_ne_store, if_false] at h
    split at h
    · rw [exceptPure_ok] at h
      cases h
      exact storeCountValue_lookup_other hk
    · simp only [exceptThrow_ok] at h

theorem dispatchOpt_drop {p : ArgumentParser} {haveNeg : Bool} {temp : Argument}
    {argN : String} {splitted rest : List String} {r rr : Res} {n : Nat}
    (h : dispatchOpt p haveNeg temp argN splitted rest r = Except.ok (rr, n)) :
    n ≤ (rest.takeWhile (isValueLike p haveNeg)).length := by
  cases ha : temp.m_action with
  | store =>
    simp only [dispatchOpt, ha, eq_self_iff_true, if_true, action_append_ne_store,
      action_extend_ne_store, if_false] at h
    split at h
    · split at h
      · simp only [exceptBind_ok, exceptThrow_ok, false_and, and_false, exists_false] at h
      · simp only [pure_bind] at h
        split at h
        · simp only [exceptBind_ok, exceptThrow_ok, false_and, and_false, exists_false] at h
        · simp only [pure_bind, exceptBind_ok, exceptPure_ok, Prod.mk.injEq] at h
          obtain ⟨r1, hsv, -, hn⟩ := h
          omega
    · simp only [exceptBind_ok, exceptPure_ok, Prod.mk.injEq] at h
      obtain ⟨⟨ws, k2⟩, hco, r1, hsv, -, hn⟩ := h
      have := consumeOptValues_le hco
      omega
  | append =>
    simp only [dispatchOpt, ha, eq_self_iff_true, if_true, action_append_ne_store,
      action_extend_ne_store, if_false] at h
    split at h
    · split at h
      · simp only [exceptBind_ok, exceptThrow_ok, false_and, and_false, exists_false] at h
      · simp only [pure_bind] at h
        split at h
        · simp only [exceptBind_ok, exceptThrow_ok, false_and, and_false, exists_false] at h
        · simp only [pure_bind, exceptBind_ok, exceptPure_ok, Prod.mk.injEq] at h
          obtain ⟨r1, hsv, -, hn⟩ := h
          omega
    · simp only [exceptBind_ok, exceptPure_ok, Prod.mk.injEq] at h
      obtain ⟨⟨ws, k2⟩, hco, r1, hsv, -, hn⟩ := h
      have := consumeOptValues_le hco
      omega
  | extend =>
    simp only [dispatchOpt, ha, eq_self_iff_true, if_true, action_append_ne_store,
      action_extend_ne_store, if_false] at h
    split at h
    · split at h
      · simp only [exceptBind_ok, exceptThrow_ok, false_and, and_false, exists_false] at h
      · simp only [pure_bind] at h
        split at h
        · simp only [exceptBind_ok, exceptThrow_ok, false_and, and_false, exists_false] at h
        · simp only [pure_bind, exceptBind_ok, exceptPure_ok, Prod.mk.injEq] at h
          obtain ⟨r1, hsv, -, hn⟩ := h
          omega
    · simp only [exceptBind_ok, exceptPure_ok, Prod.mk.injEq] at h
      obtain ⟨⟨ws, k2⟩, hco, r1, hsv, -, hn⟩ := h
      have := consumeOptValues_le hco
      omega
  | store_const =>
    simp only [dispatchOpt, ha, eq_self_iff_true, if_true, action_append_ne_store,
      action_extend_ne_store, if_false] at h
    split at h
    · rw [exceptPure_ok] at h
      injection h with h1 h2
      omega
    · simp only [exceptThrow_ok] at h
  | store_true =>
    simp only [dispatchOpt, ha, eq_self_iff_true, if_true, action_append_ne_store,
      action_extend_ne_store, if_false] at h
    split at h
    · rw [exceptPure_ok] at h
      injection h with h1 h2
      omega
    · simp only [exceptThrow_ok] at h
  | store_false =>
    simp only [dispatchOpt, ha, eq_self_iff_true, if_true, action_append_ne_store,
      action_extend_ne_store, if_false] at h
    split at h
    · rw [exceptPure_ok] at h
      injection h with h1 h2
      omega
    · simp only [exceptThrow_ok] at h
  | append_const =>
    simp only [dispatchOpt, ha, eq_self_iff_true, if_true, action_append_ne_store,
      action_extend_ne_store, if_false] at h
    split at h
    · simp only [exceptBind_ok, exceptPure_ok, Prod.mk.injEq] at h
      obtain ⟨r1, hap, -, hn⟩ := h
      omega
    · simp only [exceptThrow_ok] at h
  | help =>
    simp only [dispatchOpt, ha, eq_self_iff_true, if_true, action_append_ne_store,
      action_extend_ne_store, if_false] at h
    split at h <;> simp only [exceptThrow_ok] at h
  | version =>
    simp only [dispatchOpt, ha, eq_self_iff_true, if_true, action_append_ne_store,
      action_extend_ne_store, if_false] at h
    split at h
    · split at h <;> simp only [exceptThrow_ok] at h
    · simp only [exceptThrow_ok] at h
  | count =>
    simp only [dispatchOpt, ha, eq_self_iff_true, if_true, action_append_ne_store,
      action_extend_ne_store, if_false] at h
    split at h
    · rw [exceptPure_ok] at h
      injection h with h1 h2
      omega
    · simp only [exceptThrow_ok] at h

theorem dispatchOpt_mapChar {p : ArgumentParser} {haveNeg : Bool} {temp : Argument}
    {argN : String} {splitted rest : List String} {r rr : Res} {n : Nat}
    (hN : (getArgumentFlags temp).Nodup)
    (h : dispatchOpt p haveNeg temp argN splitted rest r = Except.ok (rr, n)) :
    ∃ F : ArgumentValue → ArgumentValue,
      ∀ k ∈ getArgumentFlags temp, resLookup rr k = (resLookup r k).map F := by
  cases ha : temp.m_action with
  | store =>
    simp only [dispatchOpt, ha, eq_self_iff_true, if_true, action_append_ne_store,
      action_extend_ne_store, if_false] at h
    split at h
    · split at h
      · simp only [exceptBind_ok, exceptThrow_ok, false_and, and_false, exists_false] at h
      · simp only [pure_bind] at h
        split at h
        · simp only [exceptBind_ok, exceptThrow_ok, false_and, and_false, exists_false] at h
        · simp only [pure_bind, exceptBind_ok, exceptPure_ok, Prod.mk.injEq] at h
          obtain ⟨r1, hsv, he, -⟩ := h
          subst he
          refine ⟨fun av => (av.1, [splitted.getD 1 ""]), fun k hk => ?_⟩
          rw [storeValue_push hsv, pushValueAll_lookup_mem hN hk,
            clearValues_lookup_mem hN hk]
          cases hl : resLookup r k <;> rfl
    · simp only [exceptBind_ok, exceptPure_ok, Prod.mk.injEq] at h
      obtain ⟨⟨ws, k2⟩, hco, r1, hsv, he, -⟩ := h
      subst he
      refine ⟨fun av => (av.1, ws), fun k hk => ?_⟩
      rw [storeValues_lookup_mem _ _ _ hsv hN k hk, clearValues_lookup_mem hN hk]
      cases hl : resLookup r k <;> rfl
  | append =>
    simp only [dispatchOpt, ha, eq_self_iff_true, if_true, action_append_ne_store,
      action_extend_ne_store, if_false] at h
    split at h
    · split at h
      · simp only [exceptBind_ok, exceptThrow_ok, false_and, and_false, exists_false] at h
      · simp only [pure_bind] at h
        split at h
        · simp only [exceptBind_ok, exceptThrow_ok, false_and, and_false, exists_false] at h
        · simp only [pure_bind, exceptBind_ok, exceptPure_ok, Prod.mk.injEq] at h
          obtain ⟨r1, hsv, he, -⟩ := h
          subst he
          refine ⟨fun av => (av.1, av.2 ++ [splitted.getD 1 ""]), fun k hk => ?_⟩
          rw [storeValue_push hsv, pushValueAll_lookup_mem hN hk]
    · simp only [exceptBind_ok, exceptPure_ok, Prod.mk.injEq] at h
      obtain ⟨⟨ws, k2⟩, hco, r1, hsv, he, -⟩ := h
      subst he
      exact ⟨fun av => (av.1, av.2 ++ ws),
        fun k hk => storeValues_lookup_mem _ _ _ hsv hN k hk⟩
  | extend =>
    simp only [dispatchOpt, ha, eq_self_iff_true, if_true, action_append_ne_store,
      action_extend_ne_store, if_false] at h
    split at h
    · split at h
      · simp only [exceptBind_ok, exceptThrow_ok, false_and, and_false, exists_false] at h
      · simp only [pure_bind] at h
        split at h
        · simp only [exceptBind_ok, exceptThrow_ok, false_and, and_false, exists_false] at h
        · simp only [pure_bind, exceptBind_ok, exceptPure_ok, Prod.mk.injEq] at h
          obtain ⟨r1, hsv, he, -⟩ := h
          subst he
          refine ⟨fun av => (av.1, av.2 ++ [splitted.getD 1 ""]), fun k hk => ?_⟩
          rw [storeValue_push hsv, pushValueAll_lookup_mem hN hk]
    · simp only [exceptBind_ok, exceptPure_ok, Prod.mk.injEq] at h
      obtain ⟨⟨ws, k2⟩, hco, r1, hsv, he, -⟩ := h
      subst he
      exact ⟨fun av => (av.1, av.2 ++ ws),
        fun k hk => storeValues_lookup_mem _ _ _ hsv hN k hk⟩
  | store_const =>
    simp only [dispatchOpt, ha, eq_self_iff_true, if_true, action_append_ne_store,
      action_extend_ne_store, if_false] at h
    split at h
    · rw [exceptPure_ok] at h
      cases h
      exact ⟨fun av => if av.2 = [] then (av.1, [temp.m_const]) else av,
        fun k hk => storeConstValue_lookup_mem hN hk⟩
    · simp only [exceptThrow_ok] at h
  | store_true =>
    simp only [dispatchOpt, ha, eq_self_iff_true, if_true, action_append_ne_store,
      action_extend_ne_store, if_false] at h
    split at h
    · rw [exceptPure_ok] at h
      cases h
      exact ⟨fun av => if av.2 = [] then (av.1, [temp.m_const]) else av,
        fun k hk => storeConstValue_lookup_mem hN hk⟩
    · simp only [exceptThrow_ok] at h
  | store_false =>
    simp only [dispatchOpt, ha, eq_self_iff_true, if_true, action_append_ne_store,
      action_extend_ne_store, if_false] at h
    split at h
    · rw [exceptPure_ok] at h
      cases h
      exact ⟨fun av => if av.2 = [] then (av.1, [temp.m_const]) else av,
        fun k hk => storeConstValue_lookup_mem hN hk⟩
    · simp only [exceptThrow_ok] at h
  | append_const =>
    simp only [dispatchOpt, ha, eq_self_iff_true, if_true, action_append_ne_store,
      action_extend_ne_store, if_false] at h
    split at h
    · simp only [exceptBind_ok, exceptPure_ok, Prod.mk.injEq] at h
      obtain ⟨r1, hap, he, -⟩ := h
      subst he
      refine ⟨fun av => (av.1, av.2 ++ [temp.m_const]), fun k hk => ?_⟩
      rw [appendConstValue_push hap]
      exact resLookup_updateFold_mem _ r k hN hk
    · simp only [exceptThrow_ok] at h
  | help =>
    simp only [dispatchOpt, ha, eq_self_iff_true, if_true, action_append_ne_store,
      action_extend_ne_store, if_false] at h
    split at h <;> simp only [exceptThrow_ok] at h
  | version =>
    simp only [dispatchOpt, ha, eq_self_iff_true, if_true, action_append_ne_store,
      action_extend_ne_store, if_false] at h
    split at h
    · split at h <;> simp only [exceptThrow_ok] at h
    · simp only [exceptThrow_ok] at h
  | count =>
    simp only [dispatchOpt, ha, eq_self_iff_true, if_true, action_append_ne_store,
      action_extend_ne_store, if_false] at h
    split at h
    · rw [exceptPure_ok] at h
      cases h
      exact ⟨fun av => (av.1, av.2 ++ [""]),
        fun k hk => storeCountValue_lookup_mem hN hk⟩
    · simp only [exceptThrow_ok] at h

theorem applyExact_other (p : ArgumentParser) :
    ∀ (w : List Argument) (args : List String) (r rr : Res) (cs : List Nat)
      (rem : List String) (k : String),
      (∀ a ∈ w, k ∉ getArgumentFlags a) →
      applyExact p w args r = .ok (rr, cs, rem) →
      resLookup rr k = resLookup r k := by
  intro w
  induction w with
  | nil =>
    intro args r rr cs rem k _ h
    simp only [applyExact, exceptPure_ok, Prod.mk.injEq] at h
    obtain ⟨h1, -, -⟩ := h
    subst h1
    rfl
  | cons a w ihw =>
    intro args r rr cs rem k hnot h
    have hka : k ∉ getArgumentFlags a := hnot a (List.mem_cons_self a w)
    have hkw : ∀ b ∈ w, k ∉ getArgumentFlags b :=
      fun b hb => hnot b (List.mem_cons_of_mem a hb)
    simp only [applyExact, exceptBind_ok] at h
    obtain ⟨⟨stored, res1⟩, hst, h⟩ := h
    have hc0 : resLookup res1 k = resLookup r k := isPositionalArgStored_other hka hst
    cases stored
    · simp only [Bool.false_eq_true, if_false] at h
      by_cases h1 : a.m_nargs = "" ∨ a.m_nargs = "+"
      · rw [if_pos h1] at h
        simp only [exceptBind_ok] at h
        obtain ⟨r2, hsv, h⟩ := h
        obtain ⟨⟨r3, cs3, rem3⟩, hrec, hp⟩ := h
        simp only [exceptPure_ok, Prod.mk.injEq] at hp
        obtain ⟨he, -, -⟩ := hp
        subst he
        rw [ihw _ _ _ _ _ _ hkw hrec, storeValues_lookup_other _ _ _ hsv k hka, hc0]
      · rw [if_neg h1] at h
        by_cases h2 : a.m_nargs = "?" ∨ a.m_nargs = "*"
        · rw [if_pos h2] at h
          simp only [exceptBind_ok] at h
          obtain ⟨⟨r3, cs3, rem3⟩, hrec, hp⟩ := h
          simp only [exceptPure_ok, Prod.mk.injEq] at hp
          obtain ⟨he, -, -⟩ := hp
          subst he
          rw [ihw _ _ _ _ _ _ hkw hrec, storeDefaultValue_lookup_other hka, hc0]
        · rw [if_neg h2] at h
          simp only [exceptBind_ok] at h
          obtain ⟨r2, hsv, h⟩ := h
          obtain ⟨⟨r3, cs3, rem3⟩, hrec, hp⟩ := h
          simp only [exceptPure_ok, Prod.mk.injEq] at hp
          obtain ⟨he, -, -⟩ := hp
          subst he
          rw [ihw _ _ _ _ _ _ hkw hrec, storeValues_lookup_other _ _ _ hsv k hka, hc0]
    · simp only [if_pos] at h
      simp only [exceptBind_ok] at h
      obtain ⟨⟨r3, cs3, rem3⟩, hrec, hp⟩ := h
      simp only [exceptPure_ok, Prod.mk.injEq] at hp
      obtain ⟨he, -, -⟩ := hp
      subst he
      rw [ihw _ _ _ _ _ _ hkw hrec, hc0]

theorem applyGreedy_other (p : ArgumentParser) :
    ∀ (w : List Argument) (args : List String) (over : Nat) (r rr : Res) (cs : List Nat)
      (rem : List String) (k : String),
      (∀ a ∈ w, k ∉ getArgumentFlags a) →
      applyGreedy p w args over r = .ok (rr, cs, rem) →
      resLookup rr k = resLookup r k := by
  intro w
  induction w with
  | nil =>
    intro args over r rr cs rem k _ h
    simp only [applyGreedy, exceptPure_ok, Prod.mk.injEq] at h
    obtain ⟨h1, -, -⟩ := h
    subst h1
    rfl
  | cons a w ihw =>
    intro args over r rr cs rem k hnot h
    have hka : k ∉ getArgumentFlags a := hnot a (List.mem_cons_self a w)
    have hkw : ∀ b ∈ w, k ∉ getArgumentFlags b :=
      fun b hb => hnot b (List.mem_cons_of_mem a hb)
    simp only [applyGreedy, exceptBind_ok] at h
    obtain ⟨⟨stored, res1⟩, hst, h⟩ := h
    have hc0 : resLookup res1 k = resLookup r k := isPositionalArgStored_other hka hst
    cases stored
    · simp only [Bool.false_eq_true, if_false] at h
      by_cases h1 : a.m_nargs = ""
      · rw [if_pos h1] at h
        simp only [exceptBind_ok] at h
        obtain ⟨r2, hsv, h⟩ := h
        obtain ⟨⟨r3, cs3, rem3⟩, hrec, hp⟩ := h
        simp only [exceptPure_ok, Prod.mk.injEq] at hp
        obtain ⟨he, -, -⟩ := hp
        subst he
        rw [ihw _ _ _ _ _ _ _ hkw hrec, storeValues_lookup_other _ _ _ hsv k hka, hc0]
      · rw [if_neg h1] at h
        by_cases h2 : a.m_nargs = "+"
        · rw [if_pos h2] at h
          simp only [exceptBind_ok] at h
          obtain ⟨r2, hsv, h⟩ := h
          obtain ⟨⟨r3, cs3, rem3⟩, hrec, hp⟩ := h
          simp only [exceptPure_ok, Prod.mk.injEq] at hp
          obtain ⟨he, -, -⟩ := hp
          subst he
          rw [ihw _ _ _ _ _ _ _ hkw hrec, storeValues_lookup_other _ _ _ hsv k hka, hc0]
        · rw [if_neg h2] at h
          by_cases h3 : a.m_nargs = "?"
          · rw [if_pos h3] at h
            simp only [exceptBind_ok] at h
            obtain ⟨⟨r3, cs3, rem3⟩, hrec, hp⟩ := h
            simp only [exceptPure_ok, Prod.mk.injEq] at hp
            obtain ⟨he, -, -⟩ := hp
            subst he
            rw [ihw _ _ _ _ _ _ _ hkw hrec, storeDefaultValue_lookup_other hka, hc0]
          · rw [if_neg h3] at h
            by_cases h4 : a.m_nargs = "*"
            · rw [if_pos h4] at h
              by_cases h5 : over > 0
              · rw [if_pos h5] at h
                simp only [exceptBind_ok] at h
                obtain ⟨r2, hsv, h⟩ := h
                obtain ⟨⟨r3, cs3, rem3⟩, hrec, hp⟩ := h
                simp only [exceptPure_ok, Prod.mk.injEq] at hp
                obtain ⟨he, -, -⟩ := hp
                subst he
                rw [ihw _ _ _ _ _ _ _ hkw hrec,
                  storeValues_lookup_other _ _ _ hsv k hka, hc0]
              · rw [if_neg h5] at h
                simp only [exceptBind_ok] at h
                obtain ⟨⟨r3, cs3, rem3⟩, hrec, hp⟩ := h
                simp only [exceptPure_ok, Prod.mk.injEq] at hp
                obtain ⟨he, -, -⟩ := hp
                subst he
                rw [ihw _ _ _ _ _ _ _ hkw hrec, storeDefaultValue_lookup_other hka, hc0]
            · rw [if_neg h4] at h
              simp only [exceptBind_ok] at h
              obtain ⟨r2, hsv, h⟩ := h
              obtain ⟨⟨r3, cs3, rem3⟩, hrec, hp⟩ := h
              simp only [exceptPure_ok, Prod.mk.injEq] at hp
              obtain ⟨he, -, -⟩ := hp
              subst he
              rw [ihw _ _ _ _ _ _ _ hkw hrec,
                storeValues_lookup_other _ _ _ hsv k hka, hc0]
    · simp only [if_pos] at h
      simp only [exceptBind_ok] at h
      obtain ⟨⟨r3, cs3, rem3⟩, hrec, hp⟩ := h
      simp only [exceptPure_ok, Prod.mk.injEq] at hp
      obtain ⟨he, -, -⟩ := hp
      subst he
      rw [ihw _ _ _ _ _ _ _ hkw hrec, hc0]

theorem applyOne_other (p : ArgumentParser) (os : Nat) :
    ∀ (w : List Argument) (args : List String) (over : Nat) (r rr : Res) (cs : List Nat)
      (rem : List String) (k : String),
      (∀ a ∈ w, k ∉ getArgumentFlags a) →
      applyOne p os w args over r = .ok (rr, cs, rem) →
      resLookup rr k = resLookup r k := by
  intro w
  induction w with
  | nil =>
    intro args over r rr cs rem k _ h
    simp only [applyOne, exceptPure_ok, Prod.mk.injEq] at h
    obtain ⟨h1, -, -⟩ := h
    subst h1
    rfl
  | cons a w ihw =>
    intro args over r rr cs rem k hnot h
    have hka : k ∉ getArgumentFlags a := hnot a (List.mem_cons_self a w)
    have hkw : ∀ b ∈ w, k ∉ getArgumentFlags b :=
      fun b hb => hnot b (List.mem_cons_of_mem a hb)
    simp only [applyOne, exceptBind_ok] at h
    obtain ⟨⟨stored, res1⟩, hst, h⟩ := h
    have hc0 : resLookup res1 k = resLookup r k := isPositionalArgStored_other hka hst
    cases stored
    · simp only [Bool.false_eq_true, if_false] at h
      by_cases h1 : a.m_nargs = ""
      · rw [if_pos h1] at h
        simp only [exceptBind_ok] at h
        obtain ⟨r2, hsv, h⟩ := h
        obtain ⟨⟨r3, cs3, rem3⟩, hrec, hp⟩ := h
        simp only [exceptPure_ok, Prod.mk.injEq] at hp
        obtain ⟨he, -, -⟩ := hp
        subst he
        rw [ihw _ _ _ _ _ _ _ hkw hrec, storeValues_lookup_other _ _ _ hsv k hka, hc0]
      · rw [if_neg h1] at h
        by_cases h2 : a.m_nargs = "?"
        · rw [if_pos h2] at h
          by_cases h3 : over < os
          · rw [if_pos h3] at h
            simp only [exceptBind_ok] at h
            obtain ⟨r2, hsv, h⟩ := h
            obtain ⟨⟨r3, cs3, rem3⟩, hrec, hp⟩ := h
            simp only [exceptPure_ok, Prod.mk.injEq] at hp
            obtain ⟨he, -, -⟩ := hp
            subst he
            rw [ihw _ _ _ _ _ _ _ hkw hrec, storeValues_lookup_other _ _ _ hsv k hka, hc0]
          · rw [if_neg h3] at h
            simp only [exceptBind_ok] at h
            obtain ⟨⟨r3, cs3, rem3⟩, hrec, hp⟩ := h
            simp only [exceptPure_ok, Prod.mk.injEq] at hp
            obtain ⟨he, -, -⟩ := hp
            subst he
            rw [ihw _ _ _ _ _ _ _ hkw hrec, storeDefaultValue_lookup_other hka, hc0]
        · rw [if_neg h2] at h
          simp only [exceptBind_ok] at h
          obtain ⟨r2, hsv, h⟩ := h
          obtain ⟨⟨r3, cs3, rem3⟩, hrec, hp⟩ := h
          simp only [exceptPure_ok, Prod.mk.injEq] at hp
          obtain ⟨he, -, -⟩ := hp
          subst he
          rw [ihw _ _ _ _ _ _ _ hkw hrec, storeValues_lookup_other _ _ _ hsv k hka, hc0]
    · simp only [if_pos] at h
      simp only [exceptBind_ok] at h
      obtain ⟨⟨r3, cs3, rem3⟩, hrec, hp⟩ := h
      simp only [exceptPure_ok, Prod.mk.injEq] at hp
      obtain ⟨he, -, -⟩ := hp
      subst he
      rw [ihw _ _ _ _ _ _ _ hkw hrec, hc0]

theorem applyMins_other (p : ArgumentParser) :
    ∀ (w : List Argument) (args : List String) (r rr : Res) (cs : List Nat)
      (rem : List String) (k : String),
      (∀ a ∈ w, k ∉ getArgumentFlags a) →
      applyMins p w args r = .ok (rr, cs, rem) →
      resLookup rr k = resLookup r k := by
  intro w
  induction w with
  | nil =>
    intro args r rr cs rem k _ h
    simp only [applyMins, exceptPure_ok, Prod.mk.injEq] at h
    obtain ⟨h1, -, -⟩ := h
    subst h1
    rfl
  | cons a w ihw =>
    intro args r rr cs rem k hnot h
    have hka : k ∉ getArgumentFlags a := hnot a (List.mem_cons_self a w)
    have hkw : ∀ b ∈ w, k ∉ getArgumentFlags b :=
      fun b hb => hnot b (List.mem_cons_of_mem a hb)
    simp only [applyMins, exceptBind_ok] at h
    obtain ⟨⟨stored, res1⟩, hst, h⟩ := h
    have hc0 : resLookup res1 k = resLookup r k := isPositionalArgStored_other hka hst
    cases stored
    · simp only [Bool.false_eq_true, if_false] at h
      by_cases h1 : a.m_nargs = ""
      · rw [if_pos h1] at h
        simp only [exceptBind_ok] at h
        obtain ⟨r2, hsv, h⟩ := h
        obtain ⟨⟨r3, cs3, rem3⟩, hrec, hp⟩ := h
        simp only [exceptPure_ok, Prod.mk.injEq] at hp
        obtain ⟨he, -, -⟩ := hp
        subst he
        rw [ihw _ _ _ _ _ _ hkw hrec, storeValues_lookup_other _ _ _ hsv k hka, hc0]
      · rw [if_neg h1] at h
        simp only [exceptBind_ok] at h
        obtain ⟨r2, hsv, h⟩ := h
        obtain ⟨⟨r3, cs3, rem3⟩, hrec, hp⟩ := h
        simp only [exceptPure_ok, Prod.mk.injEq] at hp
        obtain ⟨he, -, -⟩ := hp
        subst he
        rw [ihw _ _ _ _ _ _ hkw hrec, storeValues_lookup_other _ _ _ hsv k hka, hc0]
    · simp only [if_pos] at h
      simp only [exceptBind_ok] at h
      obtain ⟨⟨r3, cs3, rem3⟩, hrec, hp⟩ := h
      simp only [exceptPure_ok, Prod.mk.injEq] at hp
      obtain ⟨he, -, -⟩ := hp
      subst he
      rw [ihw _ _ _ _ _ _ hkw hrec, hc0]

theorem matchGroup_other {p : ArgumentParser} {positional : List Argument}
    {pos : Nat} {args : List String} {r : Res} {pos2 : Nat} {rr : Res}
    {unrec : List String} {cs : List Nat} {k : String}
    (hnot : ∀ a ∈ positional, k ∉ getArgumentFlags a)
    (h : matchGroup p positional pos args r = Except.ok (pos2, rr, unrec, cs)) :
    resLookup rr k = resLookup r k := by
  have hwin : ∀ len, ∀ a ∈ (positional.drop pos).take len, k ∉ getArgumentFlags a :=
    fun len a haw => hnot a (List.drop_subset _ _ (List.take_subset _ _ haw))
  by_cases hp : positional.length ≤ pos
  · rw [matchGroup, if_pos hp, exceptPure_ok] at h
    injection h with h1 h
    injection h with h2 h
    subst h2
    rfl
  · rcases hscan : windowScan args.length (positional.drop pos) 0 with ⟨len, ms, os, mo⟩
    rw [matchGroup, if_neg hp] at h
    dsimp only at h
    rw [hscan] at h
    by_cases hlen0 : len = 0
    · rw [if_pos hlen0, exceptPure_ok] at h
      injection h with h1 h
      injection h with h2 h
      subst h2
      rfl
    · rw [if_neg hlen0] at h
      by_cases hms : ms = args.length
      · rw [if_pos hms] at h
        simp only [exceptBind_ok] at h
        obtain ⟨⟨r2, cs2, rem2⟩, happ, hpure⟩ := h
        simp only [exceptPure_ok, Prod.mk.injEq] at hpure
        obtain ⟨-, he, -, -⟩ := hpure
        subst he
        exact applyExact_other p _ _ _ _ _ _ k (hwin len) happ
      · rw [if_neg hms] at h
        by_cases hmo : mo = true
        · rw [if_pos hmo] at h
          simp only [exceptBind_ok] at h
          obtain ⟨⟨r2, cs2, rem2⟩, happ, hpure⟩ := h
          simp only [exceptPure_ok, Prod.mk.injEq] at hpure
          obtain ⟨-, he, -, -⟩ := hpure
          subst he
          exact applyGreedy_other p _ _ _ _ _ _ _ k (hwin len) happ
        · rw [if_neg hmo] at h
          by_cases hone : args.length ≤ ms + os
          · rw [if_pos hone] at h
            simp only [exceptBind_ok] at h
            obtain ⟨⟨r2, cs2, rem2⟩, happ, hpure⟩ := h
            simp only [exceptPure_ok, Prod.mk.injEq] at hpure
            obtain ⟨-, he, -, -⟩ := hpure
            subst he
            exact applyOne_other p os _ _ _ _ _ _ _ k (hwin len) happ
          · rw [if_neg hone] at h
            simp only [exceptBind_ok] at h
            obtain ⟨⟨r2, cs2, rem2⟩, happ, hpure⟩ := h
            simp only [exceptPure_ok, Prod.mk.injEq] at hpure
            obtain ⟨-, he, -, -⟩ := hpure
            subst he
            exact applyMins_other p _ _ _ _ _ _ k (hwin len) happ

theorem matchAll_other {p : ArgumentParser} {positional : List Argument} {k : String}
    (hnot : ∀ a ∈ positional, k ∉ getArgumentFlags a) :
    ∀ (gs : List (List String)) (acc : Nat × Res × List String × List Nat)
      (out : Nat × Res × List String × List Nat),
      matchAll p positional gs acc = Except.ok out →
      resLookup out.2.1 k = resLookup acc.2.1 k := by
  intro gs
  induction gs with
  | nil =>
    intro acc out h
    simp only [matchAll, exceptPure_ok] at h
    subst h
    rfl
  | cons g gs ih =>
    intro acc out h
    obtain ⟨pos, r0, unrec, consumed⟩ := acc
    simp only [matchAll, exceptBind_ok] at h
    obtain ⟨⟨pos1, r1, nu, cs1⟩, hmg, hrest⟩ := h
    rw [ih (pos1, r1, unrec ++ nu, consumed ++ cs1) out hrest]
    exact matchGroup_other hnot hmg

theorem finalizeFold_other (p : ArgumentParser) {k : String} :
    ∀ (slots : List Argument) (acc : String × Res) (out : String × Res),
      (∀ a ∈ slots, k ∉ getArgumentFlags a) →
      slots.foldlM
        (fun (acc : String × Res) arg => do
          let (argsStr, res) := acc
          if argsStr = "" then do
            let (stored, res) ← isPositionalArgStored p arg res
            if stored then pure (argsStr, res)
            else if arg.m_nargs = "?" ∨ arg.m_nargs = "*" then
              pure (argsStr, storeDefaultValue p arg res)
            else pure (arg.m_flags.headD "", res)
          else pure (argsStr ++ ", " ++ arg.m_flags.headD "", res)) acc = Except.ok out →
      resLookup out.2 k = resLookup acc.2 k := by
  intro slots
  induction slots with
  | nil =>
    intro acc out _ h
    simp only [List.foldlM_nil, exceptPure_ok] at h
    subst h
    rfl
  | cons a slots ih =>
    intro acc out hnot h
    have hka : k ∉ getArgumentFlags a := hnot a (List.mem_cons_self a slots)
    have hkw : ∀ b ∈ slots, k ∉ getArgumentFlags b :=
      fun b hb => hnot b (List.mem_cons_of_mem a hb)
    simp only [List.foldlM_cons, exceptBind_ok] at h
    obtain ⟨acc1, hstep, hrest⟩ := h
    rw [ih acc1 out hkw hrest]
    obtain ⟨s0, r0⟩ := acc
    dsimp only at hstep
    split at hstep
    · simp only [exceptBind_ok] at hstep
      obtain ⟨⟨stored, r1⟩, hst, hstep⟩ := hstep
      have hcs : resLookup r1 k = resLookup r0 k := isPositionalArgStored_other hka hst
      split at hstep
      · rw [exceptPure_ok] at hstep
        subst hstep
        exact hcs
      · split at hstep
        · rw [exceptPure_ok] at hstep
          subst hstep
          dsimp only
          rw [storeDefaultValue_lookup_other hka, hcs]
        · rw [exceptPure_ok] at hstep
          subst hstep
          exact hcs
    · rw [exceptPure_ok] at hstep
      subst hstep
      rfl

theorem finalizeBlock_other {p : ArgumentParser} {positional : List Argument}
    {requiredArgs : List String} {pos : Nat} {r rr : Res} {k : String}
    (hnot : ∀ a ∈ positional, k ∉ getArgumentFlags a)
    (h : finalizeBlock p positional requiredArgs pos r = Except.ok rr) :
    resLookup rr k = resLookup r k := by
  unfold finalizeBlock at h
  split at h
  · simp only [exceptBind_ok] at h
    obtain ⟨⟨argsStr2, r1⟩, hfold, h⟩ := h
    dsimp only at h
    split at h
    · simp only [exceptThrow_ok] at h
    · rw [exceptPure_ok] at h
      exact h ▸ finalizeFold_other p (positional.drop pos) ("", r) (argsStr2, r1)
        (fun a ha => hnot a (List.drop_subset _ _ ha)) hfold
  · rw [exceptPure_ok] at h
    subst h
    rfl

theorem resLookup_fillDefaults (p : ArgumentParser) (opts : List Argument) :
    ∀ (r : Res) (k : String),
      resLookup (fillDefaults p opts r) k =
        (resLookup r k).map (fun av => (fillEntry p opts (k, av)).2)
  | [], _ => rfl
  | e :: rest, k => by
    rw [fillDefaults_eq_map, List.map_cons, resLookup_cons, resLookup_cons, fillEntry_fst]
    by_cases hek : e.1 = k
    · rw [if_pos hek, if_pos hek]
      have he2 : fillEntry p opts e = fillEntry p opts (k, e.2) := by
        rw [show e = (e.1, e.2) from rfl, hek]
      rw [he2]
      rfl
    · rw [if_neg hek, if_neg hek, ← fillDefaults_eq_map,
        resLookup_fillDefaults p opts rest k]

theorem fillEntry_snd_congr (p : ArgumentParser) (opts : List Argument)
    {k1 k2 : String} (av : ArgumentValue)
    (h : getOptionalArgByDest opts k1 = getOptionalArgByDest opts k2) :
    (fillEntry p opts (k1, av)).2 = (fillEntry p opts (k2, av)).2 := by
  unfold fillEntry
  dsimp only
  rw [h]
  split
  · cases getOptionalArgByDest opts k2 with
    | none => rfl
    | some argument =>
      dsimp only
      split <;> rfl
  · rfl

theorem resLookup_resInsert_other {r : Res} {kn : String} {v : ArgumentValue} {k : String}
    (hk : k ≠ kn) : resLookup (resInsert r kn v) k = resLookup r k := by
  induction r with
  | nil =>
    rw [resInsert, resLookup_cons]
    have : ¬ kn = k := fun h => hk h.symm
    rw [if_neg this]
  | cons e rest ih =>
    rw [resInsert]
    split
    · rw [resLookup_cons]
      have : ¬ kn = k := fun h => hk h.symm
      rw [if_neg this]
    · rw [resLookup_cons, resLookup_cons]
      split
      · rfl
      · exact ih

theorem resLookup_resInsert_self {r : Res} {kn : String} {v : ArgumentValue}
    (hc : resContains r kn = false) : resLookup (resInsert r kn v) kn = some v := by
  induction r with
  | nil =>
    rw [resInsert, resLookup_cons, if_pos rfl]
  | cons e rest ih =>
    have hek : ¬ e.1 = kn := by
      intro he
      rw [resContains, resLookup_cons, if_pos he] at hc
      simp at hc
    have hcr : resContains rest kn = false := by
      rw [resContains, resLookup_cons, if_neg hek] at hc
      exact hc
    rw [resInsert]
    split
    · rw [resLookup_cons, if_pos rfl]
    · rw [resLookup_cons, if_neg hek]
      exact ih hcr

theorem insertFold_preserved (v : ArgumentValue) (e : String → Err) :
    ∀ (flags : List String) (r rr : Res),
      (flags.foldlM (fun r fl =>
        if resContains r fl then throw (e fl) else pure (resInsert r fl v)) r
        : Except Err Res) = Except.ok rr →
      ∀ k, resContains r k = true → resLookup rr k = resLookup r k
  | [], r, rr, h, k, _ => by
    simp only [List.foldlM_nil, exceptPure_ok] at h
    subst h
    rfl
  | fl :: fls, r, rr, h, k, hck => by
    simp only [List.foldlM_cons, exceptBind_ok] at h
    obtain ⟨r1, hstep, hrest⟩ := h
    split at hstep
    · rw [exceptThrow_ok] at hstep
      exact hstep.elim
    · next hc =>
      rw [exceptPure_ok] at hstep
      subst hstep
      have hne : k ≠ fl := by
        intro he
        rw [he] at hck
        simp [hck] at hc
      have hck1 : resContains (resInsert r fl v) k = true := by
        rw [resContains_resInsert, hck, Bool.or_true]
      rw [insertFold_preserved v e fls _ rr hrest k hck1, resLookup_resInsert_other hne]

theorem insertFold_owner (v : ArgumentValue) (e : String → Err) :
    ∀ (flags : List String) (r rr : Res),
      (flags.foldlM (fun r fl =>
        if resContains r fl then throw (e fl) else pure (resInsert r fl v)) r
        : Except Err Res) = Except.ok rr →
      ∀ k ∈ flags, resLookup rr k = some v
  | [], _, _, _, k, hk => absurd hk (List.not_mem_nil k)
  | fl :: fls, r, rr, h, k, hk => by
    simp only [List.foldlM_cons, exceptBind_ok] at h
    obtain ⟨r1, hstep, hrest⟩ := h
    split at hstep
    · rw [exceptThrow_ok] at hstep
      exact hstep.elim
    · next hc =>
      rw [exceptPure_ok] at hstep
      subst hstep
      rcases List.mem_cons.mp hk with hk1 | hk1
      · subst hk1
        have hself : resLookup (resInsert r k v) k = some v :=
          resLookup_resInsert_self (by simpa using hc)
        have hck1 : resContains (resInsert r k v) k = true := by
          rw [resContains, hself]
          rfl
        rw [insertFold_preserved v e fls _ rr hrest k hck1, hself]
      · exact insertFold_owner v e fls _ rr hrest k hk1

theorem insertFold_nodup (v : ArgumentValue) (e : String → Err) :
    ∀ (flags : List String) (r rr : Res),
      (flags.foldlM (fun r fl =>
        if resContains r fl then throw (e fl) else pure (resInsert r fl v)) r
        : Except Err Res) = Except.ok rr →
      flags.Nodup
  | [], _, _, _ => List.nodup_nil
  | fl :: fls, r, rr, h => by
    simp only [List.foldlM_cons, exceptBind_ok] at h
    obtain ⟨r1, hstep, hrest⟩ := h
    split at hstep
    · rw [exceptThrow_ok] at hstep
      exact hstep.elim
    · next hc =>
      rw [exceptPure_ok] at hstep
      subst hstep
      obtain ⟨-, habs⟩ := insertFold_keys v e fls _ rr hrest
      rw [List.nodup_cons]
      refine ⟨fun hmem => ?_, insertFold_nodup v e fls _ rr hrest⟩
      have := habs fl hmem
      rw [resContains_resInsert] at this
      simp at this

theorem createResult_nodup :
    ∀ (args : List Argument) (r rr : Res),
      createResult args r = Except.ok rr →
      ∀ A ∈ args, (getArgumentFlags A).Nodup
  | [], _, _, _, A, hA => absurd hA (List.not_mem_nil A)
  | a :: rest, r, rr, h, A, hA => by
    simp only [createResult, List.foldlM_cons, exceptBind_ok] at h
    obtain ⟨r1, hstep, hrest⟩ := h
    have hrest2 : createResult rest r1 = Except.ok rr := by
      simp only [createResult]
      exact hrest
    rcases List.mem_cons.mp hA with hA1 | hA1
    · subst hA1
      exact insertFold_nodup (A.m_action, [])
        (fun flag => (⟨.argumentError,
          "argument " ++ flag ++ ": conflicting option string: " ++ flag⟩ : Err))
        (getArgumentFlags A) r r1 hstep
    · exact createResult_nodup rest r1 rr hrest2 A hA1

theorem createResult_preserved :
    ∀ (args : List Argument) (r rr : Res),
      createResult args r = Except.ok rr →
      ∀ k, resContains r k = true → resLookup rr k = resLookup r k
  | [], r, rr, h, k, _ => by
    simp only [createResult, List.foldlM_nil, exceptPure_ok] at h
    subst h
    rfl
  | a :: rest, r, rr, h, k, hck => by
    simp only [createResult, List.foldlM_cons, exceptBind_ok] at h
    obtain ⟨r1, hstep, hrest⟩ := h
    have hrest2 : createResult rest r1 = Except.ok rr := by
      simp only [createResult]
      exact hrest
    obtain ⟨i1, -⟩ := insertFold_keys (a.m_action, [])
      (fun flag => (⟨.argumentError,
        "argument " ++ flag ++ ": conflicting option string: " ++ flag⟩ : Err))
      (getArgumentFlags a) r r1 hstep
    have hck1 : resContains r1 k = true := (i1 k).mpr (Or.inr hck)
    rw [createResult_preserved rest r1 rr hrest2 k hck1]
    exact insertFold_preserved _ _ (getArgumentFlags a) r r1 hstep k hck

theorem createResult_owner_lookup :
    ∀ (args : List Argument) (r rr : Res),
      createResult args r = Except.ok rr →
      ∀ A ∈ args, ∀ k ∈ getArgumentFlags A, resLookup rr k = some (A.m_action, [])
  | [], _, _, _, A, hA, _, _ => absurd hA (List.not_mem_nil A)
  | a :: rest, r, rr, h, A, hA, k, hk => by
    simp only [createResult, List.foldlM_cons, exceptBind_ok] at h
    obtain ⟨r1, hstep, hrest⟩ := h
    have hrest2 : createResult rest r1 = Except.ok rr := by
      simp only [createResult]
      exact hrest
    rcases List.mem_cons.mp hA with hA1 | hA1
    · subst hA1
      have hown : resLookup r1 k = some (A.m_action, []) :=
        insertFold_owner _ _ (getArgumentFlags A) r r1 hstep k hk
      have hck1 : resContains r1 k = true := by
        rw [resContains, hown]
        rfl
      rw [createResult_preserved rest r1 rr hrest2 k hck1, hown]
    · exact createResult_owner_lookup rest r1 rr hrest2 A hA1 k hk

theorem parsePrep_owner {p : ArgumentParser} {fs : String → Option (List String)}
    {ts : List String} {hn : Bool} {res : Res} {rts : List String}
    (h : parsePrep p fs ts = Except.ok (hn, res, rts))
    {A : Argument} (hA : A ∈ optionalArguments p) :
    ∀ k ∈ getArgumentFlags A, resLookup res k = some (A.m_action, []) := by
  obtain ⟨r1, hc1, hc2⟩ := parsePrep_parts h
  exact createResult_owner_lookup _ _ _ hc2 A hA

theorem parsePrep_nodup {p : ArgumentParser} {fs : String → Option (List String)}
    {ts : List String} {hn : Bool} {res : Res} {rts : List String}
    (h : parsePrep p fs ts = Except.ok (hn, res, rts))
    {A : Argument} (hA : A ∈ optionalArguments p) : (getArgumentFlags A).Nodup := by
  obtain ⟨r1, hc1, hc2⟩ := parsePrep_parts h
  exact createResult_nodup _ _ _ hc2 A hA

/-- Claim C5 (amended): each time a `store`-action optional is matched in the
token stream without an attached `=value`, its previously stored value lists
are discarded and replaced by exactly the values this specification consumes
(the original claim fails at parse end: the final default-materialization
pass refills an emptied `store` result from the default). -/
theorem claim_C5_store_overwrite_amended (p : ArgumentParser) (haveNeg : Bool)
    (temp : Argument) (argN : String) (splitted rest : List String) (r rr : Res)
    (n : Nat) (ws : List String) (n0 : Nat)
    (hact : temp.m_action = Action.store)
    (hN : (getArgumentFlags temp).Nodup)
    (hpres : ∀ k ∈ getArgumentFlags temp, resContains r k = true)
    (hsplit : splitted.length ≠ 2)
    (hco : consumeOptValues p temp argN (rest.takeWhile (isValueLike p haveNeg))
      = Except.ok (ws, n0))
    (h : dispatchOpt p haveNeg temp argN splitted rest r = Except.ok (rr, n)) :
    n = n0 ∧ ∀ k ∈ getArgumentFlags temp, valuesAt rr k = ws := by
  simp only [dispatchOpt, hact, eq_self_iff_true, if_true] at h
  rw [if_neg hsplit] at h
  simp only [exceptBind_ok, exceptPure_ok, Prod.mk.injEq] at h
  obtain ⟨⟨ws2, k2⟩, hco2, r1, hsv, he, hn⟩ := h
  rw [hco] at hco2
  injection hco2 with hco2
  injection hco2 with hw hk
  subst hw
  subst hk
  subst he
  refine ⟨hn.symm, fun k hk => ?_⟩
  have hlk := storeValues_lookup_mem _ _ _ hsv hN k hk
  rw [clearValues_lookup_mem hN hk] at hlk
  have hc := hpres k hk
  rw [resContains] at hc
  cases hl : resLookup r k with
  | none =>
    rw [hl] at hc
    simp at hc
  | some av =>
    rw [hl] at hlk
    simp only [Option.map_some'] at hlk
    rw [valuesAt, hlk]
    simp

theorem claim_C5_store_overwrite_amended_witness :
    (c5cexArg.m_action = Action.store ∧ (getArgumentFlags c5cexArg).Nodup ∧
      (∀ k ∈ getArgumentFlags c5cexArg,
        resContains [("-x", (Action.store, ["old"]))] k = true) ∧
      (["-x"] : List String).length ≠ 2 ∧
      consumeOptValues c5cexP c5cexArg "-x"
        (([] : List String).takeWhile (isValueLike c5cexP false)) =
        Except.ok (([] : List String), 0) ∧
      dispatchOpt c5cexP false c5cexArg "-x" ["-x"] [] [("-x", (Action.store, ["old"]))]
        = Except.ok ([("-x", (Action.store, ([] : List String)))], 0)) ∧
    (0 = 0 ∧ ∀ k ∈ getArgumentFlags c5cexArg,
      valuesAt [("-x", (Action.store, ([] : List String)))] k = []) :=
  ⟨by decide, claim_C5_store_overwrite_amended c5cexP false c5cexArg "-x" ["-x"] []
    [("-x", (Action.store, ["old"]))] [("-x", (Action.store, []))] 0 [] 0
    (by decide) (by decide) (by decide) (by decide) (by decide) (by decide)⟩

theorem positional_type {p : ArgumentParser} {a : Argument}
    (h : a ∈ positionalArguments p) : a.m_type = ArgType.Positional := by
  unfold positionalArguments at h
  have := List.of_mem_filter h
  simpa using this

theorem optional_type {p : ArgumentParser} {a : Argument}
    (h : a ∈ optionalArguments p) : a.m_type = ArgType.Optional := by
  unfold optionalArguments at h
  rcases List.mem_append.mp h with h1 | h1
  · by_cases hh : p.m_add_help
    · rw [if_pos hh] at h1
      rcases List.mem_singleton.mp h1 with rfl
      rfl
    · rw [if_neg hh] at h1
      exact absurd h1 (List.not_mem_nil a)
  · have := List.of_mem_filter h1
    simpa using this

theorem mainLoop_eqKeys {p : ArgumentParser} {A : Argument}
    (hN : (getArgumentFlags A).Nodup)
    (hdisj : ∀ B ∈ optionalArguments p, ∀ k, k ∈ getArgumentFlags B →
      k ∈ getArgumentFlags A → B = A) :
    ∀ (haveNeg : Bool) (fuel : Nat) (ts : List String) (st st2 : MainSt),
      mainLoop p (optionalArguments p) haveNeg fuel ts st = Except.ok st2 →
      (∀ k1 ∈ getArgumentFlags A, ∀ k2 ∈ getArgumentFlags A,
        resLookup st.result k1 = resLookup st.result k2) →
      (∀ k1 ∈ getArgumentFlags A, ∀ k2 ∈ getArgumentFlags A,
        resLookup st2.result k1 = resLookup st2.result k2) := by
  intro haveNeg fuel
  induction fuel with
  | zero =>
    intro ts st st2 h he
    cases ts with
    | nil =>
      simp only [mainLoop, exceptPure_ok] at h
      subst h
      exact he
    | cons t ts =>
      simp only [mainLoop, exceptThrow_ok] at h
  | succ m ih =>
    intro ts st st2 h he
    cases ts with
    | nil =>
      simp only [mainLoop, exceptPure_ok] at h
      subst h
      exact he
    | cons tok rest =>
      rw [mainLoop] at h
      split at h
      · simp only [exceptThrow_ok] at h
      · dsimp only at h
        split at h
        · next temp heq =>
          simp only [exceptBind_ok] at h
          obtain ⟨⟨r1, k⟩, hdis, hrec⟩ := h
          have htm : temp ∈ optionalArguments p := getOptionalArgByFlag_mem heq
          by_cases hta : temp = A
          · subst hta
            obtain ⟨F, hF⟩ := dispatchOpt_mapChar hN hdis
            refine ih _ _ _ hrec ?_
            intro k1 hk1 k2 hk2
            rw [hF k1 hk1, hF k2 hk2, he k1 hk1 k2 hk2]
          · refine ih _ _ _ hrec ?_
            intro k1 hk1 k2 hk2
            have h1 : k1 ∉ getArgumentFlags temp :=
              fun hin => hta (hdisj temp htm k1 hin hk1)
            have h2 : k2 ∉ getArgumentFlags temp :=
              fun hin => hta (hdisj temp htm k2 hin hk2)
            rw [dispatchOpt_other h1 hdis, dispatchOpt_other h2 hdis]
            exact he k1 hk1 k2 hk2
        · split at h
          · exact ih _ _ _ h he
          · exact ih _ _ _ h he

/-- Claim C9 (amended): for an optional argument, each of whose result keys
resolves back to the argument itself in the by-dest lookup used for default
materialization, a successful parse leaves the same action tag and an
identical value sequence under every one of its keys.  (Without that proviso
another optional with a custom dest may share a flag and divert the final
default fill, breaking the symmetry.) -/
theorem claim_C9_flag_keys_amended (p : ArgumentParser)
    (fs : String → Option (List String)) (ts : List String) (ns : Namespace)
    (A : Argument) (hA : A ∈ optionalArguments p)
    (hlook : ∀ k ∈ getArgumentFlags A,
      getOptionalArgByDest (optionalArguments p) k = some A)
    (hok : parseKnownArgs p fs ts = Except.ok ns) :
    ∀ k1 ∈ getArgumentFlags A, ∀ k2 ∈ getArgumentFlags A,
      resLookup ns.m_arguments k1 = resLookup ns.m_arguments k2 := by
  unfold parseKnownArgs at hok
  cases haux : parseAux p fs ts with
  | error e =>
    rw [haux] at hok
    simp [Except.map] at hok
  | ok out =>
    rw [haux] at hok
    simp only [Except.map] at hok
    injection hok with hns
    obtain ⟨hn, res0, rts, st, pos, r2, unrec, consumed, r3, hprep, hml, hma, hfin,
      hfill⟩ := parseAux_parts haux
    have hN : (getArgumentFlags A).Nodup := parsePrep_nodup hprep hA
    have hdist := parsePrep_distinct hprep
    have hdisj : ∀ B ∈ optionalArguments p, ∀ k, k ∈ getArgumentFlags B →
        k ∈ getArgumentFlags A → B = A :=
      fun B hB k hkB hkA => hdist B (mem_allParseArgs_of_optional hB) A
        (mem_allParseArgs_of_optional hA) k hkB hkA
    have hnotpos : ∀ k ∈ getArgumentFlags A, ∀ a ∈ positionalArguments p,
        k ∉ getArgumentFlags a := by
      intro k hk a hapos hmem
      have hae : a = A := hdist a (mem_allParseArgs_of_positional hapos) A
        (mem_allParseArgs_of_optional hA) k hmem hk
      have h1 := positional_type hapos
      rw [hae, optional_type hA] at h1
      exact ArgType.noConfusion h1
    have heq0 : ∀ k1 ∈ getArgumentFlags A, ∀ k2 ∈ getArgumentFlags A,
        resLookup res0 k1 = resLookup res0 k2 := by
      intro k1 hk1 k2 hk2
      rw [parsePrep_owner hprep hA k1 hk1, parsePrep_owner hprep hA k2 hk2]
    have heq1 := mainLoop_eqKeys hN hdisj hn rts.length rts ⟨res0, [], []⟩ st hml heq0
    have heq2 : ∀ k1 ∈ getArgumentFlags A, ∀ k2 ∈ getArgumentFlags A,
        resLookup r2 k1 = resLookup r2 k2 := by
      intro k1 hk1 k2 hk2
      have e1 := matchAll_other (fun a ha => hnotpos k1 hk1 a ha) st.groups
        (0, st.result, st.unrec, []) (pos, r2, unrec, consumed) hma
      have e2 := matchAll_other (fun a ha => hnotpos k2 hk2 a ha) st.groups
        (0, st.result, st.unrec, []) (pos, r2, unrec, consumed) hma
      rw [show resLookup r2 k1 = resLookup ((pos, r2, unrec, consumed) :
          Nat × Res × List String × List Nat).2.1 k1 from rfl] at e1
      rw [e1, e2]
      exact heq1 k1 hk1 k2 hk2
    have heq3 : ∀ k1 ∈ getArgumentFlags A, ∀ k2 ∈ getArgumentFlags A,
        resLookup r3 k1 = resLookup r3 k2 := by
      intro k1 hk1 k2 hk2
      rw [finalizeBlock_other (fun a ha => hnotpos k1 hk1 a ha) hfin,
        finalizeBlock_other (fun a ha => hnotpos k2 hk2 a ha) hfin]
      exact heq2 k1 hk1 k2 hk2
    intro k1 hk1 k2 hk2
    rw [← hns, hfill, resLookup_fillDefaults p _ r3 k1, resLookup_fillDefaults p _ r3 k2,
      heq3 k1 hk1 k2 hk2]
    cases hl : resLookup r3 k2 with
    | none => rfl
    | some av =>
      simp only [Option.map_some']
      rw [fillEntry_snd_congr p _ av ((hlook k1 hk1).trans (hlook k2 hk2).symm)]

/-- `add_argument("-v", "--verbose")`. -/
def c9amArg : Argument :=
  { m_flags := ["-v", "--verbose"], m_name := "verbose", m_type := ArgType.Optional }

theorem c9amArg_built : mkArgument "-" ["-v", "--verbose"] = Except.ok c9amArg := by
  decide

def c9amP : ArgumentParser := { m_arguments := [c9amArg] }

/-- The namespace produced by the C9 witness parse. -/
def c9amNs : Namespace :=
  ⟨[("--help", (Action.store_true, ["0"])), ("--verbose", (Action.store, ["val"])),
    ("-h", (Action.store_true, ["0"])), ("-v", (Action.store, ["val"]))], "-"⟩

theorem claim_C9_flag_keys_amended_witness :
    (c9amArg ∈ optionalArguments c9amP ∧
      (∀ k ∈ getArgumentFlags c9amArg,
        getOptionalArgByDest (optionalArguments c9amP) k = some c9amArg) ∧
      parseKnownArgs c9amP fsNone ["-v", "val"] = Except.ok c9amNs) ∧
    (∀ k1 ∈ getArgumentFlags c9amArg, ∀ k2 ∈ getArgumentFlags c9amArg,
      resLookup c9amNs.m_arguments k1 = resLookup c9amNs.m_arguments k2) :=
  ⟨by decide, claim_C9_flag_keys_amended c9amP fsNone ["-v", "val"] c9amNs c9amArg
    (by decide) (by decide) (by decide)⟩

theorem getOptionalArgByFlag_contains {os : List Argument} {key : String} {a : Argument}
    (h : getOptionalArgByFlag os key = some a) : key ∈ a.m_flags := by
  unfold getOptionalArgByFlag at h
  have := List.find?_some h
  simpa using this

theorem mem_drop_of_not_valueLike {p : ArgumentParser} {haveNeg : Bool} {l : List String}
    {m : Nat} {t : String} (hm : m ≤ (l.takeWhile (isValueLike p haveNeg)).length)
    (ht : isValueLike p haveNeg t = false) (hmem : t ∈ l) : t ∈ l.drop m := by
  have hsplit : l = l.take m ++ l.drop m := (List.take_append_drop m l).symm
  rcases List.mem_append.mp (hsplit ▸ hmem) with h1 | h1
  · exfalso
    have htake : l.take m = (l.takeWhile (isValueLike p haveNeg)).take m := by
      conv_lhs => rw [← List.takeWhile_append_dropWhile (isValueLike p haveNeg) l]
      rw [List.take_append_of_le_length hm]
    rw [htake] at h1
    have h2 := List.mem_takeWhile_imp (List.take_subset _ _ h1)
    rw [ht] at h2
    exact Bool.noConfusion h2
  · exact h1

theorem mainLoop_storeTrue {p : ArgumentParser} {A : Argument} {haveNeg : Bool}
    (hAact : A.m_action = Action.store_true)
    (hN : (getArgumentFlags A).Nodup)
    (hdisj : ∀ B ∈ optionalArguments p, ∀ k, k ∈ getArgumentFlags B →
      k ∈ getArgumentFlags A → B = A)
    (hflag : ∀ f ∈ A.m_flags, getOptionalArgByFlag (optionalArguments p) f = some A)
    (hshape : ∀ f ∈ A.m_flags, isValueLike p haveNeg f = false ∧ splitEqual f = [f]) :
    ∀ (fuel : Nat) (ts : List String) (st st2 : MainSt),
      mainLoop p (optionalArguments p) haveNeg fuel ts st = Except.ok st2 →
      ∀ k ∈ getArgumentFlags A,
      (resLookup st.result k = some (A.m_action, []) →
        resLookup st2.result k =
          some (A.m_action, if ∃ t ∈ ts, t ∈ A.m_flags then [A.m_const] else []))
      ∧ (resLookup st.result k = some (A.m_action, [A.m_const]) →
        resLookup st2.result k = some (A.m_action, [A.m_const])) := by
  intro fuel
  induction fuel with
  | zero =>
    intro ts st st2 h k hk
    cases ts with
    | nil =>
      simp only [mainLoop, exceptPure_ok] at h
      subst h
      constructor
      · intro hpre
        rw [hpre]
        simp
      · intro hpre
        exact hpre
    | cons t ts =>
      simp only [mainLoop, exceptThrow_ok] at h
  | succ m ih =>
    intro ts st st2 h k hk
    cases ts with
    | nil =>
      simp only [mainLoop, exceptPure_ok] at h
      subst h
      constructor
      · intro hpre
        rw [hpre]
        simp
      · intro hpre
        exact hpre
    | cons tok rest =>
      rw [mainLoop] at h
      split at h
      · simp only [exceptThrow_ok] at h
      · dsimp only at h
        split at h
        · next temp heq =>
          simp only [exceptBind_ok] at h
          obtain ⟨⟨r1, k2⟩, hdis, hrec⟩ := h
          have htm : temp ∈ optionalArguments p := getOptionalArgByFlag_mem heq
          by_cases htokA : tok ∈ A.m_flags
          · have hsp : splitEqual tok = [tok] := (hshape tok htokA).2
            rw [hsp] at heq
            simp only [List.length_singleton] at heq
            rw [if_neg (by omega)] at heq
            rw [hflag tok htokA] at heq
            injection heq with htemp
            subst htemp
            rw [hsp] at hdis
            simp only [dispatchOpt, hAact] at hdis
            rw [if_pos (show ([tok] : List String).length = 1 from rfl)] at hdis
            rw [exceptPure_ok] at hdis
            injection hdis with hr1 hk2
            subst hr1
            subst hk2
            simp only [List.drop_zero] at hrec
            constructor
            · intro hpre
              have hmid : resLookup (storeConstValue A st.result) k =
                  some (A.m_action, [A.m_const]) := by
                rw [storeConstValue_lookup_mem hN hk, hpre]
                simp
              have hres := (ih _ _ _ hrec k hk).2 hmid
              rw [hres, if_pos ⟨tok, List.mem_cons_self tok rest, htokA⟩]
            · intro hpre
              have hmid : resLookup (storeConstValue A st.result) k =
                  some (A.m_action, [A.m_const]) := by
                rw [storeConstValue_lookup_mem hN hk, hpre]
                simp
              exact (ih _ _ _ hrec k hk).2 hmid
          · by_cases hta : temp = A
            · subst hta
              exfalso
              by_cases hlen : (splitEqual tok).length = 2
              · simp only [dispatchOpt, hAact] at hdis
                split at hdis
                · next hc => omega
                · simp only [exceptThrow_ok] at hdis
              · rw [if_neg hlen] at heq
                exact htokA (getOptionalArgByFlag_contains heq)
            · have hkn : k ∉ getArgumentFlags temp :=
                fun hin => hta (hdisj temp htm k hin hk)
              have hother := dispatchOpt_other hkn hdis
              have hdrop := dispatchOpt_drop hdis
              have hiff : (∃ t ∈ tok :: rest, t ∈ A.m_flags) ↔
                  (∃ t ∈ rest.drop k2, t ∈ A.m_flags) := by
                constructor
                · rintro ⟨t, htm2, htf⟩
                  rcases List.mem_cons.mp htm2 with rfl | hmem
                  · exact absurd htf htokA
                  · exact ⟨t, mem_drop_of_not_valueLike hdrop (hshape t htf).1 hmem, htf⟩
                · rintro ⟨t, htm2, htf⟩
                  exact ⟨t, List.mem_cons_of_mem tok (List.drop_subset _ _ htm2), htf⟩
              constructor
              · intro hpre
                have hpre1 : resLookup ({ st with result := r1 } : MainSt).result k =
                    some (A.m_action, []) := by
                  dsimp only
                  rw [hother]
                  exact hpre
                have hres := (ih _ _ _ hrec k hk).1 hpre1
                rw [hres, if_congr hiff rfl rfl]
              · intro hpre
                have hpre2 : resLookup ({ st with result := r1 } : MainSt).result k =
                    some (A.m_action, [A.m_const]) := by
                  dsimp only
                  rw [hother]
                  exact hpre
                exact (ih _ _ _ hrec k hk).2 hpre2
        · next heq =>
          have htokA : tok ∉ A.m_flags := by
            intro hin
            have hsp : splitEqual tok = [tok] := (hshape tok hin).2
            rw [hsp] at heq
            simp only [List.length_singleton] at heq
            rw [if_neg (by omega)] at heq
            rw [hflag tok hin] at heq
            exact Option.noConfusion heq
          have hiff0 : (∃ t ∈ tok :: rest, t ∈ A.m_flags) ↔
              (∃ t ∈ rest, t ∈ A.m_flags) := by
            constructor
            · rintro ⟨t, htm2, htf⟩
              rcases List.mem_cons.mp htm2 with rfl | hmem
              · exact absurd htf htokA
              · exact ⟨t, hmem, htf⟩
            · rintro ⟨t, htm2, htf⟩
              exact ⟨t, List.mem_cons_of_mem tok htm2, htf⟩
          split at h
          · constructor
            · intro hpre
              have hres := (ih _ _ _ h k hk).1 hpre
              rw [hres, if_congr hiff0 rfl rfl]
            · intro hpre
              exact (ih _ _ _ h k hk).2 hpre
          · constructor
            · intro hpre
              have hres := (ih _ _ _ h k hk).1 hpre
              rw [hres]
              have hiff : (∃ t ∈ tok :: rest, t ∈ A.m_flags) ↔
                  (∃ t ∈ rest.drop (rest.takeWhile (isValueLike p haveNeg)).length,
                    t ∈ A.m_flags) := by
                constructor
                · rintro ⟨t, htm2, htf⟩
                  rcases List.mem_cons.mp htm2 with rfl | hmem
                  · exact absurd htf htokA
                  · exact ⟨t, mem_drop_of_not_valueLike le_rfl (hshape t htf).1 hmem,
                      htf⟩
                · rintro ⟨t, htm2, htf⟩
                  exact ⟨t, List.mem_cons_of_mem tok (List.drop_subset _ _ htm2), htf⟩
              rw [if_congr hiff rfl rfl]
            · intro hpre
              exact (ih _ _ _ h k hk).2 hpre

/-- Claim C6 (amended): `action(store_true)` sets default `"0"`, const `"1"`
and arity `"0"`/0; and for an optional store_true argument whose flags are
plain option-shaped tokens resolved to itself, a successful parse stores
exactly one value under each of its keys: `"1"` when one of its flags occurs
in the resolved token stream, otherwise its default `"0"`.  (The original
claim fails for positional store_true arguments, which are satisfied in place
during positional finalization without their flag appearing.) -/
theorem claim_C6_store_true_amended (p : ArgumentParser)
    (fs : String → Option (List String)) (ts : List String) (ns : Namespace)
    (A : Argument) (hA : A ∈ optionalArguments p)
    (hAact : A.m_action = Action.store_true)
    (hconst : A.m_const = "1") (hdef : A.m_default = "0")
    (hshape : ∀ f ∈ A.m_flags, isOptionalArgument f p.m_prefix_chars = true ∧
      isNegativeNumber f = false ∧ splitEqual f = [f])
    (hflag : ∀ f ∈ A.m_flags, getOptionalArgByFlag (optionalArguments p) f = some A)
    (hlook : ∀ k ∈ getArgumentFlags A,
      getOptionalArgByDest (optionalArguments p) k = some A)
    (hok : parseKnownArgs p fs ts = Except.ok ns) :
    (∀ (a a2 : Argument), a.actionA Action.store_true = Except.ok a2 →
      a2.m_default = "0" ∧ a2.m_const = "1" ∧ a2.m_nargs = "0" ∧ a2.m_num_args = 0) ∧
    ∀ hn res0 rts, parsePrep p fs ts = Except.ok (hn, res0, rts) →
      ∀ k ∈ getArgumentFlags A,
        valuesAt ns.m_arguments k =
          if ∃ t ∈ rts, t ∈ A.m_flags then ["1"] else ["0"] := by
  constructor
  · intro a a2 hb
    unfold Argument.actionA at hb
    dsimp only at hb
    rw [exceptPure_ok] at hb
    subst hb
    exact ⟨rfl, rfl, rfl, rfl⟩
  · intro hn res0 rts hprep2 k hk
    unfold parseKnownArgs at hok
    cases haux : parseAux p fs ts with
    | error e =>
      rw [haux] at hok
      simp [Except.map] at hok
    | ok out =>
      rw [haux] at hok
      simp only [Except.map] at hok
      injection hok with hns
      obtain ⟨hn2, res02, rts2, st, pos, r2, unrec, consumed, r3, hprep, hml, hma, hfin,
        hfill⟩ := parseAux_parts haux
      rw [hprep2] at hprep
      injection hprep with hprep
      injection hprep with he1 hprep
      injection hprep with he2 he3
      subst he1
      subst he2
      subst he3
      have hN : (getArgumentFlags A).Nodup := parsePrep_nodup hprep2 hA
      have hdist := parsePrep_distinct hprep2
      have hdisj : ∀ B ∈ optionalArguments p, ∀ kk, kk ∈ getArgumentFlags B →
          kk ∈ getArgumentFlags A → B = A :=
        fun B hB kk hkB hkA => hdist B (mem_allParseArgs_of_optional hB) A
          (mem_allParseArgs_of_optional hA) kk hkB hkA
      have hnotpos : ∀ kk ∈ getArgumentFlags A, ∀ a ∈ positionalArguments p,
          kk ∉ getArgumentFlags a := by
        intro kk hkk a hapos hmem
        have hae : a = A := hdist a (mem_allParseArgs_of_positional hapos) A
          (mem_allParseArgs_of_optional hA) kk hmem hkk
        have h1 := positional_type hapos
        rw [hae, optional_type hA] at h1
        exact ArgType.noConfusion h1
      have hshape2 : ∀ f ∈ A.m_flags, isValueLike p hn f = false ∧ splitEqual f = [f] := by
        intro f hf
        obtain ⟨h1, h2, h3⟩ := hshape f hf
        exact ⟨by simp [isValueLike, h1, h2], h3⟩
      have hpre0 : resLookup res0 k = some (A.m_action, []) :=
        parsePrep_owner hprep2 hA k hk
      have hstval := (mainLoop_storeTrue hAact hN hdisj hflag hshape2 rts.length rts
        ⟨res0, [], []⟩ st hml k hk).1 hpre0
      have hr2val : resLookup r2 k =
          some (A.m_action, if ∃ t ∈ rts, t ∈ A.m_flags then [A.m_const] else []) := by
        have e1 := matchAll_other (fun a ha => hnotpos k hk a ha) st.groups
          (0, st.result, st.unrec, []) (pos, r2, unrec, consumed) hma
        rw [show resLookup r2 k = resLookup ((pos, r2, unrec, consumed) :
            Nat × Res × List String × List Nat).2.1 k from rfl, e1]
        exact hstval
      have hr3val : resLookup r3 k =
          some (A.m_action, if ∃ t ∈ rts, t ∈ A.m_flags then [A.m_const] else []) := by
        rw [finalizeBlock_other (fun a ha => hnotpos k hk a ha) hfin]
        exact hr2val
      have hfe1 : (fillEntry p (optionalArguments p) (k, (A.m_action, ["1"]))).2 =
          (A.m_action, ["1"]) := by
        unfold fillEntry
        simp
      have hfe0 : (fillEntry p (optionalArguments p) (k, (A.m_action, []))).2 =
          (A.m_action, ["0"]) := by
        unfold fillEntry
        rw [if_pos ⟨rfl, by rw [hAact]; intro hc; exact Action.noConfusion hc⟩]
        dsimp only
        rw [hlook k hk]
        dsimp only
        have hv : defaultArgValue p A = "0" := by
          unfold defaultArgValue
          rw [hdef]
          rw [if_pos (by decide)]
        rw [hv]
        rw [if_pos (by decide)]
      by_cases hex : ∃ t ∈ rts, t ∈ A.m_flags
      · rw [if_pos hex] at hr3val
        rw [hconst] at hr3val
        rw [← hns, hfill, valuesAt, resLookup_fillDefaults p _ r3 k, hr3val]
        simp only [Option.map_some']
        rw [hfe1, if_pos hex]
        rfl
      · rw [if_neg hex] at hr3val
        rw [← hns, hfill, valuesAt, resLookup_fillDefaults p _ r3 k, hr3val]
        simp only [Option.map_some']
        rw [hfe0, if_neg hex]
        rfl

instance : DecidableEq (Bool × Res × List String) := instDecidableEqProd

/-- `add_argument("--on").action(store_true)`. -/
theorem c6amArg_built :
    (do
      let a ← mkArgument "-" ["--on"]
      a.actionA Action.store_true) = Except.ok (storeTrueArg "--on" "on") := by
  decide

def c6amP : ArgumentParser := { m_arguments := [storeTrueArg "--on" "on"] }

/-- The result skeleton of the C6 witness parse. -/
def c6amRes0 : Res :=
  [("--help", (Action.store_true, [])), ("--on", (Action.store_true, [])),
    ("-h", (Action.store_true, []))]

/-- The namespace produced by the C6 witness parse. -/
def c6amNs : Namespace :=
  ⟨[("--help", (Action.store_true, ["0"])), ("--on", (Action.store_true, ["1"])),
    ("-h", (Action.store_true, ["0"]))], "-"⟩

theorem claim_C6_store_true_amended_witness :
    (parseKnownArgs c6amP fsNone ["--on"] = Except.ok c6amNs ∧
      parsePrep c6amP fsNone ["--on"] = Except.ok (false, c6amRes0, ["--on"])) ∧
    valuesAt c6amNs.m_arguments "--on" =
      (if ∃ t ∈ ["--on"], t ∈ (storeTrueArg "--on" "on").m_flags
        then ["1"] else ["0"]) :=
  ⟨⟨by decide, by decide⟩,
    (claim_C6_store_true_amended c6amP fsNone ["--on"] c6amNs (storeTrueArg "--on" "on")
      (by decide) (by decide) (by decide) (by decide) (by decide) (by decide) (by decide)
      (by decide)).2 false c6amRes0 ["--on"] (by decide) "--on" (by decide)⟩

end ArgparseModel
